import Mathlib

/-!
# Directory synchroniser (`main.go`): a shallow embedding

Go strings are modelled as lists of characters, the filesystem as a finite
table from absolute component paths to nodes, and every function of
`main.go` as a state-passing function on that table.  The functions of the
Go standard library that `main.go` calls (`strings.Replace`,
`filepath.Clean`, `filepath.Join`, `filepath.Rel`, `filepath.Walk`,
`os.Stat`, `os.MkdirAll`, `os.Open`, `os.Create`) are modelled after their
documented Unix behaviour.

What the model leaves out: symbolic links; permissions other than the write
permission of a directory; printing.  A walk carries a budget for the depth
of its recursion (the result `none` stands for the budget running out), and
the loop over a Go map visits the entries in the order they were entered.
The digest function (`crypto/md5` with `hex.EncodeToString`) is a parameter
`md5` of the functions that hash.
-/

namespace SimpleFileBackUp

/-- A Go string. -/
abbrev Str := List Char

/-! ## `strings` -/

/-- `strings.HasPrefix s p`. -/
def hasPrefix : Str → Str → Bool
  | _, [] => true
  | [], _ :: _ => false
  | c :: s, d :: p => c == d && hasPrefix s p

/-- `strings.Replace(s, old, "", 1)`: the first occurrence of `old` in `s` is
removed; `s` is returned unchanged when `old` does not occur (or is empty). -/
def replaceFirst : Str → Str → Str
  | [], _ => []
  | c :: s, old =>
    if hasPrefix (c :: s) old then (c :: s).drop old.length
    else c :: replaceFirst s old

/-! ## `path/filepath` (Unix) -/

/-- The elements of a path between its separators (`strings.Split(p, "/")`). -/
def splitSlash : Str → List Str
  | [] => [[]]
  | c :: cs =>
    match splitSlash cs with
    | [] => [[]]
    | w :: ws => if c = '/' then [] :: w :: ws else (c :: w) :: ws

/-- `strings.Join(elems, "/")`. -/
def joinSlash : List Str → Str
  | [] => []
  | [w] => w
  | w :: v :: ws => w ++ '/' :: joinSlash (v :: ws)

/-- Is the path rooted (does it begin with the separator)? -/
def isRooted : Str → Bool
  | '/' :: _ => true
  | _ => false

/-- One step of the element loop of `filepath.Clean`.  `out` is the output
buffer, most recent element first.  Empty elements and `.` are dropped; `..`
removes the last element of the buffer when there is one that is not itself
`..`, is appended when the path is not rooted, and is dropped otherwise. -/
def cleanStep (rooted : Bool) (out : List Str) (e : Str) : List Str :=
  if e = [] ∨ e = ['.'] then out
  else if e = ['.', '.'] then
    match out with
    | [] => if rooted then [] else [e]
    | t :: rest => if t = ['.', '.'] then e :: t :: rest else rest
  else e :: out

/-- The elements that `filepath.Clean` keeps, in order. -/
def cleanElems (p : Str) : List Str :=
  ((splitSlash p).foldl (cleanStep (isRooted p)) []).reverse

/-- `filepath.Clean`. -/
def clean (p : Str) : Str :=
  if isRooted p then '/' :: joinSlash (cleanElems p)
  else if cleanElems p = [] then ['.']
  else joinSlash (cleanElems p)

/-- `filepath.Join(a, b)`: the non-empty arguments joined by a separator and
cleaned; the empty string when both are empty. -/
def join (a b : Str) : Str :=
  if a ≠ [] then clean (a ++ '/' :: b)
  else if b ≠ [] then clean b
  else []

/-- The longest common prefix of two element lists removed from both. -/
def dropCommon : List Str → List Str → List Str × List Str
  | b :: bs, t :: ts => if b = t then dropCommon bs ts else (b :: bs, t :: ts)
  | bs, ts => (bs, ts)

/-- `filepath.Rel(base, targ)`; `none` is the error result.  Both paths are
cleaned, their common leading elements are dropped, and what is left of
`targ` is returned behind one `..` for each element left of `base`.  (`Rel`
turns a cleaned base `.` into the empty path but leaves a cleaned target `.`
as the element `.`.) -/
def rel (base targ : Str) : Option Str :=
  let b := clean base
  let t := clean targ
  if t = b then some ['.']
  else if isRooted b ≠ isRooted t then none
  else
    let r := dropCommon (cleanElems base) (if t = ['.'] then [t] else cleanElems targ)
    if r.1.head? = some ['.', '.'] then none
    else if r.1 ≠ [] then some (joinSlash (r.1.map (fun _ => ['.', '.']) ++ r.2))
    else some (joinSlash r.2)

/-! ## The filesystem -/

/-- An absolute location: the names from the filesystem root downwards. -/
abbrev Path := List Str

/-- What a location holds: a regular file with its bytes, a directory (with
its write permission), or something that is neither (socket, device, ...). -/
inductive Node where
  | file (bytes : List Nat)
  | dir (writable : Bool)
  | other
  deriving DecidableEq, Repr

/-- The error numbers the model distinguishes. -/
inductive Errno where
  | ENOENT | ENOTDIR | EACCES | EISDIR | EEXIST | ENXIO
  deriving DecidableEq, Repr

/-- The state of the world: the working directory of the process and the
table of everything below the filesystem root.  The root itself is always a
writable directory. -/
structure World where
  cwd : Path
  tab : List (Path × Node)
  deriving DecidableEq, Repr

/-- The node at an absolute location. -/
def nodeAt (w : World) (p : Path) : Option Node :=
  if p = [] then some (Node.dir true) else w.tab.lookup p

/-- One element of a path followed from `cur`. -/
def stepElem (cur : Path) (e : Str) : Path :=
  if e = [] ∨ e = ['.'] then cur
  else if e = ['.', '.'] then cur.dropLast
  else cur ++ [e]

/-- Path resolution: every element is looked up in a directory that has to
exist (`ENOENT`) and be a directory (`ENOTDIR`). -/
def walkTo (w : World) : Path → List Str → Except Errno Path
  | cur, [] => .ok cur
  | cur, e :: es =>
    match nodeAt w cur with
    | none => .error Errno.ENOENT
    | some (Node.dir _) => walkTo w (stepElem cur e) es
    | some _ => .error Errno.ENOTDIR

/-- Where resolution of a path string starts. -/
def startOf (w : World) (p : Str) : Path :=
  if isRooted p then [] else w.cwd

/-- `os.Stat` / `os.Lstat` (the model has no symbolic links). -/
def stat (w : World) (p : Str) : Except Errno Node :=
  if p = [] then .error Errno.ENOENT
  else
    match walkTo w (startOf w p) (splitSlash p) with
    | .error e => .error e
    | .ok q =>
      match nodeAt w q with
      | none => .error Errno.ENOENT
      | some n => .ok n

/-- `os.IsNotExist(err)`. -/
def isNotExist : Errno → Bool
  | Errno.ENOENT => true
  | _ => false

/-- The table with the node at `p` set to `n`. -/
def setNode : List (Path × Node) → Path → Node → List (Path × Node)
  | [], p, n => [(p, n)]
  | (q, m) :: t, p, n => if q = p then (q, n) :: t else (q, m) :: setNode t p n

/-- A path string's elements without the empty ones that trailing
separators leave at the end. -/
def trimmedElems (p : Str) : List Str :=
  ((splitSlash p).reverse.dropWhile (fun e => e = [])).reverse

/-- `os.Mkdir`: the parent has to resolve to a writable directory and the
last element has to name something that does not exist yet. -/
def mkdir (w : World) (p : Str) : Except Errno World :=
  if p = [] then .error Errno.ENOENT
  else
    match walkTo w (startOf w p) (trimmedElems p).dropLast with
    | .error e => .error e
    | .ok q =>
      match nodeAt w q with
      | none => .error Errno.ENOENT
      | some (Node.dir wr) =>
        match (trimmedElems p).getLast? with
        | none => .error Errno.EEXIST
        | some e =>
          if e = [] ∨ e = ['.'] ∨ e = ['.', '.'] then .error Errno.EEXIST
          else if (nodeAt w (q ++ [e])).isSome then .error Errno.EEXIST
          else if wr = false then .error Errno.EACCES
          else .ok { w with tab := setNode w.tab (q ++ [e]) (Node.dir true) }
      | some _ => .error Errno.ENOTDIR

/-- The parent that `os.MkdirAll` extracts from a path: trailing separators
are dropped, then everything back to the previous separator. -/
def parentOf (p : Str) : Str :=
  ((p.reverse.dropWhile (fun c => c = '/')).dropWhile (fun c => c ≠ '/')).reverse

/-- The chain of parents of a path, nearest first, as far as they are
non-empty.  Every parent is shorter than its child, so `n = p.length` steps
reach the end of the chain. -/
def parentChain : Nat → Str → List Str
  | 0, _ => []
  | n + 1, p => if parentOf p = [] then [] else parentOf p :: parentChain n (parentOf p)

/-- The end of `os.MkdirAll` once the parent has been dealt with: an error
from the parent is passed on; otherwise `os.Mkdir` is called for the path,
and its failure is forgiven when the path is a directory after all. -/
def mkdirLast (p : Str) : World × Option Errno → World × Option Errno
  | (w1, some e) => (w1, some e)
  | (w1, none) =>
    match mkdir w1 p with
    | .ok w2 => (w2, none)
    | .error e =>
      match stat w1 p with
      | .ok (Node.dir _) => (w1, none)
      | _ => (w1, some e)

/-- The recursion of `os.MkdirAll` along the chain of parents: a path that
is a directory is done, one that is something else is an error; otherwise
the parent (when there is one) is made first, then the path itself.  The
world is returned with the error, since parents made before a failure
stay. -/
def mkdirAllAux (w : World) : Str → List Str → World × Option Errno
  | p, [] =>
    match stat w p with
    | .ok (Node.dir _) => (w, none)
    | .ok _ => (w, some Errno.ENOTDIR)
    | .error _ => mkdirLast p (w, none)
  | p, par :: rest =>
    match stat w p with
    | .ok (Node.dir _) => (w, none)
    | .ok _ => (w, some Errno.ENOTDIR)
    | .error _ => mkdirLast p (mkdirAllAux w par rest)

/-- `os.MkdirAll(p, 0755)`. -/
def mkdirAll (w : World) (p : Str) : World × Option Errno :=
  mkdirAllAux w p (parentChain p.length p)

/-- `createDirIfNotExist` (main.go:40-45): only when `os.Stat` reports that
the path does not exist is `os.MkdirAll` called; in every other case,
including every other error of `os.Stat`, the result is `nil`. -/
def createDirIfNotExist (w : World) (dirPath : Str) : World × Option Errno :=
  match stat w dirPath with
  | .error e => if isNotExist e then mkdirAll w dirPath else (w, none)
  | .ok _ => (w, none)

/-- `os.Open`: the location a path resolves to, as the handle.  Regular files
and directories can be opened; other nodes cannot. -/
def openRead (w : World) (p : Str) : Except Errno Path :=
  if p = [] then .error Errno.ENOENT
  else
    match walkTo w (startOf w p) (splitSlash p) with
    | .error e => .error e
    | .ok q =>
      match nodeAt w q with
      | none => .error Errno.ENOENT
      | some Node.other => .error Errno.ENXIO
      | some _ => .ok q

/-- Reading an open handle to its end (`io.Copy` from it): the bytes of a
regular file; a directory cannot be read. -/
def readAll (w : World) (h : Path) : Except Errno (List Nat) :=
  match nodeAt w h with
  | some (Node.file b) => .ok b
  | some (Node.dir _) => .error Errno.EISDIR
  | _ => .error Errno.ENOENT

/-- `os.Create` (open for writing, create, truncate): an existing regular
file is emptied, a missing one is created empty in a writable directory. -/
def create (w : World) (p : Str) : Except Errno (World × Path) :=
  if p = [] then .error Errno.ENOENT
  else
    match walkTo w (startOf w p) (splitSlash p).dropLast with
    | .error e => .error e
    | .ok q =>
      match nodeAt w q with
      | none => .error Errno.ENOENT
      | some (Node.dir wr) =>
        match (splitSlash p).getLast? with
        | none => .error Errno.EISDIR
        | some e =>
          if e = [] ∨ e = ['.'] ∨ e = ['.', '.'] then .error Errno.EISDIR
          else
            match nodeAt w (q ++ [e]) with
            | some (Node.file _) =>
              .ok ({ w with tab := setNode w.tab (q ++ [e]) (Node.file []) }, q ++ [e])
            | some (Node.dir _) => .error Errno.EISDIR
            | some Node.other => .error Errno.ENXIO
            | none =>
              if wr = false then .error Errno.EACCES
              else .ok ({ w with tab := setNode w.tab (q ++ [e]) (Node.file []) }, q ++ [e])
      | some _ => .error Errno.ENOTDIR

/-- `getFileMd5` (main.go:26-37); `md5` is the digest function
(`crypto/md5` followed by `hex.EncodeToString`). -/
def getFileMd5 (md5 : List Nat → Str) (w : World) (filePath : Str) : Except Errno Str :=
  match openRead w filePath with
  | .error e => .error e
  | .ok h =>
    match readAll w h with
    | .error e => .error e
    | .ok b => .ok (md5 b)

/-- `copyFile` (main.go:69-84): the source is opened, the destination is
created or truncated, and then the bytes of the source are copied over. -/
def copyFile (w : World) (src dst : Str) : World × Option Errno :=
  match openRead w src with
  | .error e => (w, some e)
  | .ok h =>
    match create w dst with
    | .error e => (w, some e)
    | .ok (w1, d) =>
      match readAll w1 h with
      | .error e => (w1, some e)
      | .ok b => ({ w1 with tab := setNode w1.tab d (Node.file b) }, none)

/-! ## `filepath.Walk` -/

/-- Byte-wise order of strings, the order in which `Walk` visits names. -/
def strLt : Str → Str → Bool
  | [], [] => false
  | [], _ :: _ => true
  | _ :: _, [] => false
  | c :: s, d :: t => decide (c.toNat < d.toNat) || (c == d && strLt s t)

/-- A name put at its place in a sorted list of names. -/
def insertName (n : Str) : List Str → List Str
  | [] => [n]
  | m :: ms =>
    if n = m then m :: ms
    else if strLt n m then n :: m :: ms
    else m :: insertName n ms

/-- The name under which location `q` is an entry of directory `d`. -/
def childName (d q : Path) : Option Str :=
  match q.getLast? with
  | none => none
  | some n => if q.dropLast = d then some n else none

/-- The sorted names of the entries of the directory at location `d`. -/
def namesAt (w : World) (d : Path) : List Str :=
  w.tab.foldr (fun e acc =>
    match childName d e.1 with
    | some n => insertName n acc
    | none => acc) []

/-- The sorted names of the directory a path names (`readDirNames`). -/
def readDirNames (w : World) (p : Str) : Except Errno (List Str) :=
  if p = [] then .error Errno.ENOENT
  else
    match walkTo w (startOf w p) (splitSlash p) with
    | .error e => .error e
    | .ok q =>
      match nodeAt w q with
      | none => .error Errno.ENOENT
      | some (Node.dir _) => .ok (namesAt w q)
      | some _ => .error Errno.ENOTDIR

/-- The type of a `filepath.WalkFunc` over a state `σ`: the path, the file
info (when there is one) and the error handed in; the new state and the
error returned. -/
abbrev WalkFn (σ : Type) := σ → Str → Option Node → Option Errno → σ × Option Errno

/-- The loop of `walk` over the names of a directory; `visit` is `walk` on
one entry.  `none` stands for the recursion budget running out. -/
def walkNames {σ : Type} (getW : σ → World) (fn : WalkFn σ)
    (visit : σ → Str → Node → Option (σ × Option Errno)) (path : Str) :
    σ → List Str → Option (σ × Option Errno)
  | s, [] => some (s, none)
  | s, name :: rest =>
    match stat (getW s) (join path name) with
    | .error e =>
      match fn s (join path name) none (some e) with
      | (s1, some e1) => some (s1, some e1)
      | (s1, none) => walkNames getW fn visit path s1 rest
    | .ok fileInfo =>
      match visit s (join path name) fileInfo with
      | none => none
      | some (s1, some e1) => some (s1, some e1)
      | some (s1, none) => walkNames getW fn visit path s1 rest

/-- The function `walk` of `path/filepath`: a non-directory is handed to the
function; of a directory the names are read first, then the function is
called, then every name is walked in order.  The first argument bounds the
depth of the recursion. -/
def walk {σ : Type} (getW : σ → World) (fn : WalkFn σ) :
    Nat → σ → Str → Node → Option (σ × Option Errno)
  | 0, _, _, _ => none
  | k + 1, s, path, info =>
    match info with
    | Node.dir _ =>
      match readDirNames (getW s) path with
      | .error e => some (fn s path (some info) (some e))
      | .ok names =>
        match fn s path (some info) none with
        | (s1, some e1) => some (s1, some e1)
        | (s1, none) => walkNames getW fn (walk getW fn k) path s1 names
    | _ => some (fn s path (some info) none)

/-- `filepath.Walk(root, fn)`. -/
def filepathWalk {σ : Type} (getW : σ → World) (fn : WalkFn σ) (fuel : Nat) (s : σ)
    (root : Str) : Option (σ × Option Errno) :=
  match stat (getW s) root with
  | .error e => some (fn s root none (some e))
  | .ok info => walk getW fn fuel s root info

/-! ## `main.go` -/

/-- A Go `map[string]string`: an association list in which a key is bound
once. -/
abbrev GoMap := List (Str × Str)

/-- The assignment `m[k] = v`. -/
def mapSet : GoMap → Str → Str → GoMap
  | [], k, v => [(k, v)]
  | (k1, v1) :: m, k, v => if k1 = k then (k1, v) :: m else (k1, v1) :: mapSet m k v

/-- The type `ConfigItem` (main.go:15-19). -/
structure ConfigItem where
  Name : Str
  OriginalPath : Str
  TargetPath : Str
  deriving DecidableEq, Repr

/-- The function literal of `calculateDirMd5` (main.go:50-64). -/
def md5WalkFn (md5 : List Nat → Str) (w : World) (dirPath : Str) : WalkFn GoMap :=
  fun filesMd5 path info err =>
    match err with
    | some e => (filesMd5, some e)
    | none =>
      match info with
      | some (Node.file _) =>
        match getFileMd5 md5 w path with
        | .error e => (filesMd5, some e)
        | .ok md5Value => (mapSet filesMd5 (replaceFirst path dirPath) md5Value, none)
      | _ => (filesMd5, none)

/-- `calculateDirMd5` (main.go:48-66): the map and the error of the walk. -/
def calculateDirMd5 (md5 : List Nat → Str) (fuel : Nat) (w : World) (dirPath : Str) :
    Option (GoMap × Option Errno) :=
  filepathWalk (fun _ => w) (md5WalkFn md5 w dirPath) fuel [] dirPath

/-- One call of `copyFile` in the copy loop: the key of the source map it is
made for and the two paths handed to `copyFile`. -/
structure CopyCall where
  fileName : Str
  src : Str
  dst : Str
  deriving DecidableEq, Repr

/-- What a run of `processFile` leaves behind: the world, the directories
handed to `createDirIfNotExist` while mirroring, and the calls of `copyFile`,
both in the order they were made. -/
structure Run where
  world : World
  mirrored : List Str
  copies : List CopyCall
  deriving DecidableEq, Repr

/-- The function literal of the mirroring walk (main.go:102-115). -/
def mirrorWalkFn (config : ConfigItem) : WalkFn Run :=
  fun r path info err =>
    match err with
    | some e => (r, some e)
    | none =>
      match info with
      | some (Node.dir _) =>
        let relativePath := (rel config.OriginalPath path).getD []
        let targetDir := join config.TargetPath relativePath
        match createDirIfNotExist r.world targetDir with
        | (w1, some e) => ({ r with world := w1, mirrored := r.mirrored ++ [targetDir] }, some e)
        | (w1, none) => ({ r with world := w1, mirrored := r.mirrored ++ [targetDir] }, none)
      | _ => (r, none)

/-- The two-valued map read `v, exists := m[k]`. -/
def mapGet (m : GoMap) (k : Str) : Str × Bool :=
  match m.lookup k with
  | some v => (v, true)
  | none => ([], false)

/-- The loop that compares the digests and copies (main.go:121-134), over the
entries of the source map in the order the map yields them.  A failed copy
is only printed, so the loop goes on either way. -/
def copyLoop (config : ConfigItem) (targetMd5 : GoMap) : Run → GoMap → Run
  | r, [] => r
  | r, (fileName, originalMd5Value) :: rest =>
    if !(mapGet targetMd5 fileName).2 || originalMd5Value != (mapGet targetMd5 fileName).1 then
      let sourceFilePath := join config.OriginalPath fileName
      let targetFilePath := join config.TargetPath fileName
      copyLoop config targetMd5
        { r with
          world := (copyFile r.world sourceFilePath targetFilePath).1
          copies := r.copies ++ [⟨fileName, sourceFilePath, targetFilePath⟩] } rest
    else copyLoop config targetMd5 r rest

/-- `processFile` (main.go:86-136): the run and the error returned (`none`
is `nil`).  The outer `none` stands for a walk running out of budget. -/
def processFile (md5 : List Nat → Str) (fuel : Nat) (w : World) (config : ConfigItem) :
    Option (Run × Option Errno) :=
  match createDirIfNotExist w config.TargetPath with
  | (w0, some e) => some (⟨w0, [], []⟩, some e)
  | (w0, none) =>
    match calculateDirMd5 md5 fuel w0 config.OriginalPath with
    | none => none
    | some (_, some _) => some (⟨w0, [], []⟩, none)
    | some (originalMd5, none) =>
      match calculateDirMd5 md5 fuel w0 config.TargetPath with
      | none => none
      | some (_, some _) => some (⟨w0, [], []⟩, none)
      | some (targetMd5, none) =>
        match filepathWalk Run.world (mirrorWalkFn config) fuel ⟨w0, [], []⟩
            config.OriginalPath with
        | none => none
        | some (r, some _) => some (r, none)
        | some (r, none) => some (copyLoop config targetMd5 r originalMd5, none)

/-- `main` (main.go:138-159) once the configuration has been read into
`configItems`: the loop over the items.  The result lists the runs of the
items that were processed, in order; the loop stops at the first item for
which `processFile` returns an error. -/
def main (md5 : List Nat → Str) (fuel : Nat) : World → List ConfigItem → Option (List Run)
  | _, [] => some []
  | w, item :: rest =>
    match processFile md5 fuel w item with
    | none => none
    | some (r, some _) => some [r]
    | some (r, none) =>
      match main md5 fuel r.world rest with
      | none => none
      | some rs => some (r :: rs)

/-! ## The copy loop -/

/-- The test of the copy loop on one entry of the source map. -/
def needsCopy (targetMd5 : GoMap) (e : Str × Str) : Bool :=
  !(mapGet targetMd5 e.1).2 || e.2 != (mapGet targetMd5 e.1).1

/-! ## Concrete worlds -/

/-- The location written as a slash-separated string of names. -/
def loc (s : String) : Path := splitSlash s.toList

/-- An item of the configuration with the two roots as written. -/
def pair (originalPath targetPath : String) : ConfigItem :=
  ⟨"pair".toList, originalPath.toList, targetPath.toList⟩

/-- Two trees that hold the same file `a.txt`. -/
def twoTrees : World :=
  ⟨[], [(loc "src", Node.dir true), (loc "src/a.txt", Node.file [88]),
        (loc "dst", Node.dir true), (loc "dst/a.txt", Node.file [88])]⟩

/-- A working directory that holds the two regular files `a.b` and `ab`. -/
def dotTree : World :=
  ⟨loc "home", [(loc "home", Node.dir true), (loc "home/a.b", Node.file [1]),
        (loc "home/ab", Node.file [2])]⟩

/-- The working directory is `/c`.  The source tree `/a/b` holds the file
`x`; the target tree `/c/a` holds the file `b/x`, to which nothing in the
source tree corresponds (there is no `/a/b/b/x`); and there is a file
`/a/a/b/x` outside both trees. -/
def strayTree : World :=
  ⟨loc "c", [(loc "a", Node.dir true), (loc "a/b", Node.dir true),
        (loc "a/b/x", Node.file [1]), (loc "a/a", Node.dir true),
        (loc "a/a/b", Node.dir true), (loc "a/a/b/x", Node.file [2]),
        (loc "c", Node.dir true), (loc "c/a", Node.dir true),
        (loc "c/a/b", Node.dir true), (loc "c/a/b/x", Node.file [3])]⟩

/-- A source tree with a subdirectory, and a target root that exists but is
not writable. -/
def lockedTarget : World :=
  ⟨[], [(loc "src", Node.dir true), (loc "src/sub", Node.dir true),
        (loc "dst", Node.dir false)]⟩

/-! ## Relations between worlds -/

/-- Every node of `w` is still there in `w1`, and the working directory is
the same. -/
def Extends (w w1 : World) : Prop :=
  w1.cwd = w.cwd ∧ ∀ q n, nodeAt w q = some n → nodeAt w1 q = some n

/-- The location a path string names: its elements followed from the root
or from the working directory, whatever exists there. -/
def locOf (cwd : Path) (p : Str) : Path :=
  (splitSlash p).foldl stepElem (if isRooted p then [] else cwd)

/-- The target root `a/b` lies inside the source root `a`; both hold a file
`x`. -/
def nestedTree : World :=
  ⟨[], [(loc "a", Node.dir true), (loc "a/x", Node.file [1]),
        (loc "a/b", Node.dir true), (loc "a/b/x", Node.file [2])]⟩

/-- The hexadecimal digit of a number below sixteen. -/
def hexDigit (n : Nat) : Char :=
  "0123456789abcdef".toList.getD n '0'

/-- `hex.EncodeToString`. -/
def hexEncode (b : List Nat) : Str :=
  b.flatMap (fun n => [hexDigit (n / 16 % 16), hexDigit (n % 16)])

/-- The digest used in the concrete runs below: the bytes themselves, hex
encoded.  It separates any two different contents, as MD5 does for the
contents of these runs. -/
def plainDigest (b : List Nat) : Str := hexEncode b

/-- A source tree with the files `a.txt` ("X") and `sub/b.txt` ("Y"), and no
target tree yet. -/
def freshTarget : World :=
  ⟨[], [(loc "src", Node.dir true), (loc "src/a.txt", Node.file [88]),
        (loc "src/sub", Node.dir true), (loc "src/sub/b.txt", Node.file [89])]⟩

/-! ## Plainly written paths and well-formed worlds -/

/-- A name a directory entry can have: not empty, no separator in it, and
neither `.` nor `..`. -/
def validName (e : Str) : Bool :=
  e ≠ [] && !e.contains '/' && e ≠ ['.'] && e ≠ ['.', '.']

/-- The path string with the given names, absolute or relative, and no
other elements or separators. -/
def rootStr (abs : Bool) (es : List Str) : Str :=
  if abs then '/' :: joinSlash es else joinSlash es

/-- The location a plainly written path names. -/
def rootLoc (cwd : Path) (abs : Bool) (es : List Str) : Path :=
  if abs then es else cwd ++ es

/-- Every location that holds something, other than the root, lies in a
directory. -/
def ParentClosed (w : World) : Prop :=
  ∀ q n, nodeAt w q = some n → q ≠ [] → ∃ wr, nodeAt w q.dropLast = some (Node.dir wr)

/-- All names in the table are names a directory entry can have. -/
def ValidNames (w : World) : Prop :=
  ∀ q n, (q, n) ∈ w.tab → ∀ e ∈ q, validName e = true

/-- A well-formed world: names are valid, everything lies in a directory, and
the working directory is a directory. -/
def ValidWorld (w : World) : Prop :=
  ParentClosed w ∧ ValidNames w ∧ ∃ wr, nodeAt w w.cwd = some (Node.dir wr)

/-! ## The nodes a walk visits -/

/-- The paths and nodes that a walk from `path` (at location `l`, holding
`n`) hands to its function, in order: the node itself, and for a directory
everything below each of its entries. -/
def listTree (w : World) : Nat → Str → Path → Node → List (Str × Node)
  | 0, _, _, _ => []
  | k + 1, path, l, n =>
    match n with
    | Node.dir wr =>
      (path, Node.dir wr) :: (namesAt w l).flatMap (fun name =>
        match nodeAt w (l ++ [name]) with
        | some c => listTree w k (join path name) (l ++ [name]) c
        | none => [])
    | _ => [(path, n)]

/-- One call of a walk function on a node that was found, with its error
dropped. -/
def visit {σ : Type} (fn : WalkFn σ) (s : σ) (x : Str × Node) : σ :=
  (fn s x.1 (some x.2) none).1

/-- World `w1` is well formed and has, at and below location `l0`, the nodes
and listings of `w0`. -/
def Agrees (w0 w1 : World) (l0 : Path) : Prop :=
  ParentClosed w1 ∧ w1.cwd = w0.cwd ∧
    ∀ l, l0 <+: l → nodeAt w1 l = nodeAt w0 l ∧ namesAt w1 l = namesAt w0 l

/-- The budget `fuel` is enough to walk down from location `l` to every
location of the table. -/
def Shallow (w : World) (fuel : Nat) (l : Path) : Prop :=
  ∀ q n, (q, n) ∈ w.tab → q.length < fuel + l.length

/-- The effect of a visit on a map: nothing, or one assignment. -/
def applyEff (m : GoMap) : Option (Str × Str) → GoMap
  | none => m
  | some e => mapSet m e.1 e.2

/-- The key under which a walked path is entered into the map
(main.go:61). -/
def keyOf (dirPath path : Str) : Str := replaceFirst path dirPath

/-- The assignment that the function of `calculateDirMd5` makes for a node
it is handed: for a regular file, its key and digest; for anything else,
none. -/
def md5Eff (md5 : List Nat → Str) (dirPath : Str) (x : Str × Node) : Option (Str × Str) :=
  match x.2 with
  | Node.file b => some (keyOf dirPath x.1, md5 b)
  | _ => none

/-! ## Roots written in any way -/

/-- The path string resolves to location `l`: it is not empty, and every
element is followed from a directory that exists.  (Whether `l` itself holds
something is left open.) -/
def Resolves (w : World) (p : Str) (l : Path) : Prop :=
  p ≠ [] ∧ walkTo w (startOf w p) (splitSlash p) = .ok l

/-- The path a walk from `root` hands to its function for the node that lies
under the names `rs` below the root: the root as written, joined with one
name after the other. -/
def walked (root : Str) (rs : List Str) : Str := rs.foldl join root

/-- The buffer of `filepath.Clean` (most recent element first) is in cleaned
form: it holds no empty element and no `.`, and a `..` only in a path that
is not rooted and only with nothing but `..` before it. -/
def Canonical (rooted : Bool) (out : List Str) : Prop :=
  (∀ t ∈ out, ¬(t = [] ∨ t = ['.'])) ∧
    ∀ a b, out = a ++ ['.', '.'] :: b → rooted = false ∧ ∀ t ∈ b, t = ['.', '.']

/-! ## Pairs in good order -/

/-- Neither location lies at or below the other. -/
def Apart (a b : Path) : Prop := ¬ a <+: b ∧ ¬ b <+: a

/-- A pair whose directories are in good order: the world is well formed;
both roots are plainly written; the source root is a directory and the
target root a writable one; the two trees lie apart; and where the source
tree has a directory, the target tree has nothing or a writable
directory. -/
structure Aligned (w : World) (absS : Bool) (ss : List Str) (absT : Bool) (ts : List Str) :
    Prop where
  valid : ValidWorld w
  srcNe : ss ≠ []
  srcNames : ∀ e ∈ ss, validName e = true
  tgtNe : ts ≠ []
  tgtNames : ∀ e ∈ ts, validName e = true
  apart : Apart (rootLoc w.cwd absS ss) (rootLoc w.cwd absT ts)
  srcDir : ∃ wr, nodeAt w (rootLoc w.cwd absS ss) = some (Node.dir wr)
  tgtDir : nodeAt w (rootLoc w.cwd absT ts) = some (Node.dir true)
  dirsFit : ∀ rel wr, nodeAt w (rootLoc w.cwd absS ss ++ rel) = some (Node.dir wr) →
    nodeAt w (rootLoc w.cwd absT ts ++ rel) = none ∨
      nodeAt w (rootLoc w.cwd absT ts ++ rel) = some (Node.dir true)

/-- A pair in good order: its directories are in good order, and where the
source tree has a regular file, the target tree has nothing or a regular
file. -/
structure Tidy (w : World) (absS : Bool) (ss : List Str) (absT : Bool) (ts : List Str)
    extends Aligned w absS ss absT ts : Prop where
  filesFit : ∀ rel b, nodeAt w (rootLoc w.cwd absS ss ++ rel) = some (Node.file b) →
    nodeAt w (rootLoc w.cwd absT ts ++ rel) = none ∨
      ∃ b1, nodeAt w (rootLoc w.cwd absT ts ++ rel) = some (Node.file b1)

/-- The state of the mirroring walk, started in world `w`: the world is
still well formed, nothing has been copied, everything of `w` is still
there, the source tree is as it was, and what is new is a writable
directory in the target tree where the source tree has a directory. -/
structure MirrorInv (w : World) (absS : Bool) (ss : List Str) (absT : Bool) (ts : List Str)
    (r : Run) : Prop where
  closed : ParentClosed r.world
  names : ValidNames r.world
  cwd : r.world.cwd = w.cwd
  noCopies : r.copies = []
  ext : Extends w r.world
  same : Agrees w r.world (rootLoc w.cwd absS ss)
  fresh : ∀ q n, nodeAt r.world q = some n → nodeAt w q = some n ∨
    (n = Node.dir true ∧ ∃ rel wr, q = rootLoc w.cwd absT ts ++ rel ∧
      nodeAt w (rootLoc w.cwd absS ss ++ rel) = some (Node.dir wr))
  keys : ∀ q, q ∈ r.world.tab.map Prod.fst → q ∈ w.tab.map Prod.fst ∨
    ∃ rel wr, q = rootLoc w.cwd absT ts ++ rel ∧
      nodeAt w (rootLoc w.cwd absS ss ++ rel) = some (Node.dir wr)

/-- The world during the copy loop of a pair in good order (`w` at the start
of the run, `w1` after mirroring, `w2` now): still well formed, the source
tree as it was, every directory still there, and only regular files (or
nothing) in the target tree where the source tree has a regular file. -/
structure CopyInv (w : World) (absS : Bool) (ss : List Str) (absT : Bool) (ts : List Str)
    (w1 w2 : World) : Prop where
  closed : ParentClosed w2
  names : ValidNames w2
  cwd : w2.cwd = w.cwd
  srcSame : ∀ l, rootLoc w.cwd absS ss <+: l → nodeAt w2 l = nodeAt w l
  dirsKept : ∀ q wr, nodeAt w1 q = some (Node.dir wr) → nodeAt w2 q = some (Node.dir wr)
  tgtFiles : ∀ rs b, nodeAt w (rootLoc w.cwd absS ss ++ rs) = some (Node.file b) →
    nodeAt w2 (rootLoc w.cwd absT ts ++ rs) = none ∨
      ∃ b1, nodeAt w2 (rootLoc w.cwd absT ts ++ rs) = some (Node.file b1)
  keys : ∀ q, q ∈ w2.tab.map Prod.fst → q ∈ w.tab.map Prod.fst ∨
    ∃ rs n, q = rootLoc w.cwd absT ts ++ rs ∧
      nodeAt w (rootLoc w.cwd absS ss ++ rs) = some n

/-- What a run on a pair in good order leaves behind (`w` is the world at
the start, `r` the run): the world is well formed; the source tree is as it
was; every directory of the source tree has a writable directory at its
place in the target tree; a source file whose place in the target tree did
not hold a regular file of the same digest has been copied there, and the
other source files' places are as they were; `copyFile` was called once for
each of the former and for nothing else; and the table has grown only by
places in the target tree that mirror the source tree. -/
structure Outcome (md5 : List Nat → Str) (w : World) (absS : Bool) (ss : List Str)
    (absT : Bool) (ts : List Str) (r : Run) : Prop where
  valid : ValidWorld r.world
  cwd : r.world.cwd = w.cwd
  srcSame : ∀ l, rootLoc w.cwd absS ss <+: l → nodeAt r.world l = nodeAt w l
  dirs : ∀ rs wr, nodeAt w (rootLoc w.cwd absS ss ++ rs) = some (Node.dir wr) →
    nodeAt r.world (rootLoc w.cwd absT ts ++ rs) = some (Node.dir true)
  copied : ∀ rs b, nodeAt w (rootLoc w.cwd absS ss ++ rs) = some (Node.file b) →
    (¬ ∃ b1, nodeAt w (rootLoc w.cwd absT ts ++ rs) = some (Node.file b1) ∧ md5 b1 = md5 b) →
    nodeAt r.world (rootLoc w.cwd absT ts ++ rs) = some (Node.file b)
  kept : ∀ rs b, nodeAt w (rootLoc w.cwd absS ss ++ rs) = some (Node.file b) →
    (∃ b1, nodeAt w (rootLoc w.cwd absT ts ++ rs) = some (Node.file b1) ∧ md5 b1 = md5 b) →
    nodeAt r.world (rootLoc w.cwd absT ts ++ rs) = nodeAt w (rootLoc w.cwd absT ts ++ rs)
  callsOnce : (r.copies.map CopyCall.fileName).Nodup
  calls : ∀ k, k ∈ r.copies.map CopyCall.fileName ↔
    ∃ rs b, k = '/' :: joinSlash rs ∧
      nodeAt w (rootLoc w.cwd absS ss ++ rs) = some (Node.file b) ∧
      ¬ ∃ b1, nodeAt w (rootLoc w.cwd absT ts ++ rs) = some (Node.file b1) ∧ md5 b1 = md5 b
  keys : ∀ q, q ∈ r.world.tab.map Prod.fst → q ∈ w.tab.map Prod.fst ∨
    ∃ rs n, q = rootLoc w.cwd absT ts ++ rs ∧
      nodeAt w (rootLoc w.cwd absS ss ++ rs) = some n

/-! ## Checking that a pair is in good order -/

/-- Is the node at the location a directory? -/
def isDirAt (w : World) (q : Path) : Bool :=
  match nodeAt w q with
  | some (Node.dir _) => true
  | _ => false

/-- For a location `q` of the source tree: is its place in the target tree
free, or of the same kind (and writable, for a directory)? -/
def fitsAt (w : World) (locS locT q : Path) : Bool :=
  if locS.isPrefixOf q then
    match nodeAt w q with
    | some (Node.dir _) =>
      decide (nodeAt w (locT ++ q.drop locS.length) = none) ||
        decide (nodeAt w (locT ++ q.drop locS.length) = some (Node.dir true))
    | some (Node.file _) =>
      match nodeAt w (locT ++ q.drop locS.length) with
      | none => true
      | some (Node.file _) => true
      | _ => false
    | _ => true
  else true

/-- The conditions of `Tidy`, checked along the table. -/
def tidyCheck (w : World) (absS : Bool) (ss : List Str) (absT : Bool) (ts : List Str) : Bool :=
  w.tab.all (fun e => e.1.all validName && (e.1 == [] || isDirAt w e.1.dropLast)) &&
  isDirAt w w.cwd &&
  decide (ss ≠ []) && ss.all validName && decide (ts ≠ []) && ts.all validName &&
  !(rootLoc w.cwd absS ss).isPrefixOf (rootLoc w.cwd absT ts) &&
  !(rootLoc w.cwd absT ts).isPrefixOf (rootLoc w.cwd absS ss) &&
  isDirAt w (rootLoc w.cwd absS ss) &&
  decide (nodeAt w (rootLoc w.cwd absT ts) = some (Node.dir true)) &&
  w.tab.all (fun e => fitsAt w (rootLoc w.cwd absS ss) (rootLoc w.cwd absT ts) e.1)

/-- The budget exceeds the length of every location of the table by more
than `n`. -/
def roomyCheck (w : World) (fuel n : Nat) : Bool :=
  w.tab.all (fun e => decide (e.1.length + n < fuel))

/-- The world `freshTarget` after the first step of a run onto `dst`: the
target root has been made. -/
def freshTargetMade : World :=
  ⟨[], [(loc "src", Node.dir true), (loc "src/a.txt", Node.file [88]),
        (loc "src/sub", Node.dir true), (loc "src/sub/b.txt", Node.file [89]),
        (loc "dst", Node.dir true)]⟩

/-- The source file `a.txt` is "X2", the target file `a.txt` is "X1". -/
def staleTarget : World :=
  ⟨[], [(loc "src", Node.dir true), (loc "src/a.txt", Node.file [88, 50]),
        (loc "dst", Node.dir true), (loc "dst/a.txt", Node.file [88, 49])]⟩

/-- A source tree with a subdirectory, and a regular file where the target
root should be. -/
def fileAsTarget : World :=
  ⟨[], [(loc "src", Node.dir true), (loc "src/sub", Node.dir true),
        (loc "dst", Node.file [7])]⟩

/-- The source tree holds the file `a.txt`; the target tree holds a
directory of that name. -/
def dirInTheWay : World :=
  ⟨[], [(loc "src", Node.dir true), (loc "src/a.txt", Node.file [88]),
        (loc "dst", Node.dir true), (loc "dst/a.txt", Node.dir true)]⟩

/-- What a run from `freshTarget` onto `dst` leaves: both directories made,
both files copied. -/
def freshTargetRun : Run :=
  ⟨⟨[], [(loc "src", Node.dir true), (loc "src/a.txt", Node.file [88]),
        (loc "src/sub", Node.dir true), (loc "src/sub/b.txt", Node.file [89]),
        (loc "dst", Node.dir true), (loc "dst/sub", Node.dir true),
        (loc "dst/a.txt", Node.file [88]), (loc "dst/sub/b.txt", Node.file [89])]⟩,
    ["dst".toList, "dst/sub".toList],
    [⟨"/a.txt".toList, "src/a.txt".toList, "dst/a.txt".toList⟩,
     ⟨"/sub/b.txt".toList, "src/sub/b.txt".toList, "dst/sub/b.txt".toList⟩]⟩

/-! ## Directories in good order, for roots written in any way -/

/-- A pair whose directories are in good order, whatever way its roots are
written (`src/`, `./src`, `../a/src`, `/abs//src`, `.`, ...): the world is
well formed; `os.Stat` finds a directory at the source root and a writable
directory at the target root; the two trees lie apart or are one and the
same; and where the source tree has a directory, the target tree has
nothing or a writable directory. -/
structure DirsInOrder (w : World) (src tgt : Str) : Prop where
  valid : ValidWorld w
  srcDir : ∃ wr, stat w src = .ok (Node.dir wr)
  tgtDir : stat w tgt = .ok (Node.dir true)
  placed : Apart (locOf w.cwd src) (locOf w.cwd tgt) ∨ locOf w.cwd src = locOf w.cwd tgt
  dirsFit : ∀ rs wr, nodeAt w (locOf w.cwd src ++ rs) = some (Node.dir wr) →
    nodeAt w (locOf w.cwd tgt ++ rs) = none ∨
      nodeAt w (locOf w.cwd tgt ++ rs) = some (Node.dir true)

/-- The state of the mirroring walk over the source tree at `locS`, started
in world `w`: everything of `w` is still there, the source tree is as it
was, and what is new is a writable directory. -/
structure Mirroring (w : World) (locS : Path) (r : Run) : Prop where
  ext : Extends w r.world
  same : Agrees w r.world locS
  fresh : ∀ q n, nodeAt r.world q = some n → nodeAt w q = some n ∨ n = Node.dir true

/-- For a location `q` that holds a directory of the source tree: is its
place in the target tree free, or a writable directory? -/
def dirFitsAt (w : World) (locS locT q : Path) : Bool :=
  if locS.isPrefixOf q then
    match nodeAt w q with
    | some (Node.dir _) =>
      decide (nodeAt w (locT ++ q.drop locS.length) = none) ||
        decide (nodeAt w (locT ++ q.drop locS.length) = some (Node.dir true))
    | _ => true
  else true

/-- Does `os.Stat` find a directory? -/
def statsDir (w : World) (p : Str) : Bool :=
  match stat w p with
  | .ok (Node.dir _) => true
  | _ => false

/-- Does `os.Stat` find a writable directory? -/
def statsWritableDir (w : World) (p : Str) : Bool :=
  match stat w p with
  | .ok (Node.dir true) => true
  | _ => false

/-- The conditions of `DirsInOrder`, checked along the table. -/
def dirsCheck (w : World) (src tgt : Str) : Bool :=
  w.tab.all (fun e => e.1.all validName && (e.1 == [] || isDirAt w e.1.dropLast)) &&
  isDirAt w w.cwd &&
  statsDir w src && statsWritableDir w tgt &&
  ((!(locOf w.cwd src).isPrefixOf (locOf w.cwd tgt) &&
      !(locOf w.cwd tgt).isPrefixOf (locOf w.cwd src)) ||
    decide (locOf w.cwd src = locOf w.cwd tgt)) &&
  w.tab.all (fun e => dirFitsAt w (locOf w.cwd src) (locOf w.cwd tgt) e.1)

/-- The working directory is `/home/u`; it holds the directory `docs` with a
subdirectory `old` and a file `n.txt`.  `/back` is an empty directory. -/
def homeTree : World :=
  ⟨loc "home/u", [(loc "home", Node.dir true), (loc "home/u", Node.dir true),
        (loc "home/u/docs", Node.dir true), (loc "home/u/docs/old", Node.dir true),
        (loc "home/u/docs/n.txt", Node.file [1]), (loc "back", Node.dir true)]⟩

/-- The directory `s` holds the directory `x`, which holds the directory
`y`. -/
def deepTree : World :=
  ⟨[], [(loc "s", Node.dir true), (loc "s/x", Node.dir true), (loc "s/x/y", Node.dir true)]⟩

/-! # Properties -/

theorem needsCopy_iff (targetMd5 : GoMap) (e : Str × Str) :
    needsCopy targetMd5 e = true ↔ targetMd5.lookup e.1 ≠ some e.2 := by
  unfold needsCopy mapGet
  cases h : targetMd5.lookup e.1 with
  | none => simp
  | some v =>
    simp only [Bool.not_true, Bool.false_or, bne_iff_ne, ne_eq, Option.some.injEq]
    exact ⟨fun h1 h2 => h1 h2.symm, fun h1 h2 => h1 h2.symm⟩

/-- The calls the copy loop makes, in order. -/
theorem copyLoop_copies (config : ConfigItem) (targetMd5 : GoMap) (originalMd5 : GoMap) :
    ∀ r : Run, (copyLoop config targetMd5 r originalMd5).copies =
      r.copies ++ (originalMd5.filter (needsCopy targetMd5)).map (fun e =>
        ⟨e.1, join config.OriginalPath e.1, join config.TargetPath e.1⟩) := by
  induction originalMd5 with
  | nil => intro r; simp [copyLoop]
  | cons e rest ih =>
    intro r
    obtain ⟨k, v⟩ := e
    by_cases h : needsCopy targetMd5 (k, v) = true
    · have h1 := h
      unfold needsCopy at h1
      simp only [copyLoop, h1, ↓reduceIte, ih, List.filter_cons, h, List.map_cons,
        List.append_assoc, List.singleton_append]
    · have h1 := h
      unfold needsCopy at h1
      simp only [copyLoop, h1, ↓reduceIte, List.filter_cons, h]
      exact ih r

/-- C6: the same file `a.txt` gets the key `/a.txt` in the tree whose root
is written `src` and the key `a.txt` in the tree whose root is written
`dst/`, whatever the digest function: the key depends on how the root is
written. -/
theorem calculateDirMd5_key_depends_on_root (md5 : List Nat → Str) :
    calculateDirMd5 md5 3 twoTrees "src".toList
      = some ([("/a.txt".toList, md5 [88])], none) ∧
    calculateDirMd5 md5 3 twoTrees "dst/".toList
      = some ([("a.txt".toList, md5 [88])], none) ∧
    replaceFirst (join "src".toList "a.txt".toList) "src".toList
      ≠ replaceFirst (join "dst/".toList "a.txt".toList) "dst/".toList :=
  ⟨rfl, rfl, by decide⟩

/-- C7: walked from the root `.`, the two regular files `a.b` and `ab` get
the same key `ab`; the map has one entry for the two of them, with the
digest of the second. -/
theorem calculateDirMd5_dot_root_collides (md5 : List Nat → Str) :
    nodeAt dotTree (loc "home/a.b") = some (Node.file [1]) ∧
    nodeAt dotTree (loc "home/ab") = some (Node.file [2]) ∧
    calculateDirMd5 md5 3 dotTree ".".toList = some ([("ab".toList, md5 [2])], none) :=
  ⟨rfl, rfl, rfl⟩

/-- C5: with the source root written `./../a/b` and the target root `a`, the
run overwrites the target file `b/x`, which has no counterpart `b/x` in the
source tree, with the bytes of a file from outside the source tree. -/
theorem processFile_overwrites_target_only_file (md5 : List Nat → Str) :
    nodeAt strayTree (loc "c/a/b/x") = some (Node.file [3]) ∧
    nodeAt strayTree (loc "a/b/b/x") = none ∧
    (processFile md5 4 strayTree (pair "./../a/b" "a")).map
        (fun r => (nodeAt r.1.world (loc "c/a/b/x"), r.1.copies))
      = some (some (Node.file [2]),
          [⟨"../a/b/x".toList, "../a/a/b/x".toList, "a/b/x".toList⟩]) :=
  ⟨rfl, rfl, rfl⟩

/-! ## Errors -/

/-- C8, as amended: when creating the target root fails, `processFile`
returns that error without mirroring or copying anything, and the loop of
`main` stops there: no later item is processed. -/
theorem processFile_root_create_error (md5 : List Nat → Str) (fuel : Nat) (w w0 : World)
    (config : ConfigItem) (rest : List ConfigItem) (e : Errno)
    (h : createDirIfNotExist w config.TargetPath = (w0, some e)) :
    processFile md5 fuel w config = some (⟨w0, [], []⟩, some e) ∧
    main md5 fuel w (config :: rest) = some [⟨w0, [], []⟩] := by
  have hp : processFile md5 fuel w config = some (⟨w0, [], []⟩, some e) := by
    simp only [processFile, h]
  exact ⟨hp, by simp only [main, hp]⟩

/-- C8, as amended, at an item whose target path is the empty string, with a
second item behind it. -/
theorem processFile_root_create_error_witness :
    createDirIfNotExist twoTrees (pair "src" "").TargetPath = (twoTrees, some Errno.ENOENT) ∧
    (processFile (fun _ => []) 3 twoTrees (pair "src" "")
        = some (⟨twoTrees, [], []⟩, some Errno.ENOENT) ∧
      main (fun _ => []) 3 twoTrees [pair "src" "", pair "src" "dst"]
        = some [⟨twoTrees, [], []⟩]) :=
  ⟨rfl, processFile_root_create_error _ _ _ _ _ _ _ rfl⟩

/-- C8 as stated fails: the mirrored subdirectory `dst/sub` cannot be
created in the unwritable target root, yet `processFile` returns `nil` and
`main` goes on to process the next item. -/
theorem processFile_mirror_error_not_fatal :
    createDirIfNotExist lockedTarget "dst/sub".toList = (lockedTarget, some Errno.EACCES) ∧
    (∀ md5 : List Nat → Str,
      processFile md5 3 lockedTarget (pair "src" "dst")
        = some (⟨lockedTarget, ["dst".toList, "dst/sub".toList], []⟩, none) ∧
      (main md5 3 lockedTarget [pair "src" "dst", pair "src" "other"]).map List.length
        = some 2) :=
  ⟨rfl, fun _ => ⟨rfl, rfl⟩⟩

/-- C9: when fingerprinting the source tree fails, or the target tree after
the source tree succeeded, `processFile` has mirrored no directory and
called `copyFile` for no file (the world is the one left by creating the
target root), it returns `nil`, and the loop of `main` goes on: `main`
returns the run of this item followed by the runs of the remaining items,
which start in the world this item left.  In particular `main` returns on
the item alone; and when `processFile` returns `r2` on the next item `next`
in that world, `main` returns on the two items with `r2` as the second run,
and on a longer list it stops after `r2` exactly when `processFile` returned
an error on `next`. -/
theorem processFile_fingerprint_error (md5 : List Nat → Str) (fuel : Nat) (w w0 : World)
    (config : ConfigItem) (rest : List ConfigItem)
    (h0 : createDirIfNotExist w config.TargetPath = (w0, none))
    (h : (∃ m e, calculateDirMd5 md5 fuel w0 config.OriginalPath = some (m, some e)) ∨
      (∃ m m1 e, calculateDirMd5 md5 fuel w0 config.OriginalPath = some (m, none) ∧
        calculateDirMd5 md5 fuel w0 config.TargetPath = some (m1, some e))) :
    processFile md5 fuel w config = some (⟨w0, [], []⟩, none) ∧
    main md5 fuel w (config :: rest)
      = (main md5 fuel w0 rest).map (fun rs => ⟨w0, [], []⟩ :: rs) ∧
    main md5 fuel w [config] = some [⟨w0, [], []⟩] ∧
    ∀ (next : ConfigItem) (r2 : Run) (e2 : Option Errno),
      processFile md5 fuel w0 next = some (r2, e2) →
      main md5 fuel w [config, next] = some [⟨w0, [], []⟩, r2] ∧
      main md5 fuel w (config :: next :: rest)
        = match e2 with
          | some _ => some [⟨w0, [], []⟩, r2]
          | none => (main md5 fuel r2.world rest).map (fun rs => ⟨w0, [], []⟩ :: r2 :: rs) := by
  have hp : processFile md5 fuel w config = some (⟨w0, [], []⟩, none) := by
    rcases h with ⟨m, e, h1⟩ | ⟨m, m1, e, h1, h2⟩
    · simp only [processFile, h0, h1]
    · simp only [processFile, h0, h1, h2]
  refine ⟨hp, ?_, ?_, ?_⟩
  · simp only [main, hp]
    cases main md5 fuel w0 rest <;> rfl
  · simp only [main, hp]
  · intro next r2 e2 hn
    cases e2 with
    | some e => exact ⟨by simp only [main, hp, hn], by simp only [main, hp, hn]⟩
    | none =>
      refine ⟨by simp only [main, hp, hn], ?_⟩
      simp only [main, hp, hn]
      cases main md5 fuel r2.world rest <;> rfl

/-- C9 at a source root that does not exist, with a second item behind it:
the first item leaves only the target root it created, and the second item
is processed in full, its two directories mirrored and its two files
copied.  And C9 at a target root `src/a.txt/x` that lies below a regular
file: the first step returns `nil` (the error of `os.Stat` is not
`IsNotExist`), the source tree is fingerprinted, and fingerprinting the
target tree fails. -/
theorem processFile_fingerprint_error_witness :
    (createDirIfNotExist freshTarget (pair "nosuch" "dst").TargetPath
        = (freshTargetMade, none) ∧
      calculateDirMd5 plainDigest 4 freshTargetMade (pair "nosuch" "dst").OriginalPath
        = some ([], some Errno.ENOENT) ∧
      processFile plainDigest 4 freshTargetMade (pair "src" "dst")
        = some (freshTargetRun, none) ∧
      processFile plainDigest 4 freshTarget (pair "nosuch" "dst")
        = some (⟨freshTargetMade, [], []⟩, none) ∧
      main plainDigest 4 freshTarget [pair "nosuch" "dst"]
        = some [⟨freshTargetMade, [], []⟩] ∧
      main plainDigest 4 freshTarget [pair "nosuch" "dst", pair "src" "dst"]
        = some [⟨freshTargetMade, [], []⟩, freshTargetRun]) ∧
    (createDirIfNotExist twoTrees (pair "src" "src/a.txt/x").TargetPath = (twoTrees, none) ∧
      calculateDirMd5 plainDigest 3 twoTrees (pair "src" "src/a.txt/x").OriginalPath
        = some ([("/a.txt".toList, "58".toList)], none) ∧
      calculateDirMd5 plainDigest 3 twoTrees (pair "src" "src/a.txt/x").TargetPath
        = some ([], some Errno.ENOTDIR) ∧
      processFile plainDigest 3 twoTrees (pair "src" "src/a.txt/x")
        = some (⟨twoTrees, [], []⟩, none) ∧
      main plainDigest 3 twoTrees [pair "src" "src/a.txt/x", pair "src" ""]
        = some [⟨twoTrees, [], []⟩, ⟨twoTrees, [], []⟩]) :=
  have h := processFile_fingerprint_error plainDigest 4 freshTarget freshTargetMade
    (pair "nosuch" "dst") [] rfl (Or.inl ⟨[], Errno.ENOENT, rfl⟩)
  have h2 := processFile_fingerprint_error plainDigest 3 twoTrees twoTrees
    (pair "src" "src/a.txt/x") [] rfl
    (Or.inr ⟨[("/a.txt".toList, "58".toList)], [], Errno.ENOTDIR, rfl, rfl⟩)
  ⟨⟨rfl, rfl, rfl, h.1, h.2.2.1, (h.2.2.2 (pair "src" "dst") freshTargetRun none rfl).1⟩,
    ⟨rfl, rfl, rfl, h2.1,
      (h2.2.2.2 (pair "src" "") ⟨twoTrees, [], []⟩ (some Errno.ENOENT) rfl).1⟩⟩

/-! ## Frame lemmas -/

theorem lookup_setNode (t : List (Path × Node)) (p q : Path) (n : Node) :
    (setNode t p n).lookup q = if q = p then some n else t.lookup q := by
  induction t with
  | nil =>
    simp only [setNode, List.lookup]
    by_cases h : q = p
    · simp [h]
    · have : (q == p) = false := by simpa using h
      simp [h, this]
  | cons a t ih =>
    obtain ⟨a1, a2⟩ := a
    simp only [setNode]
    by_cases h1 : a1 = p
    · subst h1
      by_cases h : q = a1
      · simp [h, List.lookup]
      · have : (q == a1) = false := by simpa using h
        simp [h, List.lookup, this]
    · simp only [h1, ↓reduceIte, List.lookup]
      by_cases h : q = a1
      · subst h
        simp [h1]
      · have : (q == a1) = false := by simpa using h
        simp only [this, ih]

theorem Extends.refl (w : World) : Extends w w := ⟨rfl, fun _ _ h => h⟩

theorem Extends.trans {a b c : World} (h1 : Extends a b) (h2 : Extends b c) : Extends a c :=
  ⟨h2.1.trans h1.1, fun q n h => h2.2 q n (h1.2 q n h)⟩

theorem nodeAt_setNode (w : World) (p q : Path) (n : Node) (hp : p ≠ []) :
    nodeAt { w with tab := setNode w.tab p n } q = if q = p then some n else nodeAt w q := by
  unfold nodeAt
  simp only [lookup_setNode]
  by_cases h : q = []
  · subst h
    simp [Ne.symm hp]
  · simp [h]

theorem extends_setNode_new (w : World) (p : Path) (n : Node) (hp : p ≠ [])
    (hnone : nodeAt w p = none) : Extends w { w with tab := setNode w.tab p n } := by
  refine ⟨rfl, fun q m h => ?_⟩
  rw [nodeAt_setNode w p q n hp]
  by_cases hq : q = p
  · subst hq; rw [hnone] at h; cases h
  · simp [hq, h]

theorem mkdir_extends (w w1 : World) (p : Str) (h : mkdir w p = .ok w1) : Extends w w1 := by
  unfold mkdir at h
  split at h
  · cases h
  · split at h
    · cases h
    · rename_i q _
      split at h
      · cases h
      · split at h
        · cases h
        · rename_i e _
          split at h
          · cases h
          · split at h
            · cases h
            · split at h
              · cases h
              · rename_i hsome _
                cases h
                apply extends_setNode_new
                · simp
                · simpa using hsome
      · cases h

theorem mkdirLast_extends (w : World) (p : Str) (made : World × Option Errno)
    (h : Extends w made.1) : Extends w (mkdirLast p made).1 := by
  obtain ⟨w1, oe⟩ := made
  cases oe with
  | some e => exact h
  | none =>
    simp only [mkdirLast]
    split
    · rename_i hm; exact Extends.trans h (mkdir_extends _ _ _ hm)
    · split <;> exact h

theorem mkdirAllAux_extends (chain : List Str) :
    ∀ (w : World) (p : Str), Extends w (mkdirAllAux w p chain).1 := by
  induction chain with
  | nil =>
    intro w p
    simp only [mkdirAllAux]
    split
    · exact Extends.refl w
    · exact Extends.refl w
    · exact mkdirLast_extends w p _ (Extends.refl w)
  | cons par rest ih =>
    intro w p
    simp only [mkdirAllAux]
    split
    · exact Extends.refl w
    · exact Extends.refl w
    · exact mkdirLast_extends w p _ (ih w par)

theorem createDirIfNotExist_extends (w : World) (p : Str) :
    Extends w (createDirIfNotExist w p).1 := by
  unfold createDirIfNotExist
  split
  · split
    · exact mkdirAllAux_extends _ w p
    · exact Extends.refl w
  · exact Extends.refl w

/-- A property of the state that the walk function keeps is kept by the
walk. -/
theorem walk_invariant {σ : Type} (getW : σ → World) (fn : WalkFn σ) (Inv : σ → Prop)
    (hfn : ∀ s path info err, Inv s → Inv (fn s path info err).1) :
    ∀ (fuel : Nat) (s : σ) (path : Str) (info : Node) (r : σ × Option Errno),
      Inv s → walk getW fn fuel s path info = some r → Inv r.1 := by
  intro fuel
  induction fuel with
  | zero => intro s path info r _ h; simp [walk] at h
  | succ k ih =>
    intro s path info r hs h
    have hnames : ∀ (names : List Str) (s1 : σ) (r1 : σ × Option Errno), Inv s1 →
        walkNames getW fn (walk getW fn k) path s1 names = some r1 → Inv r1.1 := by
      intro names
      induction names with
      | nil => intro s1 r1 h1 h2; simp only [walkNames, Option.some.injEq] at h2; subst h2; exact h1
      | cons name rest ihn =>
        intro s1 r1 h1 h2
        simp only [walkNames] at h2
        split at h2
        · rename_i e _
          have hf := hfn s1 (join path name) none (some e) h1
          split at h2
          · rename_i s2 e1 heq
            rw [heq] at hf
            simp only [Option.some.injEq] at h2; subst h2; exact hf
          · rename_i s2 heq
            rw [heq] at hf
            exact ihn s2 r1 hf h2
        · rename_i fileInfo _
          split at h2
          · cases h2
          · rename_i s2 e1 heq
            simp only [Option.some.injEq] at h2; subst h2
            exact ih s1 (join path name) fileInfo _ h1 heq
          · rename_i s2 heq
            exact ihn s2 r1 (ih s1 (join path name) fileInfo _ h1 heq) h2
    cases info with
    | dir wr =>
      simp only [walk] at h
      split at h
      · simp only [Option.some.injEq] at h; subst h; exact hfn _ _ _ _ hs
      · rename_i names _
        have hf := hfn s path (some (Node.dir wr)) none hs
        split at h
        · rename_i s1 e1 heq
          rw [heq] at hf
          simp only [Option.some.injEq] at h; subst h; exact hf
        · rename_i s1 heq
          rw [heq] at hf
          exact hnames names s1 r hf h
    | file b =>
      simp only [walk, Option.some.injEq] at h; subst h; exact hfn _ _ _ _ hs
    | other =>
      simp only [walk, Option.some.injEq] at h; subst h; exact hfn _ _ _ _ hs

theorem filepathWalk_invariant {σ : Type} (getW : σ → World) (fn : WalkFn σ) (Inv : σ → Prop)
    (hfn : ∀ s path info err, Inv s → Inv (fn s path info err).1)
    (fuel : Nat) (s : σ) (root : Str) (r : σ × Option Errno)
    (hs : Inv s) (h : filepathWalk getW fn fuel s root = some r) : Inv r.1 := by
  unfold filepathWalk at h
  split at h
  · simp only [Option.some.injEq] at h; subst h; exact hfn _ _ _ _ hs
  · exact walk_invariant getW fn Inv hfn fuel s root _ r hs h

theorem mirrorWalkFn_extends (config : ConfigItem) (w0 : World) (c0 : List CopyCall)
    (s : Run) (path : Str) (info : Option Node) (err : Option Errno)
    (h : Extends w0 s.world ∧ s.copies = c0) :
    Extends w0 (mirrorWalkFn config s path info err).1.world ∧
      (mirrorWalkFn config s path info err).1.copies = c0 := by
  unfold mirrorWalkFn
  cases err with
  | some e => exact h
  | none =>
    simp only
    split
    · have hx := createDirIfNotExist_extends s.world
        (join config.TargetPath ((rel config.OriginalPath path).getD []))
      split
      · rename_i heq
        simp only [heq] at hx
        exact ⟨h.1.trans hx, h.2⟩
      · rename_i heq
        simp only [heq] at hx
        exact ⟨h.1.trans hx, h.2⟩
    · exact h

theorem walkTo_loc (w : World) :
    ∀ (es : List Str) (cur q : Path), walkTo w cur es = .ok q → q = es.foldl stepElem cur := by
  intro es
  induction es with
  | nil => intro cur q h; simp only [walkTo, Except.ok.injEq] at h; simp [h]
  | cons e es ih =>
    intro cur q h
    simp only [walkTo] at h
    split at h
    · cases h
    · simpa using ih _ _ h
    · cases h

theorem stepElem_name (cur : Path) (e : Str)
    (h : ¬(e = [] ∨ e = ['.'] ∨ e = ['.', '.'])) : stepElem cur e = cur ++ [e] := by
  simp only [not_or] at h
  simp [stepElem, h.1, h.2.1, h.2.2]

theorem create_spec (w w1 : World) (p : Str) (d : Path) (h : create w p = .ok (w1, d)) :
    d = locOf w.cwd p ∧ d ≠ [] ∧ w1 = { w with tab := setNode w.tab d (Node.file []) } := by
  unfold create at h
  split at h
  · cases h
  · split at h
    · cases h
    · rename_i q hq
      have hloc := walkTo_loc w _ _ _ hq
      split at h
      · cases h
      · split at h
        · cases h
        · rename_i e he
          have hd : locOf w.cwd p = stepElem q e := by
            have hl := List.dropLast_append_getLast? e he
            unfold locOf
            rw [← hl, List.foldl_append, hloc]
            rfl
          split at h
          · cases h
          · rename_i hname
            rw [stepElem_name q e hname] at hd
            split at h
            · simp only [Except.ok.injEq, Prod.mk.injEq] at h
              exact ⟨by rw [hd]; exact h.2.symm, by rw [← h.2]; simp, by rw [← h.1, h.2]⟩
            · cases h
            · cases h
            · split at h
              · cases h
              · simp only [Except.ok.injEq, Prod.mk.injEq] at h
                exact ⟨by rw [hd]; exact h.2.symm, by rw [← h.2]; simp, by rw [← h.1, h.2]⟩
      · cases h

theorem copyFile_frame (w : World) (src dst : Str) :
    (copyFile w src dst).1.cwd = w.cwd ∧
    ∀ q, q ≠ locOf w.cwd dst → nodeAt (copyFile w src dst).1 q = nodeAt w q := by
  unfold copyFile
  split
  · exact ⟨rfl, fun _ _ => rfl⟩
  · split
    · exact ⟨rfl, fun _ _ => rfl⟩
    · rename_i w1 d hc
      obtain ⟨hd, hne, hw1⟩ := create_spec w w1 dst d hc
      have h1 : ∀ q, q ≠ locOf w.cwd dst → nodeAt w1 q = nodeAt w q := by
        intro q hq
        rw [hw1, nodeAt_setNode w d q _ hne]
        simp [hd, hq]
      split
      · exact ⟨by rw [hw1], h1⟩
      · refine ⟨by rw [hw1], fun q hq => ?_⟩
        rw [nodeAt_setNode w1 d q _ hne]
        simp [hd, hq, h1 q hq]

theorem copyLoop_frame (config : ConfigItem) (targetMd5 : GoMap) (cwd : Path) (q : Path)
    (originalMd5 : GoMap) :
    ∀ r : Run, r.world.cwd = cwd →
      (∀ e ∈ originalMd5.filter (needsCopy targetMd5),
        locOf cwd (join config.TargetPath e.1) ≠ q) →
      (copyLoop config targetMd5 r originalMd5).world.cwd = cwd ∧
      nodeAt (copyLoop config targetMd5 r originalMd5).world q = nodeAt r.world q := by
  induction originalMd5 with
  | nil => intro r hc _; exact ⟨hc, rfl⟩
  | cons e rest ih =>
    intro r hc hq
    obtain ⟨k, v⟩ := e
    by_cases h : needsCopy targetMd5 (k, v) = true
    · have h1 := h
      unfold needsCopy at h1
      have hf := copyFile_frame r.world (join config.OriginalPath k) (join config.TargetPath k)
      have hk : locOf cwd (join config.TargetPath k) ≠ q :=
        hq (k, v) (by simp [List.filter_cons, h])
      have hrest : ∀ e ∈ rest.filter (needsCopy targetMd5),
          locOf cwd (join config.TargetPath e.1) ≠ q := by
        intro e he
        exact hq e (by simp only [List.filter_cons, h, ↓reduceIte]; exact List.mem_cons_of_mem _ he)
      simp only [copyLoop, h1, ↓reduceIte]
      have := ih { r with
          world := (copyFile r.world (join config.OriginalPath k) (join config.TargetPath k)).1
          copies := r.copies ++ [⟨k, join config.OriginalPath k, join config.TargetPath k⟩] }
        (by simp only; rw [hf.1, hc]) hrest
      refine ⟨this.1, this.2.trans ?_⟩
      simp only
      exact hf.2 q (by rw [hc]; exact fun hh => hk hh.symm)
    · have h1 := h
      unfold needsCopy at h1
      have hrest : ∀ e ∈ rest.filter (needsCopy targetMd5),
          locOf cwd (join config.TargetPath e.1) ≠ q := by
        intro e he
        exact hq e (by simp only [List.filter_cons, h]; exact he)
      simp only [copyLoop, h1]
      exact ih r hc hrest

/-- A run of `processFile` changes no regular file other than the
destinations of its `copyFile` calls: a file whose location is not the
location of the destination path of one of the run's calls of `copyFile`
has the same bytes after the run. -/
theorem processFile_changes_only_destinations (md5 : List Nat → Str) (fuel : Nat)
    (w : World) (config : ConfigItem) (r : Run) (err : Option Errno) (q : Path)
    (b : List Nat)
    (h : processFile md5 fuel w config = some (r, err))
    (hq : nodeAt w q = some (Node.file b))
    (hd : ∀ c ∈ r.copies, locOf w.cwd c.dst ≠ q) :
    nodeAt r.world q = some (Node.file b) := by
  unfold processFile at h
  have h0 := createDirIfNotExist_extends w config.TargetPath
  split at h
  · rename_i w0 e heq
    rw [heq] at h0
    simp only [Option.some.injEq, Prod.mk.injEq] at h
    rw [← h.1]
    exact h0.2 q _ hq
  · rename_i w0 heq
    rw [heq] at h0
    have hq0 := h0.2 q _ hq
    split at h
    · cases h
    · simp only [Option.some.injEq, Prod.mk.injEq] at h
      rw [← h.1]; exact hq0
    · rename_i originalMd5 _
      split at h
      · cases h
      · simp only [Option.some.injEq, Prod.mk.injEq] at h
        rw [← h.1]; exact hq0
      · rename_i targetMd5 _
        split at h
        · cases h
        · rename_i r1 e1 hwalk
          have hinv := filepathWalk_invariant Run.world (mirrorWalkFn config)
            (fun s => Extends w0 s.world ∧ s.copies = [])
            (fun s path info err hs => mirrorWalkFn_extends config w0 [] s path info err hs)
            fuel ⟨w0, [], []⟩ config.OriginalPath _ ⟨Extends.refl w0, rfl⟩ hwalk
          simp only [Option.some.injEq, Prod.mk.injEq] at h
          rw [← h.1]
          exact hinv.1.2 q _ hq0
        · rename_i r1 hwalk
          have hinv := filepathWalk_invariant Run.world (mirrorWalkFn config)
            (fun s => Extends w0 s.world ∧ s.copies = [])
            (fun s path info err hs => mirrorWalkFn_extends config w0 [] s path info err hs)
            fuel ⟨w0, [], []⟩ config.OriginalPath _ ⟨Extends.refl w0, rfl⟩ hwalk
          simp only at hinv
          simp only [Option.some.injEq, Prod.mk.injEq] at h
          have hcwd : r1.world.cwd = w.cwd := hinv.1.1.trans h0.1
          have hcopies := copyLoop_copies config targetMd5 originalMd5 r1
          rw [h.1, hinv.2, List.nil_append] at hcopies
          have hfr := copyLoop_frame config targetMd5 w.cwd q originalMd5 r1 hcwd (by
            intro e he
            exact hd ⟨e.1, join config.OriginalPath e.1, join config.TargetPath e.1⟩
              (by rw [hcopies]; exact List.mem_map.2 ⟨e, he, rfl⟩))
          rw [h.1] at hfr
          rw [hfr.2]
          exact hinv.1.2 q _ hq0

/-- C10 as stated fails: with the target root `a/b` inside the source root
`a`, the run copies `a/x` over the source file `a/b/x`, whose bytes change
from `[2]` to `[1]`. -/
theorem processFile_overwrites_nested_source_file :
    nodeAt nestedTree (loc "a/b/x") = some (Node.file [2]) ∧
    (processFile plainDigest 4 nestedTree (pair "a" "a/b")).map
        (fun r => (nodeAt r.1.world (loc "a/b/x"), r.1.copies))
      = some (some (Node.file [1]),
          [⟨"/b/x".toList, "a/b/x".toList, "a/b/b/x".toList⟩,
           ⟨"/x".toList, "a/x".toList, "a/b/x".toList⟩]) := by
  decide

/-! ## Path strings -/

theorem splitSlash_ne_nil (s : Str) : splitSlash s ≠ [] := by
  cases s with
  | nil => simp [splitSlash]
  | cons c cs =>
    simp only [splitSlash]
    split
    · simp
    · split <;> simp

theorem splitSlash_cons_of (c : Char) (cs w : Str) (ws : List Str)
    (h : splitSlash cs = w :: ws) :
    splitSlash (c :: cs) = if c = '/' then [] :: w :: ws else (c :: w) :: ws := by
  simp only [splitSlash, h]

theorem splitSlash_append_slash (a b : Str) :
    splitSlash (a ++ '/' :: b) = splitSlash a ++ splitSlash b := by
  induction a with
  | nil =>
    cases h : splitSlash b with
    | nil => exact absurd h (splitSlash_ne_nil b)
    | cons w ws =>
      rw [List.nil_append, splitSlash_cons_of '/' b w ws h]
      rfl
  | cons c cs ih =>
    cases h : splitSlash cs with
    | nil => exact absurd h (splitSlash_ne_nil cs)
    | cons w ws =>
      rw [h] at ih
      rw [List.cons_append, splitSlash_cons_of c _ w (ws ++ splitSlash b) ih,
        splitSlash_cons_of c cs w ws h]
      split <;> rfl

theorem validName_ne_nil {e : Str} (h : validName e = true) : e ≠ [] := by
  simp [validName] at h; exact h.1.1.1

theorem validName_noSlash {e : Str} (h : validName e = true) : '/' ∉ e := by
  simp [validName] at h; exact h.1.1.2

theorem validName_step {e : Str} (h : validName e = true) :
    ¬(e = [] ∨ e = ['.'] ∨ e = ['.', '.']) := by
  simp [validName] at h
  simp only [not_or]
  exact ⟨h.1.1.1, h.1.2, h.2⟩

theorem splitSlash_noSlash (e : Str) (h : '/' ∉ e) : splitSlash e = [e] := by
  induction e with
  | nil => rfl
  | cons c cs ih =>
    simp only [List.mem_cons, not_or] at h
    simp only [splitSlash, ih h.2]
    simp [Ne.symm h.1]

theorem joinSlash_cons (e : Str) (es : List Str) (h : es ≠ []) :
    joinSlash (e :: es) = e ++ '/' :: joinSlash es := by
  cases es with
  | nil => exact absurd rfl h
  | cons v vs => rfl

theorem joinSlash_append (es fs : List Str) (he : es ≠ []) (hf : fs ≠ []) :
    joinSlash (es ++ fs) = joinSlash es ++ '/' :: joinSlash fs := by
  induction es with
  | nil => exact absurd rfl he
  | cons e es ih =>
    cases es with
    | nil =>
      simp only [List.singleton_append, joinSlash_cons e fs hf]
      rfl
    | cons v vs =>
      have h1 : v :: vs ++ fs ≠ [] := by simp
      rw [List.cons_append, joinSlash_cons e _ h1, ih (by simp),
        joinSlash_cons e (v :: vs) (by simp)]
      simp

theorem splitSlash_joinSlash (es : List Str) (he : es ≠ [])
    (hv : ∀ e ∈ es, validName e = true) : splitSlash (joinSlash es) = es := by
  induction es with
  | nil => exact absurd rfl he
  | cons e es ih =>
    have hne := validName_noSlash (hv e (List.mem_cons_self _ _))
    cases es with
    | nil => simpa [joinSlash] using splitSlash_noSlash e hne
    | cons v vs =>
      rw [joinSlash_cons e _ (by simp), splitSlash_append_slash, splitSlash_noSlash e hne,
        ih (by simp) (fun x hx => hv x (List.mem_cons_of_mem _ hx))]
      rfl

theorem splitSlash_rootStr (abs : Bool) (es : List Str) (he : es ≠ [])
    (hv : ∀ e ∈ es, validName e = true) :
    splitSlash (rootStr abs es) = if abs then [] :: es else es := by
  cases abs with
  | false => simpa [rootStr] using splitSlash_joinSlash es he hv
  | true =>
    have := splitSlash_append_slash [] (joinSlash es)
    simp only [List.nil_append] at this
    simp only [rootStr, ↓reduceIte, this, splitSlash_joinSlash es he hv]
    rfl

theorem cleanStep_valid (r : Bool) (out : List Str) (e : Str) (h : validName e = true) :
    cleanStep r out e = e :: out := by
  have := validName_step h
  simp only [not_or] at this
  simp [cleanStep, this.1, this.2.1, this.2.2]

theorem foldl_cleanStep (r : Bool) (L : List Str) :
    ∀ out : List Str, (∀ e ∈ L, e = [] ∨ e = ['.'] ∨ validName e = true) →
      L.foldl (cleanStep r) out = (L.filter validName).reverse ++ out := by
  induction L with
  | nil => intro out _; rfl
  | cons e L ih =>
    intro out h
    have hL : ∀ x ∈ L, x = [] ∨ x = ['.'] ∨ validName x = true :=
      fun x hx => h x (List.mem_cons_of_mem _ hx)
    rcases h e (List.mem_cons_self _ _) with he | he | he
    · subst he
      simp only [List.foldl_cons]
      rw [show cleanStep r out [] = out by simp [cleanStep], ih out hL]
      simp [List.filter_cons, validName]
    · subst he
      simp only [List.foldl_cons]
      rw [show cleanStep r out ['.'] = out by simp [cleanStep], ih out hL]
      simp [List.filter_cons, validName]
    · simp only [List.foldl_cons, cleanStep_valid r out e he, ih _ hL, List.filter_cons, he,
        ↓reduceIte, List.reverse_cons, List.append_assoc, List.singleton_append]

theorem filter_validName_of_all (es : List Str) (hv : ∀ e ∈ es, validName e = true) :
    es.filter validName = es := List.filter_eq_self.2 hv

theorem isRooted_joinSlash (es : List Str) (hv : ∀ e ∈ es, validName e = true) :
    isRooted (joinSlash es) = false := by
  cases es with
  | nil => rfl
  | cons e es =>
    have he := hv e (List.mem_cons_self _ _)
    have h1 := validName_ne_nil he
    have h2 := validName_noSlash he
    cases e with
    | nil => exact absurd rfl h1
    | cons c cs =>
      have hc : c ≠ '/' := fun hc => h2 (by simp [hc])
      cases es with
      | nil =>
        simp only [joinSlash]
        unfold isRooted
        split
        · rename_i heq; simp only [List.cons.injEq] at heq; exact absurd heq.1 hc
        · rfl
      | cons v vs =>
        simp only [joinSlash, List.cons_append]
        unfold isRooted
        split
        · rename_i heq; simp only [List.cons.injEq] at heq; exact absurd heq.1 hc
        · rfl

theorem isRooted_rootStr (abs : Bool) (es : List Str) (hv : ∀ e ∈ es, validName e = true) :
    isRooted (rootStr abs es) = abs := by
  cases abs with
  | false => simpa [rootStr] using isRooted_joinSlash es hv
  | true => rfl

theorem isRooted_append (a b : Str) (ha : a ≠ []) : isRooted (a ++ b) = isRooted a := by
  cases a with
  | nil => exact absurd rfl ha
  | cons c cs =>
    unfold isRooted
    by_cases hc : c = '/'
    · subst hc; rfl
    · split
      · rename_i heq; simp only [List.cons_append, List.cons.injEq] at heq; exact absurd heq.1 hc
      · split
        · rename_i heq; simp only [List.cons.injEq] at heq; exact absurd heq.1 hc
        · rfl

theorem rootStr_ne_nil (abs : Bool) (es : List Str) (he : es ≠ [])
    (hv : ∀ e ∈ es, validName e = true) : rootStr abs es ≠ [] := by
  intro h
  have := splitSlash_rootStr abs es he hv
  rw [h] at this
  cases abs with
  | false =>
    simp only [Bool.false_eq_true, ↓reduceIte] at this
    cases es with
    | nil => exact he rfl
    | cons e es =>
      simp only [splitSlash, List.cons.injEq] at this
      exact validName_ne_nil (hv e (List.mem_cons_self _ _)) this.1.symm
  | true => simp [splitSlash] at this; exact he this

/-- A string whose elements are the names `es` between empty or `.`
elements cleans to the plainly written path of `es`. -/
theorem clean_of_split (abs : Bool) (X : Str) (L es : List Str) (hX : splitSlash X = L)
    (hr : isRooted X = abs) (hL : ∀ e ∈ L, e = [] ∨ e = ['.'] ∨ validName e = true)
    (hes : L.filter validName = es) (he : es ≠ []) :
    cleanElems X = es ∧ clean X = rootStr abs es := by
  have h1 : cleanElems X = es := by
    unfold cleanElems
    rw [hX, foldl_cleanStep _ L [] hL, hes]
    simp
  refine ⟨h1, ?_⟩
  unfold clean
  rw [h1, hr]
  cases abs with
  | true => simp [rootStr]
  | false => simp [rootStr, he]

theorem filter_validName_rootSplit (abs : Bool) (es : List Str)
    (hv : ∀ e ∈ es, validName e = true) :
    (if abs then [] :: es else es).filter validName = es := by
  cases abs with
  | false => simpa using filter_validName_of_all es hv
  | true =>
    simp only [↓reduceIte, List.filter_cons]
    rw [show validName [] = false by rfl]
    simpa using filter_validName_of_all es hv

/-- Joining a plainly written path with a string of names, possibly between
empty or `.` elements, gives the plainly written path of all the names. -/
theorem join_rootStr (abs : Bool) (es : List Str) (b : Str) (he : es ≠ [])
    (hv : ∀ e ∈ es, validName e = true)
    (hb : ∀ e ∈ splitSlash b, e = [] ∨ e = ['.'] ∨ validName e = true) :
    join (rootStr abs es) b = rootStr abs (es ++ (splitSlash b).filter validName) := by
  have hne := rootStr_ne_nil abs es he hv
  unfold join
  rw [if_pos hne]
  refine (clean_of_split abs _ (splitSlash (rootStr abs es) ++ splitSlash b) _
    (splitSlash_append_slash _ _) ?_ ?_ ?_ (by simp [he])).2
  · rw [isRooted_append _ _ hne, isRooted_rootStr abs es hv]
  · intro e hmem
    rw [splitSlash_rootStr abs es he hv] at hmem
    rcases List.mem_append.1 hmem with h | h
    · cases abs with
      | false => exact Or.inr (Or.inr (hv e (by simpa using h)))
      | true =>
        simp only [↓reduceIte, List.mem_cons] at h
        rcases h with h | h
        · exact Or.inl h
        · exact Or.inr (Or.inr (hv e h))
    · exact hb e h
  · rw [List.filter_append, splitSlash_rootStr abs es he hv, filter_validName_rootSplit abs es hv]

theorem join_rootStr_name (abs : Bool) (es : List Str) (name : Str) (he : es ≠ [])
    (hv : ∀ e ∈ es, validName e = true) (hn : validName name = true) :
    join (rootStr abs es) name = rootStr abs (es ++ [name]) := by
  have hs := splitSlash_noSlash name (validName_noSlash hn)
  rw [join_rootStr abs es name he hv (by rw [hs]; simp [hn]), hs]
  simp [List.filter_cons, hn]

theorem join_rootStr_rel (abs : Bool) (es rel : List Str) (he : es ≠ [])
    (hv : ∀ e ∈ es, validName e = true) (hr : rel ≠ [])
    (hrv : ∀ e ∈ rel, validName e = true) :
    join (rootStr abs es) (joinSlash rel) = rootStr abs (es ++ rel) := by
  have hs := splitSlash_joinSlash rel hr hrv
  rw [join_rootStr abs es _ he hv (by rw [hs]; exact fun e h => Or.inr (Or.inr (hrv e h))), hs,
    filter_validName_of_all rel hrv]

theorem join_rootStr_key (abs : Bool) (es rel : List Str) (he : es ≠ [])
    (hv : ∀ e ∈ es, validName e = true) (hr : rel ≠ [])
    (hrv : ∀ e ∈ rel, validName e = true) :
    join (rootStr abs es) ('/' :: joinSlash rel) = rootStr abs (es ++ rel) := by
  have hs : splitSlash ('/' :: joinSlash rel) = [] :: rel := by
    have := splitSlash_append_slash [] (joinSlash rel)
    simp only [List.nil_append] at this
    rw [this, splitSlash_joinSlash rel hr hrv]
    rfl
  rw [join_rootStr abs es _ he hv (by
    rw [hs]
    intro e h
    simp only [List.mem_cons] at h
    rcases h with h | h
    · exact Or.inl h
    · exact Or.inr (Or.inr (hrv e h))), hs]
  simp only [List.filter_cons]
  rw [show validName [] = false by rfl]
  simp [filter_validName_of_all rel hrv]

theorem join_rootStr_dot (abs : Bool) (es : List Str) (he : es ≠ [])
    (hv : ∀ e ∈ es, validName e = true) :
    join (rootStr abs es) ['.'] = rootStr abs es := by
  rw [join_rootStr abs es _ he hv (by simp [splitSlash])]
  simp [splitSlash, List.filter_cons, validName]

theorem hasPrefix_append (r x : Str) : hasPrefix (r ++ x) r = true := by
  induction r with
  | nil => cases x <;> rfl
  | cons c r ih => simp [hasPrefix, ih]

theorem replaceFirst_append (r x : Str) (hr : r ≠ []) : replaceFirst (r ++ x) r = x := by
  cases r with
  | nil => exact absurd rfl hr
  | cons c r =>
    simp only [List.cons_append, replaceFirst]
    rw [if_pos (by simpa using hasPrefix_append (c :: r) x)]
    simp

theorem clean_rootStr (abs : Bool) (es : List Str) (he : es ≠ [])
    (hv : ∀ e ∈ es, validName e = true) :
    cleanElems (rootStr abs es) = es ∧ clean (rootStr abs es) = rootStr abs es := by
  refine clean_of_split abs _ _ es (splitSlash_rootStr abs es he hv)
    (isRooted_rootStr abs es hv) ?_ (filter_validName_rootSplit abs es hv) he
  intro e h
  cases abs with
  | false => exact Or.inr (Or.inr (hv e (by simpa using h)))
  | true =>
    simp only [↓reduceIte, List.mem_cons] at h
    rcases h with h | h
    · exact Or.inl h
    · exact Or.inr (Or.inr (hv e h))

theorem rootStr_injective (abs : Bool) (es fs : List Str) (he : es ≠ []) (hf : fs ≠ [])
    (hev : ∀ e ∈ es, validName e = true) (hfv : ∀ e ∈ fs, validName e = true)
    (h : rootStr abs es = rootStr abs fs) : es = fs := by
  have h1 := (clean_rootStr abs es he hev).1
  have h2 := (clean_rootStr abs fs hf hfv).1
  rw [h, h2] at h1
  exact h1.symm

theorem dropCommon_append (ss r : List Str) : dropCommon ss (ss ++ r) = ([], r) := by
  induction ss with
  | nil => cases r <;> rfl
  | cons s ss ih => simp [dropCommon, ih]

theorem rel_rootStr (abs : Bool) (ss r : List Str) (hs : ss ≠ [])
    (hsv : ∀ e ∈ ss, validName e = true) (hrv : ∀ e ∈ r, validName e = true) :
    rel (rootStr abs ss) (rootStr abs (ss ++ r)) =
      some (if r = [] then ['.'] else joinSlash r) := by
  have hav : ∀ e ∈ ss ++ r, validName e = true := by
    intro e h
    rcases List.mem_append.1 h with h | h
    · exact hsv e h
    · exact hrv e h
  have hb := clean_rootStr abs ss hs hsv
  have ht := clean_rootStr abs (ss ++ r) (by simp [hs]) hav
  unfold rel
  simp only [hb.2, ht.2, hb.1, ht.1]
  by_cases hr : r = []
  · subst hr
    simp
  · have hne : rootStr abs (ss ++ r) ≠ rootStr abs ss := by
      intro h
      have := rootStr_injective abs _ _ (by simp [hs]) hs hav hsv h
      exact hr (by simpa using this)
    have hdot : rootStr abs (ss ++ r) ≠ ['.'] := by
      intro h
      have h1 := ht.1
      rw [h] at h1
      have : cleanElems ['.'] = [] := by decide
      rw [this] at h1
      exact hs (by simpa using (List.append_eq_nil.1 h1.symm).1)
    rw [if_neg hne, isRooted_rootStr abs ss hsv, isRooted_rootStr abs _ hav]
    simp only [ne_eq, not_true_eq_false, ↓reduceIte, hdot, dropCommon_append, List.head?_nil,
      hr]
    simp

/-! ## Resolution of plainly written paths -/

theorem ancestors_dir (w : World) (hpc : ParentClosed w) (p : Path) :
    ∀ (r : List Str) (n : Node), r ≠ [] → nodeAt w (p ++ r) = some n →
      ∃ wr, nodeAt w p = some (Node.dir wr) := by
  intro r
  induction r using List.reverseRecOn with
  | nil => intro n h; exact absurd rfl h
  | append_singleton r e ih =>
    intro n _ hn
    have h1 := hpc (p ++ (r ++ [e])) n hn (by simp)
    rw [← List.append_assoc, List.dropLast_concat] at h1
    obtain ⟨wr, hwr⟩ := h1
    by_cases hr : r = []
    · subst hr
      exact ⟨wr, by simpa using hwr⟩
    · exact ih _ hr hwr

theorem walkTo_valid (w : World) :
    ∀ (es : List Str) (cur : Path), (∀ e ∈ es, validName e = true) →
      (∀ i, i < es.length → ∃ wr, nodeAt w (cur ++ es.take i) = some (Node.dir wr)) →
      walkTo w cur es = .ok (cur ++ es) := by
  intro es
  induction es with
  | nil => intro cur _ _; simp [walkTo]
  | cons e es ih =>
    intro cur hv hd
    obtain ⟨wr, hwr⟩ := hd 0 (by simp)
    simp only [List.take_zero, List.append_nil] at hwr
    simp only [walkTo, hwr]
    rw [stepElem_name cur e (validName_step (hv e (List.mem_cons_self _ _)))]
    rw [ih (cur ++ [e]) (fun x hx => hv x (List.mem_cons_of_mem _ hx)) (by
      intro i hi
      have := hd (i + 1) (by simpa using hi)
      simpa using this)]
    simp

/-- A plainly written path whose location is a directory or lies in one
resolves to its location. -/
theorem walkTo_rootStr (w : World) (hpc : ParentClosed w) (abs : Bool) (es : List Str)
    (he : es ≠ []) (hv : ∀ e ∈ es, validName e = true)
    (hpar : ∃ wr, nodeAt w (rootLoc w.cwd abs es.dropLast) = some (Node.dir wr)) :
    walkTo w (startOf w (rootStr abs es)) (splitSlash (rootStr abs es))
      = .ok (rootLoc w.cwd abs es) := by
  have hstart : startOf w (rootStr abs es) = if abs then [] else w.cwd := by
    unfold startOf
    rw [isRooted_rootStr abs es hv]
  have hdirs : ∀ i, i < es.length →
      ∃ wr, nodeAt w ((if abs then [] else w.cwd) ++ es.take i) = some (Node.dir wr) := by
    intro i hi
    obtain ⟨wr, hwr⟩ := hpar
    have hsplit : es.dropLast = es.take i ++ (es.dropLast).drop i := by
      have : es.take i = es.dropLast.take i := by
        rw [List.dropLast_eq_take, List.take_take]
        congr 1
        omega
      rw [this, List.take_append_drop]
    have hloc : rootLoc w.cwd abs es.dropLast
        = ((if abs then [] else w.cwd) ++ es.take i) ++ (es.dropLast).drop i := by
      rw [List.append_assoc, ← hsplit]
      cases abs <;> rfl
    by_cases hd : (es.dropLast).drop i = []
    · rw [hloc, hd, List.append_nil] at hwr
      exact ⟨wr, hwr⟩
    · rw [hloc] at hwr
      exact ancestors_dir w hpc _ _ _ hd hwr
  rw [hstart, splitSlash_rootStr abs es he hv]
  cases abs with
  | false =>
    simpa [rootLoc] using walkTo_valid w es w.cwd hv (by simpa using hdirs)
  | true =>
    simp only [↓reduceIte, walkTo, nodeAt]
    rw [show stepElem [] [] = [] by simp [stepElem]]
    simpa [rootLoc] using walkTo_valid w es [] hv (by simpa using hdirs)

theorem stat_rootStr (w : World) (hpc : ParentClosed w) (abs : Bool) (es : List Str)
    (he : es ≠ []) (hv : ∀ e ∈ es, validName e = true)
    (hpar : ∃ wr, nodeAt w (rootLoc w.cwd abs es.dropLast) = some (Node.dir wr)) :
    stat w (rootStr abs es) =
      match nodeAt w (rootLoc w.cwd abs es) with
      | none => .error Errno.ENOENT
      | some n => .ok n := by
  unfold stat
  rw [if_neg (rootStr_ne_nil abs es he hv), walkTo_rootStr w hpc abs es he hv hpar]

/-! ## Directory listings -/

theorem mem_insertName (n x : Str) (l : List Str) : x ∈ insertName n l ↔ x = n ∨ x ∈ l := by
  induction l with
  | nil => simp [insertName]
  | cons m ms ih =>
    simp only [insertName]
    split
    · rename_i h
      subst h
      simp only [List.mem_cons]
      constructor
      · exact Or.inr
      · rintro (h | h)
        · exact Or.inl h
        · exact h
    · split
      · simp
      · simp only [List.mem_cons, ih]
        constructor
        · rintro (h | h | h)
          · exact Or.inr (Or.inl h)
          · exact Or.inl h
          · exact Or.inr (Or.inr h)
        · rintro (h | h | h)
          · exact Or.inr (Or.inl h)
          · exact Or.inl h
          · exact Or.inr (Or.inr h)

theorem childName_eq_some (d q : Path) (n : Str) : childName d q = some n ↔ q = d ++ [n] := by
  unfold childName
  cases h : q.getLast? with
  | none =>
    constructor
    · intro h1; cases h1
    · intro hq
      rw [hq] at h
      simp at h
  | some m =>
    have hq := List.dropLast_append_getLast? m h
    simp only
    constructor
    · intro h1
      split at h1
      · rename_i hd
        simp only [Option.some.injEq] at h1
        rw [← hq, hd, h1]
      · cases h1
    · intro h1
      subst h1
      have := List.append_inj' hq (by simp)
      rw [if_pos this.1]
      simpa using this.2

theorem mem_namesAt (w : World) (d : Path) (name : Str) :
    name ∈ namesAt w d ↔ ∃ n, (d ++ [name], n) ∈ w.tab := by
  unfold namesAt
  induction w.tab with
  | nil => simp
  | cons a t ih =>
    simp only [List.foldr_cons, List.mem_cons]
    cases h : childName d a.1 with
    | none =>
      simp only [ih]
      constructor
      · rintro ⟨n, hn⟩; exact ⟨n, Or.inr hn⟩
      · rintro ⟨n, hn | hn⟩
        · have : childName d a.1 = some name := (childName_eq_some d a.1 name).2 (by rw [← hn])
          rw [h] at this; cases this
        · exact ⟨n, hn⟩
    | some m =>
      have hm := (childName_eq_some d a.1 m).1 h
      simp only [mem_insertName, ih]
      constructor
      · rintro (h1 | ⟨n, hn⟩)
        · exact ⟨a.2, Or.inl (by rw [h1, ← hm])⟩
        · exact ⟨n, Or.inr hn⟩
      · rintro ⟨n, hn | hn⟩
        · left
          have : a.1 = d ++ [name] := by rw [← hn]
          rw [hm] at this
          simpa using (List.append_inj' this rfl).2.symm
        · exact Or.inr ⟨n, hn⟩

theorem lookup_isSome_iff (t : List (Path × Node)) (q : Path) :
    (∃ n, t.lookup q = some n) ↔ ∃ n, (q, n) ∈ t := by
  induction t with
  | nil => simp
  | cons a t ih =>
    obtain ⟨a1, a2⟩ := a
    by_cases h : q = a1
    · subst h
      simp [List.lookup]
    · have hb : (q == a1) = false := by simpa using h
      simp only [List.lookup, hb, ih, List.mem_cons, Prod.mk.injEq, h, false_and, false_or]

theorem mem_namesAt_iff_nodeAt (w : World) (d : Path) (name : Str) :
    name ∈ namesAt w d ↔ ∃ n, nodeAt w (d ++ [name]) = some n := by
  rw [mem_namesAt, ← lookup_isSome_iff]
  simp [nodeAt]

theorem validName_of_mem_namesAt (w : World) (hv : ValidNames w) (d : Path) (name : Str)
    (h : name ∈ namesAt w d) : validName name = true := by
  obtain ⟨n, hn⟩ := (mem_namesAt w d name).1 h
  exact hv _ n hn name (by simp)

/-! ## A walk is a fold over the tree -/

theorem rootLoc_append (cwd : Path) (abs : Bool) (es r : List Str) :
    rootLoc cwd abs (es ++ r) = rootLoc cwd abs es ++ r := by
  cases abs <;> simp [rootLoc]

theorem mem_tab_of_nodeAt (w : World) (q : Path) (n : Node) (hq : q ≠ [])
    (h : nodeAt w q = some n) : ∃ m, (q, m) ∈ w.tab := by
  simp only [nodeAt, hq, ↓reduceIte] at h
  exact (lookup_isSome_iff w.tab q).1 ⟨n, h⟩

theorem rootLoc_ne_nil (cwd : Path) (abs : Bool) (es : List Str) (he : es ≠ []) :
    rootLoc cwd abs es ≠ [] := by
  cases abs <;> simp [rootLoc, he]

theorem readDirNames_rootStr (w : World) (hpc : ParentClosed w) (abs : Bool) (es : List Str)
    (he : es ≠ []) (hv : ∀ e ∈ es, validName e = true) (wr : Bool)
    (hd : nodeAt w (rootLoc w.cwd abs es) = some (Node.dir wr)) :
    readDirNames w (rootStr abs es) = .ok (namesAt w (rootLoc w.cwd abs es)) := by
  have hpar : ∃ wr, nodeAt w (rootLoc w.cwd abs es.dropLast) = some (Node.dir wr) := by
    have h1 := hpc _ _ hd (rootLoc_ne_nil _ abs es he)
    have h2 : (rootLoc w.cwd abs es).dropLast = rootLoc w.cwd abs es.dropLast := by
      cases abs with
      | true => rfl
      | false => simp [rootLoc, List.dropLast_append_of_ne_nil, he]
    rwa [h2] at h1
  unfold readDirNames
  rw [if_neg (rootStr_ne_nil abs es he hv), walkTo_rootStr w hpc abs es he hv hpar]
  simp only [hd]

theorem stat_child (w : World) (hpc : ParentClosed w) (abs : Bool) (es : List Str)
    (name : Str) (_ : es ≠ []) (hv : ∀ e ∈ es, validName e = true)
    (hn : validName name = true) (wr : Bool)
    (hd : nodeAt w (rootLoc w.cwd abs es) = some (Node.dir wr)) :
    stat w (rootStr abs (es ++ [name])) =
      match nodeAt w (rootLoc w.cwd abs es ++ [name]) with
      | none => .error Errno.ENOENT
      | some n => .ok n := by
  rw [stat_rootStr w hpc abs (es ++ [name]) (by simp) (by
    intro e h
    rcases List.mem_append.1 h with h | h
    · exact hv e h
    · simp only [List.mem_singleton] at h; rw [h]; exact hn) (by
    rw [List.dropLast_concat]; exact ⟨wr, hd⟩), rootLoc_append]

theorem rootLoc_mono (cwd : Path) (abs : Bool) (es0 es : List Str) (h : es0 <+: es) :
    rootLoc cwd abs es0 <+: rootLoc cwd abs es := by
  cases abs with
  | true => exact h
  | false => exact (List.prefix_append_right_inj _).2 h

theorem foldl_visit_pres {σ : Type} (fn : WalkFn σ) (P : σ → Prop)
    (h : ∀ s p i e, P s → P (fn s p i e).1) (L : List (Str × Node)) :
    ∀ s, P s → P (L.foldl (visit fn) s) := by
  induction L with
  | nil => intro s hs; exact hs
  | cons x L ih => intro s hs; exact ih _ (h s x.1 (some x.2) none hs)

/-- A walk over a tree that its function leaves as it is, and on which the
function returns no error, is the fold of the function over the nodes of
the tree; it returns `nil`, given the budget to reach every node.  `I` is
an invariant of the state, `J s es` what a visit of the node at `es` needs
(a visit of a directory provides it for the entries), and `Q s x` what the
visit of `x` leaves behind for good. -/
theorem walk_eq_fold {σ : Type} (getW : σ → World) (fn : WalkFn σ) (w0 : World)
    (hvn : ValidNames w0) (abs : Bool) (es0 : List Str) (I : σ → Prop)
    (J : σ → List Str → Prop) (Q : σ → Str × Node → Prop)
    (hI : ∀ s, I s → Agrees w0 (getW s) (rootLoc w0.cwd abs es0))
    (hJpres : ∀ s p i e es, J s es → J (fn s p i e).1 es)
    (hQpres : ∀ s p i e x, Q s x → Q (fn s p i e).1 x)
    (hfn : ∀ s es n, I s → J s es → es0 <+: es → (∀ e ∈ es, validName e = true) →
      nodeAt w0 (rootLoc w0.cwd abs es) = some n →
      (fn s (rootStr abs es) (some n) none).2 = none ∧
        I (fn s (rootStr abs es) (some n) none).1 ∧
        Q (fn s (rootStr abs es) (some n) none).1 (rootStr abs es, n) ∧
        ∀ wr, n = Node.dir wr → ∀ name,
          J (fn s (rootStr abs es) (some n) none).1 (es ++ [name])) :
    ∀ (fuel : Nat) (es : List Str) (n : Node) (s : σ), I s → J s es → es0 <+: es → es ≠ [] →
      (∀ e ∈ es, validName e = true) → nodeAt w0 (rootLoc w0.cwd abs es) = some n →
      Shallow w0 fuel (rootLoc w0.cwd abs es) →
      walk getW fn fuel s (rootStr abs es) n
        = some ((listTree w0 fuel (rootStr abs es) (rootLoc w0.cwd abs es) n).foldl
            (visit fn) s, none) ∧
      I ((listTree w0 fuel (rootStr abs es) (rootLoc w0.cwd abs es) n).foldl (visit fn) s) ∧
      ∀ x ∈ listTree w0 fuel (rootStr abs es) (rootLoc w0.cwd abs es) n,
        Q ((listTree w0 fuel (rootStr abs es) (rootLoc w0.cwd abs es) n).foldl (visit fn) s) x := by
  intro fuel
  induction fuel with
  | zero =>
    intro es n s _ _ _ hne _ hn hsh
    obtain ⟨m, hm⟩ := mem_tab_of_nodeAt w0 _ n (rootLoc_ne_nil _ abs es hne) hn
    have := hsh _ m hm
    omega
  | succ k ih =>
    intro es n s hs hj hpre hne hv hn hsh
    have hfnr := hfn s es n hs hj hpre hv hn
    have hvis : fn s (rootStr abs es) (some n) none
        = (visit fn s (rootStr abs es, n), none) := Prod.ext rfl hfnr.1
    have hI1 : I (visit fn s (rootStr abs es, n)) := hfnr.2.1
    have hQ1 : Q (visit fn s (rootStr abs es, n)) (rootStr abs es, n) := hfnr.2.2.1
    cases n with
    | dir wr =>
      have hJ1 : ∀ name, J (visit fn s (rootStr abs es, Node.dir wr)) (es ++ [name]) :=
        hfnr.2.2.2 wr rfl
      obtain ⟨hpc, hcwd, hsame⟩ := hI s hs
      have hloc := hsame _ (rootLoc_mono w0.cwd abs es0 es hpre)
      have hrd : readDirNames (getW s) (rootStr abs es)
          = .ok (namesAt w0 (rootLoc w0.cwd abs es)) := by
        rw [readDirNames_rootStr (getW s) hpc abs es hne hv wr (by rw [hcwd, hloc.1, hn]),
          hcwd, hloc.2]
      have hinner : ∀ (names : List Str) (s1 : σ), I s1 → (∀ name, J s1 (es ++ [name])) →
          (∀ name ∈ names, name ∈ namesAt w0 (rootLoc w0.cwd abs es)) →
          walkNames getW fn (walk getW fn k) (rootStr abs es) s1 names
            = some ((names.flatMap (fun name =>
                match nodeAt w0 (rootLoc w0.cwd abs es ++ [name]) with
                | some c => listTree w0 k (join (rootStr abs es) name)
                    (rootLoc w0.cwd abs es ++ [name]) c
                | none => [])).foldl (visit fn) s1, none) ∧
          I ((names.flatMap (fun name =>
                match nodeAt w0 (rootLoc w0.cwd abs es ++ [name]) with
                | some c => listTree w0 k (join (rootStr abs es) name)
                    (rootLoc w0.cwd abs es ++ [name]) c
                | none => [])).foldl (visit fn) s1) ∧
          ∀ x ∈ names.flatMap (fun name =>
                match nodeAt w0 (rootLoc w0.cwd abs es ++ [name]) with
                | some c => listTree w0 k (join (rootStr abs es) name)
                    (rootLoc w0.cwd abs es ++ [name]) c
                | none => []),
            Q ((names.flatMap (fun name =>
                match nodeAt w0 (rootLoc w0.cwd abs es ++ [name]) with
                | some c => listTree w0 k (join (rootStr abs es) name)
                    (rootLoc w0.cwd abs es ++ [name]) c
                | none => [])).foldl (visit fn) s1) x := by
        intro names
        induction names with
        | nil => intro s1 h1 _ _; exact ⟨rfl, h1, by simp⟩
        | cons name rest ihn =>
          intro s1 h1 hj1 hmem
          have hname := hmem name (List.mem_cons_self _ _)
          have hnv := validName_of_mem_namesAt w0 hvn _ name hname
          obtain ⟨c, hc⟩ := (mem_namesAt_iff_nodeAt w0 _ name).1 hname
          obtain ⟨hpc1, hcwd1, hsame1⟩ := hI s1 h1
          have hloc1 := hsame1 _ (rootLoc_mono w0.cwd abs es0 es hpre)
          have hpre' : es0 <+: es ++ [name] := hpre.trans (List.prefix_append _ _)
          have hloc2 := hsame1 _ (rootLoc_mono w0.cwd abs es0 _ hpre')
          rw [rootLoc_append] at hloc2
          have hj := join_rootStr_name abs es name hne hv hnv
          have hst : stat (getW s1) (join (rootStr abs es) name) = .ok c := by
            rw [hj, stat_child (getW s1) hpc1 abs es name hne hv hnv wr
              (by rw [hcwd1, hloc1.1, hn]), hcwd1, hloc2.1, hc]
          have hv' : ∀ e ∈ es ++ [name], validName e = true := by
            intro e h
            rcases List.mem_append.1 h with h | h
            · exact hv e h
            · simp only [List.mem_singleton] at h; rw [h]; exact hnv
          have hrec := ih (es ++ [name]) c s1 h1 (hj1 name) hpre' (by simp) hv'
            (by rw [rootLoc_append]; exact hc) (by
              intro q m hq
              have := hsh q m hq
              rw [rootLoc_append]
              simp only [List.length_append, List.length_singleton]
              omega)
          rw [rootLoc_append, ← hj] at hrec
          have hjs : ∀ name', J ((listTree w0 k (join (rootStr abs es) name)
              (rootLoc w0.cwd abs es ++ [name]) c).foldl (visit fn) s1) (es ++ [name']) :=
            fun name' => foldl_visit_pres fn (fun s => J s (es ++ [name']))
              (fun s p i e h => hJpres s p i e _ h) _ s1 (hj1 name')
          have hrest := ihn _ hrec.2.1 hjs (fun x hx => hmem x (List.mem_cons_of_mem _ hx))
          simp only [walkNames, hst, hrec.1, List.flatMap_cons, hc, List.foldl_append]
          refine ⟨hrest.1, hrest.2.1, ?_⟩
          intro x hx
          rcases List.mem_append.1 hx with hx | hx
          · exact foldl_visit_pres fn (fun s => Q s x) (fun s p i e h => hQpres s p i e x h)
              _ _ (hrec.2.2 x hx)
          · exact hrest.2.2 x hx
      have h1 := hinner (namesAt w0 (rootLoc w0.cwd abs es))
        (visit fn s (rootStr abs es, Node.dir wr)) hI1 hJ1 (fun _ h => h)
      simp only [walk, hrd, hvis, listTree, List.foldl_cons]
      refine ⟨h1.1, h1.2.1, ?_⟩
      intro x hx
      simp only [List.mem_cons] at hx
      rcases hx with hx | hx
      · rw [hx]
        exact foldl_visit_pres fn (fun s => Q s (rootStr abs es, Node.dir wr))
          (fun s p i e h => hQpres s p i e _ h) _ _ hQ1
      · exact h1.2.2 x hx
    | file b =>
      simp only [walk, hvis, listTree, List.foldl_cons, List.foldl_nil, true_and,
        List.mem_singleton, forall_eq]
      exact ⟨hI1, hQ1⟩
    | other =>
      simp only [walk, hvis, listTree, List.foldl_cons, List.foldl_nil, true_and,
        List.mem_singleton, forall_eq]
      exact ⟨hI1, hQ1⟩

/-! ## What a walk visits -/

theorem listTree_sound (w : World) (hvn : ValidNames w) (abs : Bool) :
    ∀ (fuel : Nat) (es : List Str) (n0 : Node) (x : Str × Node), es ≠ [] →
      (∀ e ∈ es, validName e = true) → nodeAt w (rootLoc w.cwd abs es) = some n0 →
      x ∈ listTree w fuel (rootStr abs es) (rootLoc w.cwd abs es) n0 →
      ∃ r, (∀ e ∈ r, validName e = true) ∧ x.1 = rootStr abs (es ++ r) ∧
        nodeAt w (rootLoc w.cwd abs es ++ r) = some x.2 := by
  intro fuel
  induction fuel with
  | zero => intro es n0 x _ _ _ h; simp [listTree] at h
  | succ k ih =>
    intro es n0 x hne hv hn hx
    have hself : x = (rootStr abs es, n0) → ∃ r, (∀ e ∈ r, validName e = true) ∧
        x.1 = rootStr abs (es ++ r) ∧ nodeAt w (rootLoc w.cwd abs es ++ r) = some x.2 := by
      intro h
      exact ⟨[], by simp, by simp [h], by simp [h, hn]⟩
    cases n0 with
    | dir wr =>
      simp only [listTree, List.mem_cons, List.mem_flatMap] at hx
      rcases hx with hx | ⟨name, hname, hx⟩
      · exact hself hx
      · have hnv := validName_of_mem_namesAt w hvn _ name hname
        cases hc : nodeAt w (rootLoc w.cwd abs es ++ [name]) with
        | none => simp [hc] at hx
        | some c =>
          simp only [hc] at hx
          rw [join_rootStr_name abs es name hne hv hnv, ← rootLoc_append] at hx
          have hv' : ∀ e ∈ es ++ [name], validName e = true := by
            intro e h
            rcases List.mem_append.1 h with h | h
            · exact hv e h
            · simp only [List.mem_singleton] at h; rw [h]; exact hnv
          obtain ⟨r, hr1, hr2, hr3⟩ := ih (es ++ [name]) c x (by simp) hv'
            (by rw [rootLoc_append]; exact hc) hx
          refine ⟨name :: r, ?_, ?_, ?_⟩
          · intro e h
            simp only [List.mem_cons] at h
            rcases h with h | h
            · rw [h]; exact hnv
            · exact hr1 e h
          · simpa using hr2
          · simpa [rootLoc_append] using hr3
    | file b =>
      simp only [listTree, List.mem_singleton] at hx
      exact hself hx
    | other =>
      simp only [listTree, List.mem_singleton] at hx
      exact hself hx

theorem listTree_complete (w : World) (hpc : ParentClosed w) (hvn : ValidNames w)
    (abs : Bool) :
    ∀ (r : List Str) (fuel : Nat) (es : List Str) (n0 n : Node), es ≠ [] →
      (∀ e ∈ es, validName e = true) → nodeAt w (rootLoc w.cwd abs es) = some n0 →
      nodeAt w (rootLoc w.cwd abs es ++ r) = some n →
      Shallow w fuel (rootLoc w.cwd abs es) →
      (rootStr abs (es ++ r), n) ∈ listTree w fuel (rootStr abs es) (rootLoc w.cwd abs es) n0 := by
  intro r
  induction r with
  | nil =>
    intro fuel es n0 n hne _ hn0 hn hsh
    simp only [List.append_nil] at hn ⊢
    rw [hn0] at hn
    simp only [Option.some.injEq] at hn
    subst hn
    cases fuel with
    | zero =>
      obtain ⟨m, hm⟩ := mem_tab_of_nodeAt w _ n0 (rootLoc_ne_nil _ abs es hne) hn0
      have := hsh _ m hm
      omega
    | succ k => cases n0 <;> simp [listTree]
  | cons e r ih =>
    intro fuel es n0 n hne hv hn0 hn hsh
    cases fuel with
    | zero =>
      obtain ⟨m, hm⟩ := mem_tab_of_nodeAt w _ n0 (rootLoc_ne_nil _ abs es hne) hn0
      have := hsh _ m hm
      omega
    | succ k =>
      obtain ⟨wr, hwr⟩ := ancestors_dir w hpc _ (e :: r) n (by simp) hn
      rw [hn0] at hwr
      simp only [Option.some.injEq] at hwr
      subst hwr
      have hc : ∃ c, nodeAt w (rootLoc w.cwd abs es ++ [e]) = some c := by
        by_cases hr : r = []
        · subst hr; exact ⟨n, hn⟩
        · have h2 : rootLoc w.cwd abs es ++ e :: r = (rootLoc w.cwd abs es ++ [e]) ++ r := by
            simp
          rw [h2] at hn
          obtain ⟨wr2, h3⟩ := ancestors_dir w hpc _ r n hr hn
          exact ⟨_, h3⟩
      obtain ⟨c, hc⟩ := hc
      have hname : e ∈ namesAt w (rootLoc w.cwd abs es) :=
        (mem_namesAt_iff_nodeAt w _ e).2 ⟨c, hc⟩
      have hnv := validName_of_mem_namesAt w hvn _ e hname
      have hv' : ∀ x ∈ es ++ [e], validName x = true := by
        intro x h
        rcases List.mem_append.1 h with h | h
        · exact hv x h
        · simp only [List.mem_singleton] at h; rw [h]; exact hnv
      have hrec := ih k (es ++ [e]) c n (by simp) hv' (by rw [rootLoc_append]; exact hc)
        (by rw [rootLoc_append]; simpa using hn) (by
          intro q m hq
          have := hsh q m hq
          rw [rootLoc_append]
          simp only [List.length_append, List.length_singleton]
          omega)
      simp only [listTree, List.mem_cons, List.mem_flatMap]
      right
      refine ⟨e, hname, ?_⟩
      simp only [hc]
      rw [join_rootStr_name abs es e hne hv hnv, ← rootLoc_append]
      simpa using hrec

/-! ## Fingerprint maps -/

theorem lookup_mapSet (m : GoMap) (k q : Str) (v : Str) :
    (mapSet m k v).lookup q = if q = k then some v else m.lookup q := by
  induction m with
  | nil =>
    simp only [mapSet, List.lookup]
    by_cases h : q = k
    · simp [h]
    · have : (q == k) = false := by simpa using h
      simp [h, this]
  | cons a t ih =>
    obtain ⟨a1, a2⟩ := a
    simp only [mapSet]
    by_cases h1 : a1 = k
    · subst h1
      by_cases h : q = a1
      · simp [h, List.lookup]
      · have : (q == a1) = false := by simpa using h
        simp [h, List.lookup, this]
    · simp only [h1, ↓reduceIte, List.lookup]
      by_cases h : q = a1
      · subst h
        simp [h1]
      · have : (q == a1) = false := by simpa using h
        simp only [this, ih]

theorem mapSet_keys (m : GoMap) (k v : Str) :
    (mapSet m k v).map Prod.fst = if k ∈ m.map Prod.fst then m.map Prod.fst
      else m.map Prod.fst ++ [k] := by
  induction m with
  | nil => simp [mapSet]
  | cons a t ih =>
    obtain ⟨a1, a2⟩ := a
    simp only [mapSet]
    by_cases h1 : a1 = k
    · subst h1; simp
    · simp only [h1, ↓reduceIte, List.map_cons, ih, List.mem_cons, Ne.symm h1, false_or]
      split <;> simp

theorem mapSet_nodup (m : GoMap) (k v : Str) (h : (m.map Prod.fst).Nodup) :
    ((mapSet m k v).map Prod.fst).Nodup := by
  rw [mapSet_keys]
  split
  · exact h
  · rename_i hk
    exact List.nodup_append.2 ⟨h, List.nodup_singleton k, by
      intro a ha hb
      simp only [List.mem_singleton] at hb
      exact hk (hb ▸ ha)⟩

theorem fold_eff_nodup (fn : WalkFn GoMap) (eff : Str × Node → Option (Str × Str))
    (L : List (Str × Node)) (heff : ∀ m, ∀ x ∈ L, visit fn m x = applyEff m (eff x)) :
    ∀ m : GoMap, (m.map Prod.fst).Nodup → ((L.foldl (visit fn) m).map Prod.fst).Nodup := by
  induction L with
  | nil => intro m h; exact h
  | cons x L ih =>
    intro m h
    simp only [List.foldl_cons]
    apply ih (fun m y hy => heff m y (List.mem_cons_of_mem _ hy))
    rw [heff m x (List.mem_cons_self _ _)]
    cases eff x with
    | none => exact h
    | some e => exact mapSet_nodup m e.1 e.2 h

theorem fold_eff_sound (fn : WalkFn GoMap) (eff : Str × Node → Option (Str × Str))
    (L : List (Str × Node)) (heff : ∀ m, ∀ x ∈ L, visit fn m x = applyEff m (eff x))
    (k v : Str) :
    ∀ m : GoMap, (L.foldl (visit fn) m).lookup k = some v →
      m.lookup k = some v ∨ ∃ x ∈ L, eff x = some (k, v) := by
  induction L with
  | nil => intro m h; exact Or.inl h
  | cons x L ih =>
    intro m h
    simp only [List.foldl_cons] at h
    rcases ih (fun m y hy => heff m y (List.mem_cons_of_mem _ hy)) _ h with h1 | ⟨y, hy, hye⟩
    · rw [heff m x (List.mem_cons_self _ _)] at h1
      cases hx : eff x with
      | none => rw [hx] at h1; exact Or.inl h1
      | some e =>
        rw [hx] at h1
        simp only [applyEff, lookup_mapSet] at h1
        split at h1
        · rename_i hk
          simp only [Option.some.injEq] at h1
          exact Or.inr ⟨x, List.mem_cons_self _ _, by rw [hx, hk, ← h1]⟩
        · exact Or.inl h1
    · exact Or.inr ⟨y, List.mem_cons_of_mem _ hy, hye⟩

theorem fold_eff_complete (fn : WalkFn GoMap) (eff : Str × Node → Option (Str × Str))
    (L : List (Str × Node)) (heff : ∀ m, ∀ x ∈ L, visit fn m x = applyEff m (eff x))
    (k v : Str) (huniq : ∀ x ∈ L, ∀ v1, eff x = some (k, v1) → v1 = v) :
    ∀ m : GoMap, (m.lookup k = some v ∨ ∃ x ∈ L, eff x = some (k, v)) →
      (L.foldl (visit fn) m).lookup k = some v := by
  induction L with
  | nil =>
    intro m h
    rcases h with h | ⟨x, hx, _⟩
    · exact h
    · simp at hx
  | cons x L ih =>
    intro m h
    simp only [List.foldl_cons]
    apply ih (fun m y hy => heff m y (List.mem_cons_of_mem _ hy))
      (fun y hy => huniq y (List.mem_cons_of_mem _ hy))
    rw [heff m x (List.mem_cons_self _ _)]
    cases hx : eff x with
    | none =>
      rcases h with h | ⟨y, hy, hye⟩
      · exact Or.inl h
      · simp only [List.mem_cons] at hy
        rcases hy with hy | hy
        · rw [hy, hx] at hye; cases hye
        · exact Or.inr ⟨y, hy, hye⟩
    | some e =>
      simp only [applyEff, lookup_mapSet]
      by_cases hk : k = e.1
      · left
        rw [if_pos hk]
        have := huniq x (List.mem_cons_self _ _) e.2 (by rw [hx, hk])
        rw [this]
      · rw [if_neg hk]
        rcases h with h | ⟨y, hy, hye⟩
        · exact Or.inl h
        · simp only [List.mem_cons] at hy
          rcases hy with hy | hy
          · rw [hy, hx] at hye
            simp only [Option.some.injEq] at hye
            exact absurd (by rw [hye]) hk
          · exact Or.inr ⟨y, hy, hye⟩

theorem parent_dir_of_node (w : World) (hpc : ParentClosed w) (abs : Bool) (es : List Str)
    (he : es ≠ []) (n : Node) (hn : nodeAt w (rootLoc w.cwd abs es) = some n) :
    ∃ wr, nodeAt w (rootLoc w.cwd abs es.dropLast) = some (Node.dir wr) := by
  have h1 := hpc _ _ hn (rootLoc_ne_nil _ abs es he)
  have h2 : (rootLoc w.cwd abs es).dropLast = rootLoc w.cwd abs es.dropLast := by
    cases abs with
    | true => rfl
    | false => simp [rootLoc, List.dropLast_append_of_ne_nil, he]
  rwa [h2] at h1

theorem getFileMd5_rootStr (md5 : List Nat → Str) (w : World) (hpc : ParentClosed w)
    (abs : Bool) (es : List Str) (he : es ≠ []) (hv : ∀ e ∈ es, validName e = true)
    (b : List Nat) (hn : nodeAt w (rootLoc w.cwd abs es) = some (Node.file b)) :
    getFileMd5 md5 w (rootStr abs es) = .ok (md5 b) := by
  unfold getFileMd5 openRead
  rw [if_neg (rootStr_ne_nil abs es he hv),
    walkTo_rootStr w hpc abs es he hv (parent_dir_of_node w hpc abs es he _ hn)]
  simp only [hn, readAll]

theorem md5WalkFn_visit (md5 : List Nat → Str) (w : World) (hpc : ParentClosed w)
    (dirPath : Str) (abs : Bool) (es : List Str) (he : es ≠ [])
    (hv : ∀ e ∈ es, validName e = true) (n : Node)
    (hn : nodeAt w (rootLoc w.cwd abs es) = some n) (m : GoMap) :
    md5WalkFn md5 w dirPath m (rootStr abs es) (some n) none
      = (applyEff m (md5Eff md5 dirPath (rootStr abs es, n)), none) := by
  cases n with
  | file b =>
    simp only [md5WalkFn, getFileMd5_rootStr md5 w hpc abs es he hv b hn, applyEff, md5Eff,
      keyOf]
  | dir wr => rfl
  | other => rfl

theorem agrees_self (w : World) (hpc : ParentClosed w) (l : Path) : Agrees w w l :=
  ⟨hpc, rfl, fun _ _ => ⟨rfl, rfl⟩⟩

/-- The map of `calculateDirMd5` is the fold of the assignments over the
nodes of the tree. -/
theorem calculateDirMd5_eq_fold (md5 : List Nat → Str) (fuel : Nat) (w : World)
    (hw : ValidWorld w) (abs : Bool) (es : List Str) (he : es ≠ [])
    (hv : ∀ e ∈ es, validName e = true) (n : Node)
    (hn : nodeAt w (rootLoc w.cwd abs es) = some n)
    (hsh : Shallow w fuel (rootLoc w.cwd abs es)) :
    calculateDirMd5 md5 fuel w (rootStr abs es)
      = some ((listTree w fuel (rootStr abs es) (rootLoc w.cwd abs es) n).foldl
          (visit (md5WalkFn md5 w (rootStr abs es))) [], none) := by
  obtain ⟨hpc, hvn, _⟩ := hw
  unfold calculateDirMd5 filepathWalk
  rw [stat_rootStr w hpc abs es he hv (parent_dir_of_node w hpc abs es he _ hn)]
  simp only [hn]
  exact (walk_eq_fold (fun _ => w) (md5WalkFn md5 w (rootStr abs es)) w hvn abs es
    (fun _ => True) (fun _ _ => True) (fun _ _ => True) (fun _ _ => agrees_self w hpc _)
    (fun _ _ _ _ _ _ => trivial) (fun _ _ _ _ _ _ => trivial)
    (fun s es1 n1 _ _ hpre hv1 hn1 => by
      have hne1 : es1 ≠ [] := by
        intro h
        rw [h] at hpre
        exact he (List.prefix_nil.1 hpre)
      rw [md5WalkFn_visit md5 w hpc _ abs es1 hne1 hv1 n1 hn1 s]
      exact ⟨rfl, trivial, trivial, fun _ _ _ => trivial⟩)
    fuel es n [] trivial trivial (List.prefix_refl _) he hv hn hsh).1

theorem rootStr_append (abs : Bool) (es r : List Str) (he : es ≠ []) (hr : r ≠ []) :
    rootStr abs (es ++ r) = rootStr abs es ++ '/' :: joinSlash r := by
  cases abs with
  | false => simpa [rootStr] using joinSlash_append es r he hr
  | true => simp [rootStr, joinSlash_append es r he hr]

theorem keyOf_rootStr (abs : Bool) (es r : List Str) (he : es ≠ [])
    (hv : ∀ e ∈ es, validName e = true) (hr : r ≠ []) :
    keyOf (rootStr abs es) (rootStr abs (es ++ r)) = '/' :: joinSlash r := by
  unfold keyOf
  rw [rootStr_append abs es r he hr, replaceFirst_append _ _ (rootStr_ne_nil abs es he hv)]

theorem key_injective (r1 r2 : List Str) (h1 : r1 ≠ []) (h2 : r2 ≠ [])
    (hv1 : ∀ e ∈ r1, validName e = true) (hv2 : ∀ e ∈ r2, validName e = true)
    (h : ('/' :: joinSlash r1 : Str) = '/' :: joinSlash r2) : r1 = r2 := by
  simp only [List.cons.injEq, true_and] at h
  have := congrArg splitSlash h
  rwa [splitSlash_joinSlash r1 h1 hv1, splitSlash_joinSlash r2 h2 hv2] at this

theorem valid_of_nodeAt (w : World) (hvn : ValidNames w) (l : Path) (r : List Str)
    (n : Node) (hr : r ≠ []) (h : nodeAt w (l ++ r) = some n) :
    ∀ e ∈ r, validName e = true := by
  obtain ⟨m, hm⟩ := mem_tab_of_nodeAt w _ n (by simp [hr]) h
  intro e he
  exact hvn _ m hm e (List.mem_append_right _ he)

/-- The fingerprint of a plainly written directory root in a well-formed
world: `calculateDirMd5` returns a map and no error; the map binds every key
once; a regular file at the relative path `r` is bound, under the key
`/r`, to the digest of its bytes; and every binding is of this kind. -/
theorem calculateDirMd5_spec (md5 : List Nat → Str) (fuel : Nat) (w : World)
    (hw : ValidWorld w) (abs : Bool) (es : List Str) (he : es ≠ [])
    (hv : ∀ e ∈ es, validName e = true) (wr : Bool)
    (hn : nodeAt w (rootLoc w.cwd abs es) = some (Node.dir wr))
    (hsh : Shallow w fuel (rootLoc w.cwd abs es)) :
    ∃ m : GoMap, calculateDirMd5 md5 fuel w (rootStr abs es) = some (m, none) ∧
      (m.map Prod.fst).Nodup ∧
      (∀ r b, nodeAt w (rootLoc w.cwd abs es ++ r) = some (Node.file b) →
        m.lookup ('/' :: joinSlash r) = some (md5 b)) ∧
      (∀ k v, m.lookup k = some v → ∃ r b, r ≠ [] ∧ (∀ e ∈ r, validName e = true) ∧
        k = '/' :: joinSlash r ∧
        nodeAt w (rootLoc w.cwd abs es ++ r) = some (Node.file b) ∧ v = md5 b) := by
  have hfold := calculateDirMd5_eq_fold md5 fuel w hw abs es he hv _ hn hsh
  obtain ⟨hpc, hvn, _⟩ := hw
  have hsound := listTree_sound w hvn abs fuel es (Node.dir wr)
  have heff : ∀ m, ∀ x ∈ listTree w fuel (rootStr abs es) (rootLoc w.cwd abs es) (Node.dir wr),
      visit (md5WalkFn md5 w (rootStr abs es)) m x
        = applyEff m (md5Eff md5 (rootStr abs es) x) := by
    intro m x hx
    obtain ⟨r, hr1, hr2, hr3⟩ := hsound x he hv hn hx
    have hv' : ∀ e ∈ es ++ r, validName e = true := by
      intro e h
      rcases List.mem_append.1 h with h | h
      · exact hv e h
      · exact hr1 e h
    have := md5WalkFn_visit md5 w hpc (rootStr abs es) abs (es ++ r) (by simp [he]) hv' x.2
      (by rw [rootLoc_append]; exact hr3) m
    unfold visit
    rw [hr2, this, ← hr2]
  -- what an assignment found in the tree looks like
  have hshape : ∀ x ∈ listTree w fuel (rootStr abs es) (rootLoc w.cwd abs es) (Node.dir wr),
      ∀ k v, md5Eff md5 (rootStr abs es) x = some (k, v) →
        ∃ r b, r ≠ [] ∧ (∀ e ∈ r, validName e = true) ∧ k = '/' :: joinSlash r ∧
          nodeAt w (rootLoc w.cwd abs es ++ r) = some (Node.file b) ∧ v = md5 b := by
    intro x hx k v hk
    obtain ⟨r, hr1, hr2, hr3⟩ := hsound x he hv hn hx
    obtain ⟨p, n⟩ := x
    cases n with
    | file b =>
      simp only [md5Eff, Option.some.injEq, Prod.mk.injEq] at hk
      have hr : r ≠ [] := by
        intro h
        subst h
        simp only [List.append_nil] at hr3
        rw [hn] at hr3
        cases hr3
      simp only at hr2 hr3
      refine ⟨r, b, hr, hr1, ?_, hr3, hk.2.symm⟩
      rw [← hk.1, hr2, keyOf_rootStr abs es r he hv hr]
    | dir wr1 => simp [md5Eff] at hk
    | other => simp [md5Eff] at hk
  refine ⟨_, hfold, ?_, ?_, ?_⟩
  · exact fold_eff_nodup _ _ _ heff [] (by simp)
  · intro r b hb
    have hr : r ≠ [] := by
      intro h
      subst h
      simp only [List.append_nil] at hb
      rw [hn] at hb
      cases hb
    have hrv := valid_of_nodeAt w hvn _ r _ hr hb
    have hmem := listTree_complete w hpc hvn abs r fuel es _ _ he hv hn hb hsh
    apply fold_eff_complete _ _ _ heff
    · intro x hx v1 hx1
      obtain ⟨r1, b1, h1, h2, h3, h4, h5⟩ := hshape x hx _ _ hx1
      have := key_injective r r1 hr h1 hrv h2 h3
      subst this
      rw [hb] at h4
      simp only [Option.some.injEq, Node.file.injEq] at h4
      rw [h5, h4]
    · right
      refine ⟨_, hmem, ?_⟩
      simp only [md5Eff, keyOf_rootStr abs es r he hv hr]
  · intro k v hk
    rcases fold_eff_sound _ _ _ heff k v [] hk with h | ⟨x, hx, hxe⟩
    · simp at h
    · exact hshape x hx k v hxe

/-! ## Creating one directory -/

/-- The elements of a plainly written path up to a directory resolve to
the directory's location. -/
theorem walkTo_elems (w : World) (hpc : ParentClosed w) (abs : Bool) (es : List Str)
    (hv : ∀ e ∈ es, validName e = true) (wr : Bool)
    (hd : nodeAt w (rootLoc w.cwd abs es) = some (Node.dir wr)) :
    walkTo w (if abs then [] else w.cwd) (if abs then [] :: es else es)
      = .ok (rootLoc w.cwd abs es) := by
  have hdirs : ∀ i, i < es.length →
      ∃ wr, nodeAt w ((if abs then [] else w.cwd) ++ es.take i) = some (Node.dir wr) := by
    intro i _
    have hloc : rootLoc w.cwd abs es
        = ((if abs then [] else w.cwd) ++ es.take i) ++ es.drop i := by
      rw [List.append_assoc, List.take_append_drop]
      cases abs <;> rfl
    by_cases hdr : es.drop i = []
    · rw [hloc, hdr, List.append_nil] at hd
      exact ⟨wr, hd⟩
    · rw [hloc] at hd
      exact ancestors_dir w hpc _ _ _ hdr hd
  cases abs with
  | false => simpa [rootLoc] using walkTo_valid w es w.cwd hv (by simpa using hdirs)
  | true =>
    simp only [↓reduceIte, walkTo, nodeAt]
    rw [show stepElem [] [] = [] by simp [stepElem]]
    simpa [rootLoc] using walkTo_valid w es [] hv (by simpa using hdirs)

theorem splitSlash_rootStr_dropLast (abs : Bool) (es : List Str) (he : es ≠ [])
    (hv : ∀ e ∈ es, validName e = true) :
    (splitSlash (rootStr abs es)).dropLast = (if abs then [] :: es.dropLast else es.dropLast) ∧
    (splitSlash (rootStr abs es)).getLast? = es.getLast? := by
  rw [splitSlash_rootStr abs es he hv]
  cases abs with
  | false => simp
  | true =>
    cases es with
    | nil => exact absurd rfl he
    | cons e es => simp [List.dropLast, List.getLast?_cons_cons]

theorem trimmedElems_rootStr (abs : Bool) (es : List Str) (he : es ≠ [])
    (hv : ∀ e ∈ es, validName e = true) :
    trimmedElems (rootStr abs es) = splitSlash (rootStr abs es) := by
  unfold trimmedElems
  obtain ⟨e, hlast⟩ : ∃ e, es.getLast? = some e := by
    cases h : es.getLast? with
    | none => exact absurd (List.getLast?_eq_none_iff.1 h) he
    | some e => exact ⟨e, rfl⟩
  have h2 := (splitSlash_rootStr_dropLast abs es he hv).2
  rw [hlast] at h2
  have h3 := List.dropLast_append_getLast? e h2
  have hev : validName e = true := hv e (List.mem_of_getLast?_eq_some hlast)
  rw [← h3, List.reverse_append]
  simp only [List.reverse_cons, List.reverse_nil, List.nil_append, List.singleton_append]
  rw [List.dropWhile_cons_of_neg (by simpa using validName_ne_nil hev)]
  simp

theorem mkdir_rootStr (w : World) (hpc : ParentClosed w) (abs : Bool) (es : List Str)
    (he : es ≠ []) (hv : ∀ e ∈ es, validName e = true)
    (hpar : nodeAt w (rootLoc w.cwd abs es.dropLast) = some (Node.dir true))
    (hnone : nodeAt w (rootLoc w.cwd abs es) = none) :
    mkdir w (rootStr abs es)
      = .ok { w with tab := setNode w.tab (rootLoc w.cwd abs es) (Node.dir true) } := by
  obtain ⟨e, hlast⟩ : ∃ e, es.getLast? = some e := by
    cases h : es.getLast? with
    | none => exact absurd (List.getLast?_eq_none_iff.1 h) he
    | some e => exact ⟨e, rfl⟩
  have hev : validName e = true := hv e (List.mem_of_getLast?_eq_some hlast)
  have hes : es.dropLast ++ [e] = es := List.dropLast_append_getLast? e hlast
  have hloc : rootLoc w.cwd abs es.dropLast ++ [e] = rootLoc w.cwd abs es := by
    rw [← rootLoc_append, hes]
  have hstart : startOf w (rootStr abs es) = if abs then [] else w.cwd := by
    unfold startOf
    rw [isRooted_rootStr abs es hv]
  have hsp := splitSlash_rootStr_dropLast abs es he hv
  have hwalk := walkTo_elems w hpc abs es.dropLast
    (fun x hx => hv x (List.mem_of_mem_dropLast hx)) true hpar
  have hstep := validName_step hev
  simp only [not_or] at hstep
  unfold mkdir
  rw [if_neg (rootStr_ne_nil abs es he hv), trimmedElems_rootStr abs es he hv, hsp.1, hsp.2,
    hstart, hwalk]
  simp only [hpar, hlast, hloc, hnone, hstep.1, hstep.2.1, hstep.2.2, or_self, ↓reduceIte,
    Option.isSome_none, Bool.false_eq_true, Bool.true_eq_false]

theorem dropWhile_notSlash (l Y : Str) (h : '/' ∉ l) :
    (l ++ '/' :: Y).dropWhile (fun c => c ≠ '/') = '/' :: Y := by
  induction l with
  | nil => simp [List.dropWhile]
  | cons c l ih =>
    simp only [List.mem_cons, not_or] at h
    rw [List.cons_append, List.dropWhile_cons_of_pos (by simpa using Ne.symm h.1)]
    exact ih h.2

theorem parentOf_child (X e : Str) (he : e ≠ []) (hs : '/' ∉ e) :
    parentOf (X ++ '/' :: e) = X ++ ['/'] := by
  unfold parentOf
  have hrev : (X ++ '/' :: e).reverse = e.reverse ++ '/' :: X.reverse := by simp
  rw [hrev]
  have hne : e.reverse ≠ [] := by simpa using he
  obtain ⟨c, cs, hc⟩ := List.exists_cons_of_ne_nil hne
  have hmem : '/' ∉ e.reverse := by simpa using hs
  have hc1 : c ≠ '/' := by
    intro h
    apply hmem
    rw [hc, h]
    exact List.mem_cons_self _ _
  have h1 : (e.reverse ++ '/' :: X.reverse).dropWhile (fun c => c = '/')
      = e.reverse ++ '/' :: X.reverse := by
    rw [hc, List.cons_append, List.dropWhile_cons_of_neg (by simpa using hc1)]
  rw [h1, dropWhile_notSlash _ _ hmem]
  simp

theorem parentOf_name (e : Str) (hs : '/' ∉ e) : parentOf e = [] := by
  unfold parentOf
  have hmem : '/' ∉ e.reverse := by simpa using hs
  have h2 : ∀ l : Str, '/' ∉ l → (l.dropWhile (fun c => c = '/')).dropWhile (fun c => c ≠ '/') = [] := by
    intro l
    induction l with
    | nil => intro _; rfl
    | cons c l ih =>
      intro h
      simp only [List.mem_cons, not_or] at h
      rw [List.dropWhile_cons_of_neg (by simpa using Ne.symm h.1),
        List.dropWhile_cons_of_pos (by simpa using Ne.symm h.1)]
      have := ih h.2
      have h3 : l.dropWhile (fun c => c ≠ '/') = [] := by
        rw [List.dropWhile_eq_nil_iff]
        intro x hx
        simp only [ne_eq, decide_not, Bool.not_eq_eq_eq_not, Bool.not_true,
          decide_eq_false_iff_not]
        intro hx1
        exact h.2 (hx1 ▸ hx)
      exact h3
  rw [h2 _ hmem]
  rfl

theorem walkTo_append (w : World) (a b : List Str) :
    ∀ cur q, walkTo w cur a = .ok q → walkTo w cur (a ++ b) = walkTo w q b := by
  induction a with
  | nil => intro cur q h; simp only [walkTo, Except.ok.injEq] at h; simp [h]
  | cons e a ih =>
    intro cur q h
    simp only [walkTo] at h
    simp only [List.cons_append, walkTo]
    cases hc : nodeAt w cur with
    | none => rw [hc] at h; cases h
    | some n =>
      rw [hc] at h
      cases n with
      | dir wr => exact ih _ _ h
      | file b => cases h
      | other => cases h

/-- The parent that `os.MkdirAll` extracts from a plainly written path is a
directory when the path lies in one. -/
theorem stat_parentOf (w : World) (hpc : ParentClosed w) (abs : Bool) (es : List Str)
    (he : es ≠ []) (hv : ∀ e ∈ es, validName e = true) (wr : Bool)
    (hpar : nodeAt w (rootLoc w.cwd abs es.dropLast) = some (Node.dir wr)) :
    parentOf (rootStr abs es) = [] ∨
      ∃ wr1, stat w (parentOf (rootStr abs es)) = .ok (Node.dir wr1) := by
  obtain ⟨e, hlast⟩ : ∃ e, es.getLast? = some e := by
    cases h : es.getLast? with
    | none => exact absurd (List.getLast?_eq_none_iff.1 h) he
    | some e => exact ⟨e, rfl⟩
  have hev : validName e = true := hv e (List.mem_of_getLast?_eq_some hlast)
  have hes : es.dropLast ++ [e] = es := List.dropLast_append_getLast? e hlast
  have hvd : ∀ x ∈ es.dropLast, validName x = true :=
    fun x hx => hv x (List.mem_of_mem_dropLast hx)
  by_cases hd : es.dropLast = []
  · cases abs with
    | false =>
      left
      have : rootStr false es = e := by
        rw [← hes, hd]; rfl
      rw [this]
      exact parentOf_name e (validName_noSlash hev)
    | true =>
      right
      have : rootStr true es = [] ++ '/' :: e := by
        rw [← hes, hd]; rfl
      rw [this, parentOf_child [] e (validName_ne_nil hev) (validName_noSlash hev)]
      exact ⟨true, by simp [stat, startOf, isRooted, splitSlash, walkTo, nodeAt, stepElem]⟩
  · right
    have hP : rootStr abs es = rootStr abs es.dropLast ++ '/' :: e := by
      conv_lhs => rw [← hes]
      rw [rootStr_append abs _ [e] hd (by simp)]
      rfl
    rw [hP, parentOf_child _ e (validName_ne_nil hev) (validName_noSlash hev)]
    refine ⟨wr, ?_⟩
    have hne := rootStr_ne_nil abs es.dropLast hd hvd
    have hsplit : splitSlash (rootStr abs es.dropLast ++ ['/'])
        = (if abs then [] :: es.dropLast else es.dropLast) ++ [[]] := by
      rw [splitSlash_append_slash, splitSlash_rootStr abs _ hd hvd]
      rfl
    have hstart : startOf w (rootStr abs es.dropLast ++ ['/']) = if abs then [] else w.cwd := by
      unfold startOf
      rw [isRooted_append _ _ hne, isRooted_rootStr abs _ hvd]
    unfold stat
    rw [if_neg (by simp), hsplit, hstart,
      walkTo_append w _ _ _ _ (walkTo_elems w hpc abs es.dropLast hvd wr hpar)]
    simp only [walkTo, hpar]
    rw [show stepElem (rootLoc w.cwd abs es.dropLast) [] = rootLoc w.cwd abs es.dropLast by
      simp [stepElem]]
    simp only [hpar]

theorem mkdirAllAux_of_dir (w : World) (p : Str) (chain : List Str) (wr : Bool)
    (h : stat w p = .ok (Node.dir wr)) : mkdirAllAux w p chain = (w, none) := by
  cases chain <;> simp only [mkdirAllAux, h]

theorem mkdirAllAux_of_missing (w : World) (p : Str) (chain : List Str) (e : Errno)
    (h : stat w p = .error e)
    (hc : chain = [] ∨ ∃ par rest wr, chain = par :: rest ∧ stat w par = .ok (Node.dir wr)) :
    mkdirAllAux w p chain = mkdirLast p (w, none) := by
  rcases hc with hc | ⟨par, rest, wr, hc, hpar⟩
  · subst hc
    simp only [mkdirAllAux, h]
  · subst hc
    simp only [mkdirAllAux, h, mkdirAllAux_of_dir w par rest wr hpar]

/-- `createDirIfNotExist` on a plainly written path that lies in a writable
directory: nothing happens when something is there, and otherwise the
directory is made. -/
theorem createDirIfNotExist_rootStr (w : World) (hpc : ParentClosed w) (abs : Bool)
    (es : List Str) (he : es ≠ []) (hv : ∀ e ∈ es, validName e = true)
    (hpar : nodeAt w (rootLoc w.cwd abs es.dropLast) = some (Node.dir true)) :
    createDirIfNotExist w (rootStr abs es) =
      match nodeAt w (rootLoc w.cwd abs es) with
      | some _ => (w, none)
      | none => ({ w with tab := setNode w.tab (rootLoc w.cwd abs es) (Node.dir true) }, none) := by
  unfold createDirIfNotExist
  have hst := stat_rootStr w hpc abs es he hv ⟨true, hpar⟩
  cases hn : nodeAt w (rootLoc w.cwd abs es) with
  | some n =>
    rw [hn] at hst
    simp only [hst]
  | none =>
    rw [hn] at hst
    simp only [hst, isNotExist, ↓reduceIte]
    unfold mkdirAll
    have hlen : ∃ n, (rootStr abs es).length = n + 1 := by
      have := rootStr_ne_nil abs es he hv
      cases h : rootStr abs es with
      | nil => exact absurd h this
      | cons c cs => exact ⟨cs.length, rfl⟩
    obtain ⟨n, hlen⟩ := hlen
    rw [hlen]
    have hchain : parentChain (n + 1) (rootStr abs es) = [] ∨
        ∃ par rest wr, parentChain (n + 1) (rootStr abs es) = par :: rest ∧
          stat w par = .ok (Node.dir wr) := by
      simp only [parentChain]
      rcases stat_parentOf w hpc abs es he hv true hpar with h | ⟨wr1, h⟩
      · left; simp [h]
      · by_cases h0 : parentOf (rootStr abs es) = []
        · left; simp [h0]
        · right
          exact ⟨parentOf (rootStr abs es), parentChain n (parentOf (rootStr abs es)), wr1,
            by simp only [h0, ↓reduceIte], h⟩
    rw [mkdirAllAux_of_missing w _ _ _ hst hchain]
    simp only [mkdirLast, mkdir_rootStr w hpc abs es he hv hpar hn]

/-! ## Updates of the table -/

theorem setNode_keys (t : List (Path × Node)) (p : Path) (m : Node) :
    (setNode t p m).map Prod.fst = if p ∈ t.map Prod.fst then t.map Prod.fst
      else t.map Prod.fst ++ [p] := by
  induction t with
  | nil => simp [setNode]
  | cons a t ih =>
    obtain ⟨a1, a2⟩ := a
    simp only [setNode]
    by_cases h1 : a1 = p
    · subst h1
      rw [if_pos rfl, if_pos (by rw [List.map_cons]; exact List.mem_cons_self _ _)]
      rfl
    · rw [if_neg h1, List.map_cons, ih]
      have hmem : p ∈ List.map Prod.fst ((a1, a2) :: t) ↔ p ∈ List.map Prod.fst t := by
        rw [List.map_cons, List.mem_cons]
        exact ⟨fun h => h.resolve_left (Ne.symm h1), Or.inr⟩
      by_cases hp : p ∈ List.map Prod.fst t
      · rw [if_pos hp, if_pos (hmem.2 hp)]; rfl
      · rw [if_neg hp, if_neg (fun h => hp (hmem.1 h))]; rfl

theorem mem_setNode (t : List (Path × Node)) (p : Path) (m : Node) (q : Path) (n : Node)
    (h : (q, n) ∈ setNode t p m) : (q, n) ∈ t ∨ (q = p ∧ n = m) := by
  induction t with
  | nil => simp only [setNode, List.mem_singleton, Prod.mk.injEq] at h; exact Or.inr h
  | cons a t ih =>
    obtain ⟨a1, a2⟩ := a
    simp only [setNode] at h
    split at h
    · rename_i h1
      simp only [List.mem_cons, Prod.mk.injEq] at h
      rcases h with h | h
      · exact Or.inr ⟨h.1.trans h1, h.2⟩
      · exact Or.inl (List.mem_cons_of_mem _ h)
    · simp only [List.mem_cons] at h
      rcases h with h | h
      · exact Or.inl (by rw [h]; exact List.mem_cons_self _ _)
      · rcases ih h with h2 | h2
        · exact Or.inl (List.mem_cons_of_mem _ h2)
        · exact Or.inr h2

/-- The listing of a directory, computed from the locations in the table. -/
theorem namesAt_eq_keys (w : World) (l : Path) :
    namesAt w l = (w.tab.map Prod.fst).foldr (fun q acc =>
      match childName l q with
      | some n => insertName n acc
      | none => acc) [] := by
  unfold namesAt
  rw [List.foldr_map]

theorem namesAt_setNode (w : World) (p : Path) (m : Node) (l : Path)
    (h : p ∈ w.tab.map Prod.fst ∨ childName l p = none) :
    namesAt { w with tab := setNode w.tab p m } l = namesAt w l := by
  rw [namesAt_eq_keys, namesAt_eq_keys]
  simp only [setNode_keys]
  split
  · rfl
  · rename_i hp
    rcases h with h | h
    · exact absurd h hp
    · rw [List.foldr_append]
      simp only [List.foldr_cons, List.foldr_nil, h]

theorem parentClosed_setNode_new (w : World) (hpc : ParentClosed w) (p : Path) (m : Node)
    (hp : p ≠ []) (hnone : nodeAt w p = none)
    (hpar : ∃ wr, nodeAt w p.dropLast = some (Node.dir wr)) :
    ParentClosed { w with tab := setNode w.tab p m } := by
  intro q n hq hq0
  rw [nodeAt_setNode w p q m hp] at hq
  have hne : ∀ x : Path, (∃ wr, nodeAt w x = some (Node.dir wr)) →
      ∃ wr, nodeAt { w with tab := setNode w.tab p m } x = some (Node.dir wr) := by
    intro x ⟨wr, hx⟩
    rw [nodeAt_setNode w p x m hp]
    by_cases hxp : x = p
    · rw [hxp, hnone] at hx; cases hx
    · exact ⟨wr, by simp [hxp, hx]⟩
  by_cases hqp : q = p
  · rw [hqp]; exact hne _ hpar
  · simp only [hqp, ↓reduceIte] at hq
    exact hne _ (hpc q n hq hq0)

theorem parentClosed_setNode_file (w : World) (hpc : ParentClosed w) (p : Path)
    (b b1 : List Nat) (hp : p ≠ []) (hfile : nodeAt w p = some (Node.file b)) :
    ParentClosed { w with tab := setNode w.tab p (Node.file b1) } := by
  intro q n hq hq0
  rw [nodeAt_setNode w p q _ hp] at hq
  have hne : ∀ x : Path, (∃ wr, nodeAt w x = some (Node.dir wr)) →
      ∃ wr, nodeAt { w with tab := setNode w.tab p (Node.file b1) } x
        = some (Node.dir wr) := by
    intro x ⟨wr, hx⟩
    rw [nodeAt_setNode w p x _ hp]
    by_cases hxp : x = p
    · rw [hxp, hfile] at hx; cases hx
    · exact ⟨wr, by simp [hxp, hx]⟩
  by_cases hqp : q = p
  · rw [hqp]; exact hne _ (hpc p _ hfile hp)
  · simp only [hqp, ↓reduceIte] at hq
    exact hne _ (hpc q n hq hq0)

theorem validNames_setNode (w : World) (hvn : ValidNames w) (p : Path) (m : Node)
    (hp : ∀ e ∈ p, validName e = true) :
    ValidNames { w with tab := setNode w.tab p m } := by
  intro q n hq e he
  rcases mem_setNode w.tab p m q n hq with h | h
  · exact hvn q n h e he
  · rw [h.1] at he; exact hp e he

/-! ## The mirroring walk -/

theorem apart_not_below {a b : Path} (h : Apart a b) (l : Path) (ha : a <+: l) (r : List Str) :
    l ≠ b ++ r := by
  intro hl
  rw [hl] at ha
  rcases List.prefix_or_prefix_of_prefix ha (List.prefix_append b r) with h1 | h1
  · exact h.1 h1
  · exact h.2 h1

theorem cwd_names_valid (w : World) (hw : ValidWorld w) : ∀ e ∈ w.cwd, validName e = true := by
  obtain ⟨_, hvn, wr, hc⟩ := hw
  intro e he
  have hne : w.cwd ≠ [] := by
    intro h; rw [h] at he; cases he
  obtain ⟨m, hm⟩ := mem_tab_of_nodeAt w _ _ hne hc
  exact hvn _ m hm e he

theorem rootLoc_names_valid (w : World) (hw : ValidWorld w) (abs : Bool) (es : List Str)
    (hv : ∀ e ∈ es, validName e = true) : ∀ e ∈ rootLoc w.cwd abs es, validName e = true := by
  intro e he
  cases abs with
  | true => exact hv e he
  | false =>
    simp only [rootLoc, Bool.false_eq_true, ↓reduceIte, List.mem_append] at he
    rcases he with he | he
    · exact cwd_names_valid w hw e he
    · exact hv e he

theorem createDirIfNotExist_exists (w : World) (hpc : ParentClosed w) (abs : Bool)
    (es : List Str) (he : es ≠ []) (hv : ∀ e ∈ es, validName e = true) (n : Node)
    (hn : nodeAt w (rootLoc w.cwd abs es) = some n) :
    createDirIfNotExist w (rootStr abs es) = (w, none) := by
  unfold createDirIfNotExist
  rw [stat_rootStr w hpc abs es he hv (parent_dir_of_node w hpc abs es he n hn)]
  simp only [hn]

/-- The directory that the mirroring walk hands to `createDirIfNotExist` for
the source directory at the relative path `rs`. -/
theorem mirror_targetDir (absS : Bool) (ss : List Str) (absT : Bool) (ts rs : List Str)
    (hs : ss ≠ []) (hsv : ∀ e ∈ ss, validName e = true) (ht : ts ≠ [])
    (htv : ∀ e ∈ ts, validName e = true) (hrv : ∀ e ∈ rs, validName e = true) :
    join (rootStr absT ts) ((rel (rootStr absS ss) (rootStr absS (ss ++ rs))).getD [])
      = rootStr absT (ts ++ rs) := by
  rw [rel_rootStr absS ss rs hs hsv hrv]
  by_cases hr : rs = []
  · subst hr
    simp only [↓reduceIte, Option.getD_some, List.append_nil]
    exact join_rootStr_dot absT ts ht htv
  · simp only [hr, ↓reduceIte, Option.getD_some]
    exact join_rootStr_rel absT ts rs ht htv hr hrv

/-- One visit of the mirroring walk, at the node of the source tree at the
relative path `rs`, when the parent of its place in the target tree is a
writable directory: no error, the invariant is kept, and for a directory
its place in the target tree is a writable directory afterwards. -/
theorem mirror_visit (w : World) (absS : Bool) (ss : List Str) (absT : Bool) (ts : List Str)
    (ht : Aligned w absS ss absT ts) (config : ConfigItem)
    (hS : config.OriginalPath = rootStr absS ss) (hT : config.TargetPath = rootStr absT ts)
    (r : Run) (hI : MirrorInv w absS ss absT ts r) (rs : List Str)
    (hrv : ∀ e ∈ rs, validName e = true) (n : Node)
    (hn : nodeAt w (rootLoc w.cwd absS ss ++ rs) = some n)
    (hJ : nodeAt r.world (rootLoc w.cwd absT ts ++ rs.dropLast) = some (Node.dir true)) :
    (mirrorWalkFn config r (rootStr absS (ss ++ rs)) (some n) none).2 = none ∧
    MirrorInv w absS ss absT ts (mirrorWalkFn config r (rootStr absS (ss ++ rs)) (some n) none).1 ∧
    ∀ wr, n = Node.dir wr →
      nodeAt (mirrorWalkFn config r (rootStr absS (ss ++ rs)) (some n) none).1.world
        (rootLoc w.cwd absT ts ++ rs) = some (Node.dir true) := by
  cases n with
  | file b => exact ⟨rfl, hI, fun wr h => by cases h⟩
  | other => exact ⟨rfl, hI, fun wr h => by cases h⟩
  | dir wr =>
    have htd := mirror_targetDir absS ss absT ts rs ht.srcNe ht.srcNames ht.tgtNe ht.tgtNames hrv
    have hv' : ∀ e ∈ ts ++ rs, validName e = true := by
      intro e h
      rcases List.mem_append.1 h with h | h
      · exact ht.tgtNames e h
      · exact hrv e h
    have hloc : rootLoc r.world.cwd absT (ts ++ rs) = rootLoc w.cwd absT ts ++ rs := by
      rw [hI.cwd, rootLoc_append]
    cases hc : nodeAt r.world (rootLoc w.cwd absT ts ++ rs) with
    | some n1 =>
      have hcr := createDirIfNotExist_exists r.world hI.closed absT (ts ++ rs)
        (by simp [ht.tgtNe]) hv' n1 (by rw [hloc]; exact hc)
      have hn1 : n1 = Node.dir true := by
        rcases hI.fresh _ _ hc with h | h
        · rcases ht.dirsFit rs wr hn with h2 | h2
          · rw [h2] at h; cases h
          · rw [h2] at h; simpa using h.symm
        · exact h.1
      simp only [mirrorWalkFn, hS, hT, htd, hcr]
      refine ⟨trivial, ⟨hI.closed, hI.names, hI.cwd, hI.noCopies, hI.ext, hI.same, hI.fresh,
        hI.keys⟩, fun _ _ => ?_⟩
      rw [hc, hn1]
    | none =>
      have hrne : rs ≠ [] := by
        intro h
        subst h
        simp only [List.append_nil] at hc
        have := hI.ext.2 _ _ ht.tgtDir
        rw [hc] at this
        cases this
      have hdl : (ts ++ rs).dropLast = ts ++ rs.dropLast :=
        List.dropLast_append_of_ne_nil _ hrne
      have hp0 : rootLoc w.cwd absT ts ++ rs ≠ [] := by simp [hrne]
      have hpd : (rootLoc w.cwd absT ts ++ rs).dropLast = rootLoc w.cwd absT ts ++ rs.dropLast :=
        List.dropLast_append_of_ne_nil _ hrne
      have hcr := createDirIfNotExist_rootStr r.world hI.closed absT (ts ++ rs)
        (by simp [ht.tgtNe]) hv' (by rw [hdl, hI.cwd, rootLoc_append]; exact hJ)
      rw [hloc, hc] at hcr
      simp only at hcr
      simp only [mirrorWalkFn, hS, hT, htd, hcr]
      have hnode := nodeAt_setNode r.world (rootLoc w.cwd absT ts ++ rs)
      refine ⟨trivial, ⟨?_, ?_, hI.cwd, hI.noCopies, ?_, ?_, ?_, ?_⟩, fun _ _ => ?_⟩
      · exact parentClosed_setNode_new r.world hI.closed _ _ hp0 hc (by rw [hpd]; exact ⟨true, hJ⟩)
      · apply validNames_setNode r.world hI.names
        intro e he
        rcases List.mem_append.1 he with h | h
        · exact rootLoc_names_valid w ht.valid absT ts ht.tgtNames e h
        · exact hrv e h
      · exact hI.ext.trans (extends_setNode_new r.world _ _ hp0 hc)
      · refine ⟨parentClosed_setNode_new r.world hI.closed _ _ hp0 hc
          (by rw [hpd]; exact ⟨true, hJ⟩), hI.cwd, fun l hl => ⟨?_, ?_⟩⟩
        · rw [hnode l _ hp0, if_neg (apart_not_below ht.apart l hl rs)]
          exact (hI.same.2.2 l hl).1
        · rw [namesAt_setNode r.world _ _ l (Or.inr ?_)]
          · exact (hI.same.2.2 l hl).2
          · cases hcn : childName l (rootLoc w.cwd absT ts ++ rs) with
            | none => rfl
            | some name =>
              exfalso
              have := (childName_eq_some l _ name).1 hcn
              have hl2 : rootLoc w.cwd absS ss <+: rootLoc w.cwd absT ts ++ rs := by
                rw [this]
                exact hl.trans (List.prefix_append _ _)
              exact apart_not_below ht.apart _ hl2 rs rfl
      · intro q n2 hq
        rw [hnode q _ hp0] at hq
        by_cases hqp : q = rootLoc w.cwd absT ts ++ rs
        · simp only [hqp, ↓reduceIte, Option.some.injEq] at hq
          exact Or.inr ⟨hq.symm, rs, wr, hqp, hn⟩
        · simp only [hqp, ↓reduceIte] at hq
          exact hI.fresh q n2 hq
      · intro q hq
        simp only [setNode_keys] at hq
        split at hq
        · exact hI.keys q hq
        · rcases List.mem_append.1 hq with h | h
          · exact hI.keys q h
          · simp only [List.mem_singleton] at h
            exact Or.inr ⟨rs, wr, h, hn⟩
      · rw [hnode _ _ hp0]
        simp

theorem mirrorInv_start (w : World) (absS : Bool) (ss : List Str) (absT : Bool)
    (ts : List Str) (ht : Aligned w absS ss absT ts) (m : List Str) :
    MirrorInv w absS ss absT ts ⟨w, m, []⟩ :=
  ⟨ht.valid.1, ht.valid.2.1, rfl, rfl, Extends.refl w, agrees_self w ht.valid.1 _,
    fun _ _ h => Or.inl h, fun _ h => Or.inl h⟩

/-- The mirroring walk of a pair in good order returns `nil`, keeps the
invariant, and leaves a writable directory in the target tree for every
directory of the source tree. -/
theorem mirror_walk (w : World) (absS : Bool) (ss : List Str) (absT : Bool) (ts : List Str)
    (ht : Aligned w absS ss absT ts) (config : ConfigItem)
    (hS : config.OriginalPath = rootStr absS ss) (hT : config.TargetPath = rootStr absT ts)
    (fuel : Nat) (hsh : Shallow w fuel (rootLoc w.cwd absS ss)) :
    ∃ r1 : Run, filepathWalk Run.world (mirrorWalkFn config) fuel ⟨w, [], []⟩
        config.OriginalPath = some (r1, none) ∧
      MirrorInv w absS ss absT ts r1 ∧
      ∀ rs wr, nodeAt w (rootLoc w.cwd absS ss ++ rs) = some (Node.dir wr) →
        nodeAt r1.world (rootLoc w.cwd absT ts ++ rs) = some (Node.dir true) := by
  obtain ⟨wr0, hroot⟩ := ht.srcDir
  have hpc := ht.valid.1
  have hvn := ht.valid.2.1
  have hext : ∀ (s : Run) p i e, Extends s.world (mirrorWalkFn config s p i e).1.world :=
    fun s p i e => (mirrorWalkFn_extends config s.world s.copies s p i e
      ⟨Extends.refl _, rfl⟩).1
  have hmain := walk_eq_fold Run.world (mirrorWalkFn config) w hvn absS ss
    (MirrorInv w absS ss absT ts)
    (fun s es => ∀ rs, es = ss ++ rs →
      nodeAt s.world (rootLoc w.cwd absT ts ++ rs.dropLast) = some (Node.dir true))
    (fun s x => ∀ rs wr, (∀ e ∈ rs, validName e = true) →
      x = (rootStr absS (ss ++ rs), Node.dir wr) →
      nodeAt s.world (rootLoc w.cwd absT ts ++ rs) = some (Node.dir true))
    (fun s hs => hs.same)
    (fun s p i e es hj rs hrs => (hext s p i e).2 _ _ (hj rs hrs))
    (fun s p i e x hq rs wr hrv hx => (hext s p i e).2 _ _ (hq rs wr hrv hx))
    (fun s es n hs hj hpre hv hn => by
      obtain ⟨rs, hrs⟩ := hpre
      subst hrs
      have hrv : ∀ e ∈ rs, validName e = true := fun e he => hv e (List.mem_append_right _ he)
      rw [rootLoc_append] at hn
      have hvis := mirror_visit w absS ss absT ts ht config hS hT s hs rs hrv n hn (hj rs rfl)
      refine ⟨hvis.1, hvis.2.1, ?_, ?_⟩
      · intro rs1 wr1 hrv1 hx
        simp only [Prod.mk.injEq] at hx
        have hv1 : ∀ e ∈ ss ++ rs1, validName e = true := by
          intro e h
          rcases List.mem_append.1 h with h | h
          · exact ht.srcNames e h
          · exact hrv1 e h
        have := rootStr_injective absS _ _ (by simp [ht.srcNe]) (by simp [ht.srcNe]) hv hv1 hx.1
        have hrs : rs = rs1 := List.append_cancel_left this
        subst hrs
        exact hvis.2.2 wr1 hx.2
      · intro wr1 hn1 name rs1 hrs1
        have hrs : rs1 = rs ++ [name] := by
          rw [List.append_assoc] at hrs1
          exact (List.append_cancel_left hrs1).symm
        subst hrs
        rw [List.dropLast_concat]
        exact hvis.2.2 wr1 hn1)
    fuel ss (Node.dir wr0) ⟨w, [], []⟩ (mirrorInv_start w absS ss absT ts ht [])
    (by
      intro rs hrs
      have : rs = [] := by simpa using hrs.symm
      subst this
      simpa using ht.tgtDir)
    (List.prefix_refl _) ht.srcNe ht.srcNames hroot hsh
  refine ⟨_, ?_, hmain.2.1, ?_⟩
  · unfold filepathWalk
    rw [hS]
    have hst := stat_rootStr w hpc absS ss ht.srcNe ht.srcNames
      (parent_dir_of_node w hpc absS ss ht.srcNe _ hroot)
    rw [hroot] at hst
    simp only at hst
    change (match stat w (rootStr absS ss) with
      | .error e => some (mirrorWalkFn config ⟨w, [], []⟩ (rootStr absS ss) none (some e))
      | .ok info => walk Run.world (mirrorWalkFn config) fuel ⟨w, [], []⟩ (rootStr absS ss) info)
      = _
    rw [hst]
    exact hmain.1
  · intro rs wr hd
    have hrv : ∀ e ∈ rs, validName e = true := by
      by_cases hr : rs = []
      · subst hr; simp
      · exact valid_of_nodeAt w hvn _ rs _ hr hd
    have hmem := listTree_complete w hpc hvn absS rs fuel ss _ _ ht.srcNe ht.srcNames hroot hd hsh
    exact hmain.2.2 _ hmem rs wr hrv rfl

/-! ## Copying one file -/

theorem openRead_rootStr (w : World) (hpc : ParentClosed w) (abs : Bool) (es : List Str)
    (he : es ≠ []) (hv : ∀ e ∈ es, validName e = true) (b : List Nat)
    (hn : nodeAt w (rootLoc w.cwd abs es) = some (Node.file b)) :
    openRead w (rootStr abs es) = .ok (rootLoc w.cwd abs es) := by
  unfold openRead
  rw [if_neg (rootStr_ne_nil abs es he hv),
    walkTo_rootStr w hpc abs es he hv (parent_dir_of_node w hpc abs es he _ hn)]
  simp only [hn]

theorem create_rootStr (w : World) (hpc : ParentClosed w) (abs : Bool) (es : List Str)
    (he : es ≠ []) (hv : ∀ e ∈ es, validName e = true)
    (hpar : nodeAt w (rootLoc w.cwd abs es.dropLast) = some (Node.dir true))
    (hn : nodeAt w (rootLoc w.cwd abs es) = none ∨
      ∃ b, nodeAt w (rootLoc w.cwd abs es) = some (Node.file b)) :
    create w (rootStr abs es)
      = .ok ({ w with tab := setNode w.tab (rootLoc w.cwd abs es) (Node.file []) },
          rootLoc w.cwd abs es) := by
  obtain ⟨e, hlast⟩ : ∃ e, es.getLast? = some e := by
    cases h : es.getLast? with
    | none => exact absurd (List.getLast?_eq_none_iff.1 h) he
    | some e => exact ⟨e, rfl⟩
  have hev : validName e = true := hv e (List.mem_of_getLast?_eq_some hlast)
  have hes : es.dropLast ++ [e] = es := List.dropLast_append_getLast? e hlast
  have hloc : rootLoc w.cwd abs es.dropLast ++ [e] = rootLoc w.cwd abs es := by
    rw [← rootLoc_append, hes]
  have hstart : startOf w (rootStr abs es) = if abs then [] else w.cwd := by
    unfold startOf
    rw [isRooted_rootStr abs es hv]
  have hsp := splitSlash_rootStr_dropLast abs es he hv
  have hwalk := walkTo_elems w hpc abs es.dropLast
    (fun x hx => hv x (List.mem_of_mem_dropLast hx)) true hpar
  have hstep := validName_step hev
  simp only [not_or] at hstep
  unfold create
  rw [if_neg (rootStr_ne_nil abs es he hv), hsp.1, hsp.2, hstart, hwalk]
  simp only [hpar, hlast, hloc, hstep.1, hstep.2.1, hstep.2.2, or_self, ↓reduceIte]
  rcases hn with hn | ⟨b, hn⟩
  · simp only [hn, Bool.true_eq_false, ↓reduceIte]
  · simp only [hn]

theorem setNode_setNode (t : List (Path × Node)) (p : Path) (m n : Node) :
    setNode (setNode t p m) p n = setNode t p n := by
  induction t with
  | nil => simp [setNode]
  | cons a t ih =>
    obtain ⟨a1, a2⟩ := a
    by_cases h : a1 = p
    · simp [setNode, h]
    · simp [setNode, h, ih]

/-- `copyFile` between plainly written paths: when the source is a regular
file, the destination lies in a writable directory and is free or a regular
file, and the two are different places, the destination becomes a regular
file with the bytes of the source, and `copyFile` returns `nil`. -/
theorem copyFile_rootStr (w : World) (hpc : ParentClosed w) (absS : Bool) (es : List Str)
    (absT : Bool) (fs : List Str) (he : es ≠ []) (hev : ∀ e ∈ es, validName e = true)
    (hf : fs ≠ []) (hfv : ∀ e ∈ fs, validName e = true) (b : List Nat)
    (hsrc : nodeAt w (rootLoc w.cwd absS es) = some (Node.file b))
    (hpar : nodeAt w (rootLoc w.cwd absT fs.dropLast) = some (Node.dir true))
    (hdst : nodeAt w (rootLoc w.cwd absT fs) = none ∨
      ∃ b1, nodeAt w (rootLoc w.cwd absT fs) = some (Node.file b1))
    (hne : rootLoc w.cwd absS es ≠ rootLoc w.cwd absT fs) :
    copyFile w (rootStr absS es) (rootStr absT fs)
      = ({ w with tab := setNode w.tab (rootLoc w.cwd absT fs) (Node.file b) }, none) := by
  have hd0 : rootLoc w.cwd absT fs ≠ [] := rootLoc_ne_nil _ absT fs hf
  unfold copyFile
  rw [openRead_rootStr w hpc absS es he hev b hsrc,
    create_rootStr w hpc absT fs hf hfv hpar hdst]
  simp only
  have hread : readAll { w with tab := setNode w.tab (rootLoc w.cwd absT fs) (Node.file []) }
      (rootLoc w.cwd absS es) = .ok b := by
    unfold readAll
    rw [nodeAt_setNode w _ _ _ hd0, if_neg hne, hsrc]
  rw [hread]
  simp only [setNode_setNode]

theorem foldl_stepElem_valid (es : List Str) (hv : ∀ e ∈ es, validName e = true) :
    ∀ cur : Path, es.foldl stepElem cur = cur ++ es := by
  induction es with
  | nil => intro cur; simp
  | cons e es ih =>
    intro cur
    rw [List.foldl_cons, stepElem_name cur e (validName_step (hv e (List.mem_cons_self _ _))),
      ih (fun x hx => hv x (List.mem_cons_of_mem _ hx))]
    simp

theorem locOf_rootStr (cwd : Path) (abs : Bool) (es : List Str) (he : es ≠ [])
    (hv : ∀ e ∈ es, validName e = true) : locOf cwd (rootStr abs es) = rootLoc cwd abs es := by
  unfold locOf
  rw [splitSlash_rootStr abs es he hv, isRooted_rootStr abs es hv]
  cases abs with
  | false => simpa [rootLoc] using foldl_stepElem_valid es hv cwd
  | true =>
    simp only [↓reduceIte, List.foldl_cons]
    rw [show stepElem [] [] = [] by simp [stepElem]]
    simpa [rootLoc] using foldl_stepElem_valid es hv []

theorem copyInv_start (w : World) (absS : Bool) (ss : List Str) (absT : Bool) (ts : List Str)
    (ht : Tidy w absS ss absT ts) (r1 : Run) (hI : MirrorInv w absS ss absT ts r1) :
    CopyInv w absS ss absT ts r1.world r1.world := by
  refine ⟨hI.closed, hI.names, hI.cwd, fun l hl => (hI.same.2.2 l hl).1, fun _ _ h => h, ?_, ?_⟩
  · intro rs b hb
    cases hc : nodeAt r1.world (rootLoc w.cwd absT ts ++ rs) with
    | none => exact Or.inl rfl
    | some n =>
      right
      rcases hI.fresh _ _ hc with h | ⟨_, rs1, wr, h1, h2⟩
      · rcases ht.filesFit rs b hb with h3 | ⟨b1, h3⟩
        · rw [h3] at h; cases h
        · rw [h3] at h
          simp only [Option.some.injEq] at h
          exact ⟨b1, by rw [h]⟩
      · have : rs = rs1 := List.append_cancel_left h1
        subst this
        rw [hb] at h2
        cases h2
  · intro q hq
    rcases hI.keys q hq with h | ⟨rs, wr, h1, h2⟩
    · exact Or.inl h
    · exact Or.inr ⟨rs, _, h1, h2⟩

/-- One copy of the loop, for the regular file of the source tree at the
relative path `rs`, whose place in the target tree lies in a writable
directory: `copyFile` returns `nil`, the place holds the bytes of the source
file afterwards, and the invariant is kept. -/
theorem copy_step (w : World) (absS : Bool) (ss : List Str) (absT : Bool) (ts : List Str)
    (ht : Tidy w absS ss absT ts) (w1 w2 : World) (hI : CopyInv w absS ss absT ts w1 w2)
    (rs : List Str) (hr : rs ≠ []) (hrv : ∀ e ∈ rs, validName e = true) (b : List Nat)
    (hb : nodeAt w (rootLoc w.cwd absS ss ++ rs) = some (Node.file b))
    (hpar : nodeAt w1 (rootLoc w.cwd absT ts ++ rs.dropLast) = some (Node.dir true)) :
    copyFile w2 (rootStr absS (ss ++ rs)) (rootStr absT (ts ++ rs))
      = ({ w2 with tab := setNode w2.tab (rootLoc w.cwd absT ts ++ rs) (Node.file b) }, none) ∧
    CopyInv w absS ss absT ts w1
      { w2 with tab := setNode w2.tab (rootLoc w.cwd absT ts ++ rs) (Node.file b) } := by
  have hvS : ∀ e ∈ ss ++ rs, validName e = true := by
    intro e h
    rcases List.mem_append.1 h with h | h
    · exact ht.srcNames e h
    · exact hrv e h
  have hvT : ∀ e ∈ ts ++ rs, validName e = true := by
    intro e h
    rcases List.mem_append.1 h with h | h
    · exact ht.tgtNames e h
    · exact hrv e h
  have hp0 : rootLoc w.cwd absT ts ++ rs ≠ [] := by simp [hr]
  have hpd : (rootLoc w.cwd absT ts ++ rs).dropLast = rootLoc w.cwd absT ts ++ rs.dropLast :=
    List.dropLast_append_of_ne_nil _ hr
  have hne : rootLoc w.cwd absS ss ++ rs ≠ rootLoc w.cwd absT ts ++ rs :=
    apart_not_below ht.apart _ (List.prefix_append _ _) rs
  have hdst := hI.tgtFiles rs b hb
  have hparent := hI.dirsKept _ _ hpar
  have hsrc : nodeAt w2 (rootLoc w.cwd absS ss ++ rs) = some (Node.file b) := by
    rw [hI.srcSame _ (List.prefix_append _ _), hb]
  have hnode := nodeAt_setNode w2 (rootLoc w.cwd absT ts ++ rs)
  constructor
  · have := copyFile_rootStr w2 hI.closed absS (ss ++ rs) absT (ts ++ rs) (by simp [hr]) hvS
      (by simp [hr]) hvT b (by rw [hI.cwd, rootLoc_append]; exact hsrc)
      (by rw [List.dropLast_append_of_ne_nil _ hr, hI.cwd, rootLoc_append]; exact hparent)
      (by rw [hI.cwd, rootLoc_append]; exact hdst)
      (by rw [hI.cwd, rootLoc_append, rootLoc_append]; exact hne)
    rw [this, hI.cwd, rootLoc_append]
  · refine ⟨?_, ?_, hI.cwd, ?_, ?_, ?_, ?_⟩
    · rcases hdst with h | ⟨b1, h⟩
      · exact parentClosed_setNode_new w2 hI.closed _ _ hp0 h (by rw [hpd]; exact ⟨true, hparent⟩)
      · exact parentClosed_setNode_file w2 hI.closed _ b1 b hp0 h
    · apply validNames_setNode w2 hI.names
      intro e he
      rcases List.mem_append.1 he with h | h
      · exact rootLoc_names_valid w ht.valid absT ts ht.tgtNames e h
      · exact hrv e h
    · intro l hl
      rw [hnode l _ hp0, if_neg (apart_not_below ht.apart l hl rs)]
      exact hI.srcSame l hl
    · intro q wr hq
      have h2 := hI.dirsKept q wr hq
      rw [hnode q _ hp0]
      by_cases hqp : q = rootLoc w.cwd absT ts ++ rs
      · rw [hqp] at h2
        rcases hdst with h | ⟨b1, h⟩
        · rw [h] at h2; cases h2
        · rw [h] at h2; cases h2
      · simp only [hqp, ↓reduceIte, h2]
    · intro rs1 b1 hb1
      rw [hnode _ _ hp0]
      by_cases hqp : rootLoc w.cwd absT ts ++ rs1 = rootLoc w.cwd absT ts ++ rs
      · right; exact ⟨b, by simp [hqp]⟩
      · simp only [hqp, ↓reduceIte]
        exact hI.tgtFiles rs1 b1 hb1
    · intro q hq
      simp only [setNode_keys] at hq
      split at hq
      · exact hI.keys q hq
      · rcases List.mem_append.1 hq with h | h
        · exact hI.keys q h
        · simp only [List.mem_singleton] at h
          exact Or.inr ⟨rs, _, h, hb⟩

/-- The copy loop of a pair in good order, over entries that stand for
regular files of the source tree: the invariant is kept, and every file
that the loop copies is, in the target tree, a regular file with the bytes
of the source file afterwards. -/
theorem copyLoop_tidy (w : World) (absS : Bool) (ss : List Str) (absT : Bool) (ts : List Str)
    (ht : Tidy w absS ss absT ts) (config : ConfigItem)
    (hS : config.OriginalPath = rootStr absS ss) (hT : config.TargetPath = rootStr absT ts)
    (w1 : World) (targetMd5 : GoMap)
    (hmir : ∀ rs wr, nodeAt w (rootLoc w.cwd absS ss ++ rs) = some (Node.dir wr) →
      nodeAt w1 (rootLoc w.cwd absT ts ++ rs) = some (Node.dir true))
    (entries : GoMap) :
    (∀ e ∈ entries, ∃ rs b, e.1 = '/' :: joinSlash rs ∧ rs ≠ [] ∧
      (∀ x ∈ rs, validName x = true) ∧
      nodeAt w (rootLoc w.cwd absS ss ++ rs) = some (Node.file b)) →
    (entries.map Prod.fst).Nodup →
    ∀ r : Run, CopyInv w absS ss absT ts w1 r.world →
      CopyInv w absS ss absT ts w1 (copyLoop config targetMd5 r entries).world ∧
      ∀ rs b v, rs ≠ [] → (∀ x ∈ rs, validName x = true) →
        nodeAt w (rootLoc w.cwd absS ss ++ rs) = some (Node.file b) →
        ('/' :: joinSlash rs, v) ∈ entries →
        needsCopy targetMd5 ('/' :: joinSlash rs, v) = true →
        nodeAt (copyLoop config targetMd5 r entries).world (rootLoc w.cwd absT ts ++ rs)
          = some (Node.file b) := by
  induction entries with
  | nil =>
    intro _ _ r hI
    exact ⟨hI, fun _ _ _ _ _ _ h _ => by cases h⟩
  | cons e rest ih =>
    intro hent hnd r hI
    obtain ⟨k, v⟩ := e
    have hent' : ∀ e ∈ rest, ∃ rs b, e.1 = '/' :: joinSlash rs ∧ rs ≠ [] ∧
        (∀ x ∈ rs, validName x = true) ∧
        nodeAt w (rootLoc w.cwd absS ss ++ rs) = some (Node.file b) :=
      fun e he => hent e (List.mem_cons_of_mem _ he)
    simp only [List.map_cons, List.nodup_cons] at hnd
    by_cases h : needsCopy targetMd5 (k, v) = true
    · have h1 := h
      unfold needsCopy at h1
      obtain ⟨rs, b, hk, hr, hrv, hb⟩ := hent (k, v) (List.mem_cons_self _ _)
      simp only at hk
      have hsrc : join config.OriginalPath k = rootStr absS (ss ++ rs) := by
        rw [hS, hk]; exact join_rootStr_key absS ss rs ht.srcNe ht.srcNames hr hrv
      have hdst : join config.TargetPath k = rootStr absT (ts ++ rs) := by
        rw [hT, hk]; exact join_rootStr_key absT ts rs ht.tgtNe ht.tgtNames hr hrv
      have hpar : nodeAt w1 (rootLoc w.cwd absT ts ++ rs.dropLast) = some (Node.dir true) := by
        have hp := ht.valid.1 _ _ hb (by simp [hr])
        rw [List.dropLast_append_of_ne_nil _ hr] at hp
        obtain ⟨wr, hp⟩ := hp
        exact hmir _ wr hp
      have hstep := copy_step w absS ss absT ts ht w1 r.world hI rs hr hrv b hb hpar
      simp only [copyLoop, h1, ↓reduceIte, hsrc, hdst, hstep.1]
      have hrec := ih hent' hnd.2
        { r with
          world := { r.world with
            tab := setNode r.world.tab (rootLoc w.cwd absT ts ++ rs) (Node.file b) }
          copies := r.copies ++ [⟨k, rootStr absS (ss ++ rs), rootStr absT (ts ++ rs)⟩] }
        hstep.2
      refine ⟨hrec.1, ?_⟩
      intro rs0 b0 v0 hr0 hrv0 hb0 hmem hneed
      simp only [List.mem_cons, Prod.mk.injEq] at hmem
      rcases hmem with ⟨hk0, _⟩ | hmem
      · have hrs : rs0 = rs := key_injective rs0 rs hr0 hr hrv0 hrv (hk0.trans hk)
        subst hrs
        rw [hb] at hb0
        simp only [Option.some.injEq, Node.file.injEq] at hb0
        subst hb0
        have hfr := copyLoop_frame config targetMd5 w.cwd (rootLoc w.cwd absT ts ++ rs0) rest
          { r with
            world := { r.world with
              tab := setNode r.world.tab (rootLoc w.cwd absT ts ++ rs0) (Node.file b) }
            copies := r.copies ++ [⟨k, rootStr absS (ss ++ rs0), rootStr absT (ts ++ rs0)⟩] }
          hI.cwd (by
            intro e he
            have he' := List.mem_of_mem_filter he
            obtain ⟨rs1, b1, hk1, hr1, hrv1, _⟩ := hent' e he'
            have hv1 : ∀ x ∈ ts ++ rs1, validName x = true := by
              intro x hx
              rcases List.mem_append.1 hx with hx | hx
              · exact ht.tgtNames x hx
              · exact hrv1 x hx
            rw [hT, hk1, join_rootStr_key absT ts rs1 ht.tgtNe ht.tgtNames hr1 hrv1,
              locOf_rootStr w.cwd absT _ (by simp [hr1]) hv1, rootLoc_append]
            intro heq
            have hrs : rs1 = rs0 := List.append_cancel_left heq
            apply hnd.1
            rw [hk, ← hrs, ← hk1]
            exact List.mem_map_of_mem _ he')
        rw [hfr.2, nodeAt_setNode _ _ _ _ (by simp [hr0])]
        simp
      · exact hrec.2 rs0 b0 v0 hr0 hrv0 hb0 hmem hneed
    · have h1 := h
      unfold needsCopy at h1
      simp only [copyLoop, h1]
      have hrec := ih hent' hnd.2 r hI
      refine ⟨hrec.1, ?_⟩
      intro rs0 b0 v0 hr0 hrv0 hb0 hmem hneed
      simp only [List.mem_cons, Prod.mk.injEq] at hmem
      rcases hmem with ⟨hk0, hv0⟩ | hmem
      · rw [hk0, hv0] at hneed
        exact absurd hneed h
      · exact hrec.2 rs0 b0 v0 hr0 hrv0 hb0 hmem hneed

/-! ## A run on a pair in good order -/

theorem mem_iff_lookup (m : GoMap) (h : (m.map Prod.fst).Nodup) (k v : Str) :
    (k, v) ∈ m ↔ m.lookup k = some v := by
  induction m with
  | nil => simp
  | cons a m ih =>
    obtain ⟨a1, a2⟩ := a
    simp only [List.map_cons, List.nodup_cons] at h
    by_cases hk : k = a1
    · subst hk
      simp only [List.mem_cons, Prod.mk.injEq, true_and, List.lookup, beq_self_eq_true,
        Option.some.injEq]
      constructor
      · rintro (h1 | h1)
        · exact h1.symm
        · exact absurd (List.mem_map_of_mem Prod.fst h1) h.1
      · intro h1; exact Or.inl h1.symm
    · have hb : (k == a1) = false := by simpa using hk
      simp only [List.mem_cons, Prod.mk.injEq, hk, false_and, false_or, List.lookup, hb]
      exact ih h.2

/-- Whether the loop copies a source file, in terms of the target tree. -/
theorem needsCopy_tidy (md5 : List Nat → Str) (w : World) (l : Path) (targetMd5 : GoMap)
    (hc : ∀ r b, nodeAt w (l ++ r) = some (Node.file b) →
      targetMd5.lookup ('/' :: joinSlash r) = some (md5 b))
    (hs : ∀ k v, targetMd5.lookup k = some v → ∃ r b, r ≠ [] ∧
      (∀ e ∈ r, validName e = true) ∧ k = '/' :: joinSlash r ∧
      nodeAt w (l ++ r) = some (Node.file b) ∧ v = md5 b)
    (rs : List Str) (hr : rs ≠ []) (hrv : ∀ e ∈ rs, validName e = true) (v : Str) :
    needsCopy targetMd5 ('/' :: joinSlash rs, v) = true ↔
      ¬ ∃ b1, nodeAt w (l ++ rs) = some (Node.file b1) ∧ md5 b1 = v := by
  rw [needsCopy_iff]
  simp only
  constructor
  · rintro h ⟨b1, hb1, hv⟩
    exact h (by rw [hc rs b1 hb1, hv])
  · intro h hl
    obtain ⟨r, b, hr1, hrv1, hk, hb, hv⟩ := hs _ _ hl
    have := key_injective rs r hr hr1 hrv hrv1 hk
    subst this
    exact h ⟨b, hb, hv.symm⟩

/-- A run of `processFile` on a pair in good order, with the budget to walk
both trees, returns `nil` and leaves the outcome described by `Outcome`. -/
theorem processFile_tidy (md5 : List Nat → Str) (fuel : Nat) (w : World) (absS : Bool)
    (ss : List Str) (absT : Bool) (ts : List Str) (ht : Tidy w absS ss absT ts)
    (config : ConfigItem) (hS : config.OriginalPath = rootStr absS ss)
    (hT : config.TargetPath = rootStr absT ts)
    (hshS : Shallow w fuel (rootLoc w.cwd absS ss))
    (hshT : Shallow w fuel (rootLoc w.cwd absT ts)) :
    ∃ r : Run, processFile md5 fuel w config = some (r, none) ∧
      Outcome md5 w absS ss absT ts r := by
  obtain ⟨wrS, hsrc⟩ := ht.srcDir
  have hcr : createDirIfNotExist w config.TargetPath = (w, none) := by
    rw [hT]
    exact createDirIfNotExist_exists w ht.valid.1 absT ts ht.tgtNe ht.tgtNames _ ht.tgtDir
  obtain ⟨mS, hmS, hndS, hcS, hsS⟩ :=
    calculateDirMd5_spec md5 fuel w ht.valid absS ss ht.srcNe ht.srcNames wrS hsrc hshS
  obtain ⟨mT, hmT, _, hcT, hsT⟩ :=
    calculateDirMd5_spec md5 fuel w ht.valid absT ts ht.tgtNe ht.tgtNames true ht.tgtDir hshT
  obtain ⟨r1, hwalk, hMI, hmir⟩ :=
    mirror_walk w absS ss absT ts ht.toAligned config hS hT fuel hshS
  rw [← hS] at hmS
  rw [← hT] at hmT
  have hent : ∀ e ∈ mS, ∃ rs b, e.1 = '/' :: joinSlash rs ∧ rs ≠ [] ∧
      (∀ x ∈ rs, validName x = true) ∧
      nodeAt w (rootLoc w.cwd absS ss ++ rs) = some (Node.file b) ∧ e.2 = md5 b := by
    intro e he
    obtain ⟨k, v⟩ := e
    obtain ⟨rs, b, h1, h2, h3, h4, h5⟩ := hsS k v ((mem_iff_lookup mS hndS k v).1 he)
    exact ⟨rs, b, h3, h1, h2, h4, h5⟩
  have hloop := copyLoop_tidy w absS ss absT ts ht config hS hT r1.world mT hmir mS
    (fun e he => by
      obtain ⟨rs, b, h1, h2, h3, h4, _⟩ := hent e he
      exact ⟨rs, b, h1, h2, h3, h4⟩) hndS r1 (copyInv_start w absS ss absT ts ht r1 hMI)
  have hfile : ∀ rs b, nodeAt w (rootLoc w.cwd absS ss ++ rs) = some (Node.file b) →
      rs ≠ [] ∧ (∀ x ∈ rs, validName x = true) ∧ ('/' :: joinSlash rs, md5 b) ∈ mS := by
    intro rs b hb
    have hr : rs ≠ [] := by
      intro h
      subst h
      simp only [List.append_nil] at hb
      rw [hsrc] at hb
      cases hb
    exact ⟨hr, valid_of_nodeAt w ht.valid.2.1 _ rs _ hr hb,
      (mem_iff_lookup mS hndS _ _).2 (hcS rs b hb)⟩
  have hneed : ∀ rs, rs ≠ [] → (∀ x ∈ rs, validName x = true) → ∀ v,
      (needsCopy mT ('/' :: joinSlash rs, v) = true ↔
        ¬ ∃ b1, nodeAt w (rootLoc w.cwd absT ts ++ rs) = some (Node.file b1) ∧ md5 b1 = v) :=
    fun rs hr hrv v => needsCopy_tidy md5 w _ mT hcT hsT rs hr hrv v
  have hcopies := copyLoop_copies config mT mS r1
  rw [hMI.noCopies, List.nil_append] at hcopies
  have hnames : (copyLoop config mT r1 mS).copies.map CopyCall.fileName
      = (mS.filter (needsCopy mT)).map Prod.fst := by
    rw [hcopies]
    simp [List.map_map, Function.comp_def]
  refine ⟨copyLoop config mT r1 mS, by simp only [processFile, hcr, hmS, hmT, hwalk], ?_⟩
  refine ⟨⟨hloop.1.closed, hloop.1.names, ?_⟩, hloop.1.cwd, hloop.1.srcSame, ?_, ?_, ?_, ?_,
    ?_, hloop.1.keys⟩
  · obtain ⟨wr, hc⟩ := ht.valid.2.2
    rw [hloop.1.cwd]
    exact ⟨wr, hloop.1.dirsKept _ _ (hMI.ext.2 _ _ hc)⟩
  · intro rs wr hd
    exact hloop.1.dirsKept _ _ (hmir rs wr hd)
  · intro rs b hb hno
    obtain ⟨hr, hrv, hmem⟩ := hfile rs b hb
    exact hloop.2 rs b (md5 b) hr hrv hb hmem ((hneed rs hr hrv _).2 hno)
  · intro rs b hb hyes
    obtain ⟨hr, hrv, hmem⟩ := hfile rs b hb
    have hfr := copyLoop_frame config mT w.cwd (rootLoc w.cwd absT ts ++ rs) mS r1 hMI.cwd (by
      intro e he
      have he' := List.mem_of_mem_filter he
      have hen := (List.mem_filter.1 he).2
      obtain ⟨rs1, b1, hk1, hr1, hrv1, hb1, hv1⟩ := hent e he'
      have hvT : ∀ x ∈ ts ++ rs1, validName x = true := by
        intro x hx
        rcases List.mem_append.1 hx with hx | hx
        · exact ht.tgtNames x hx
        · exact hrv1 x hx
      rw [hT, hk1, join_rootStr_key absT ts rs1 ht.tgtNe ht.tgtNames hr1 hrv1,
        locOf_rootStr w.cwd absT _ (by simp [hr1]) hvT, rootLoc_append]
      intro heq
      have hrs : rs1 = rs := List.append_cancel_left heq
      subst hrs
      rw [hb] at hb1
      simp only [Option.some.injEq, Node.file.injEq] at hb1
      subst hb1
      have : e = ('/' :: joinSlash rs1, md5 b) := Prod.ext hk1 hv1
      rw [this] at hen
      exact (hneed rs1 hr hrv _).1 hen hyes)
    rw [hfr.2]
    obtain ⟨b1, hb1, _⟩ := hyes
    rw [hb1]
    exact hMI.ext.2 _ _ hb1
  · rw [hnames]
    exact (List.filter_sublist mS).map Prod.fst |>.nodup hndS
  · intro k
    rw [hnames]
    simp only [List.mem_map, List.mem_filter, Prod.exists, exists_and_right, exists_eq_right]
    constructor
    · rintro ⟨v, hv, hn⟩
      obtain ⟨rs, b, hk1, hr1, hrv1, hb1, hv1⟩ := hent (k, v) hv
      simp only at hk1 hv1
      subst hk1
      subst hv1
      exact ⟨rs, b, rfl, hb1, (hneed rs hr1 hrv1 _).1 hn⟩
    · rintro ⟨rs, b, hk, hb, hno⟩
      obtain ⟨hr, hrv, hmem⟩ := hfile rs b hb
      subst hk
      exact ⟨md5 b, hmem, (hneed rs hr hrv _).2 hno⟩

/-! ## Checked conditions -/

theorem isDirAt_iff (w : World) (q : Path) :
    isDirAt w q = true ↔ ∃ wr, nodeAt w q = some (Node.dir wr) := by
  unfold isDirAt
  cases h : nodeAt w q with
  | none => simp
  | some n => cases n <;> simp

theorem tidy_of_check (w : World) (absS : Bool) (ss : List Str) (absT : Bool) (ts : List Str)
    (h : tidyCheck w absS ss absT ts = true) : Tidy w absS ss absT ts := by
  simp only [tidyCheck, Bool.and_eq_true, List.all_eq_true, Bool.or_eq_true, beq_iff_eq,
    Bool.not_eq_true', decide_eq_true_eq] at h
  obtain ⟨⟨⟨⟨⟨⟨⟨⟨⟨⟨htab, hcwd⟩, hsne⟩, hsv⟩, htne⟩, htv⟩, hap1⟩, hap2⟩, hsd⟩, htd⟩, hfit⟩ := h
  have hpc : ParentClosed w := by
    intro q n hq hq0
    obtain ⟨m, hm⟩ := mem_tab_of_nodeAt w q n hq0 hq
    rcases (htab _ hm).2 with h1 | h1
    · exact absurd h1 hq0
    · exact (isDirAt_iff w _).1 h1
  have hfits : ∀ rs n, nodeAt w (rootLoc w.cwd absS ss ++ rs) = some n →
      fitsAt w (rootLoc w.cwd absS ss) (rootLoc w.cwd absT ts)
        (rootLoc w.cwd absS ss ++ rs) = true := by
    intro rs n hn
    obtain ⟨m, hm⟩ := mem_tab_of_nodeAt w _ n
      (by
        intro h0
        exact rootLoc_ne_nil w.cwd absS ss hsne (List.append_eq_nil.1 h0).1) hn
    exact hfit _ hm
  have hpre : ∀ rs : List Str,
      (rootLoc w.cwd absS ss).isPrefixOf (rootLoc w.cwd absS ss ++ rs) = true :=
    fun rs => List.isPrefixOf_iff_prefix.2 (List.prefix_append _ _)
  refine ⟨⟨⟨hpc, fun q n hq e he => (htab _ hq).1 e he, (isDirAt_iff w _).1 hcwd⟩, hsne, hsv,
    htne, htv, ⟨fun hp => ?_, fun hp => ?_⟩, (isDirAt_iff w _).1 hsd, htd, ?_⟩, ?_⟩
  · rw [List.isPrefixOf_iff_prefix.2 hp] at hap1; cases hap1
  · rw [List.isPrefixOf_iff_prefix.2 hp] at hap2; cases hap2
  · intro rs wr hd
    have := hfits rs _ hd
    simp only [fitsAt, hpre, ↓reduceIte, hd, List.drop_left, Bool.or_eq_true,
      decide_eq_true_eq] at this
    exact this
  · intro rs b hb
    have := hfits rs _ hb
    simp only [fitsAt, hpre, ↓reduceIte, hb, List.drop_left] at this
    cases hc : nodeAt w (rootLoc w.cwd absT ts ++ rs) with
    | none => exact Or.inl rfl
    | some n =>
      rw [hc] at this
      cases n with
      | file b1 => exact Or.inr ⟨b1, rfl⟩
      | dir wr => simp at this
      | other => simp at this

theorem shallow_of_check (w : World) (fuel n : Nat) (l : Path)
    (h : roomyCheck w fuel n = true) : Shallow w fuel l := by
  simp only [roomyCheck, List.all_eq_true, decide_eq_true_eq] at h
  intro q m hq
  have := h _ hq
  simp only at this
  omega

/-! ## The first step of `processFile` -/

theorem mkdir_adds_dir (w w1 : World) (p : Str) (h : mkdir w p = .ok w1) :
    ∀ q n, nodeAt w1 q = some n → nodeAt w q = some n ∨ n = Node.dir true := by
  unfold mkdir at h
  split at h
  · cases h
  · split at h
    · cases h
    · rename_i q0 _
      split at h
      · cases h
      · split at h
        · cases h
        · rename_i e _
          split at h
          · cases h
          · split at h
            · cases h
            · split at h
              · cases h
              · cases h
                intro q n hq
                rw [nodeAt_setNode w (q0 ++ [e]) q _ (by simp)] at hq
                by_cases hqp : q = q0 ++ [e]
                · simp only [hqp, ↓reduceIte, Option.some.injEq] at hq
                  exact Or.inr hq.symm
                · simp only [hqp, ↓reduceIte] at hq
                  exact Or.inl hq
      · cases h

theorem mkdirLast_adds_dir (w : World) (p : Str) (made : World × Option Errno)
    (h : ∀ q n, nodeAt made.1 q = some n → nodeAt w q = some n ∨ n = Node.dir true) :
    ∀ q n, nodeAt (mkdirLast p made).1 q = some n → nodeAt w q = some n ∨ n = Node.dir true := by
  obtain ⟨w1, oe⟩ := made
  cases oe with
  | some e => exact h
  | none =>
    simp only [mkdirLast]
    split
    · rename_i w2 hm
      intro q n hq
      rcases mkdir_adds_dir _ _ _ hm q n hq with h1 | h1
      · exact h q n h1
      · exact Or.inr h1
    · split <;> exact h

theorem mkdirAllAux_adds_dir (chain : List Str) :
    ∀ (w : World) (p : Str) q n, nodeAt (mkdirAllAux w p chain).1 q = some n →
      nodeAt w q = some n ∨ n = Node.dir true := by
  induction chain with
  | nil =>
    intro w p
    simp only [mkdirAllAux]
    split
    · exact fun _ _ h => Or.inl h
    · exact fun _ _ h => Or.inl h
    · exact mkdirLast_adds_dir w p _ (fun _ _ h => Or.inl h)
  | cons par rest ih =>
    intro w p
    simp only [mkdirAllAux]
    split
    · exact fun _ _ h => Or.inl h
    · exact fun _ _ h => Or.inl h
    · exact mkdirLast_adds_dir w p _ (ih w par)

/-- What `createDirIfNotExist` adds to the world is directories. -/
theorem createDirIfNotExist_adds_dir (w : World) (p : Str) :
    ∀ q n, nodeAt (createDirIfNotExist w p).1 q = some n →
      nodeAt w q = some n ∨ n = Node.dir true := by
  unfold createDirIfNotExist
  split
  · split
    · exact mkdirAllAux_adds_dir _ w p
    · exact fun _ _ h => Or.inl h
  · exact fun _ _ h => Or.inl h

/-- Once the target root is there, the first step of `processFile` changes
nothing: the run from `w` is the run from the world `w0` that the first step
leaves. -/
theorem processFile_after_first_step (md5 : List Nat → Str) (fuel : Nat) (w w0 : World)
    (config : ConfigItem) (h1 : createDirIfNotExist w config.TargetPath = (w0, none))
    (h2 : createDirIfNotExist w0 config.TargetPath = (w0, none)) :
    processFile md5 fuel w config = processFile md5 fuel w0 config := by
  simp only [processFile, h1, h2]

/-- The run of `processFile` when its first step leaves the pair in good
order. -/
theorem processFile_ready (md5 : List Nat → Str) (fuel : Nat) (w w0 : World) (absS : Bool)
    (ss : List Str) (absT : Bool) (ts : List Str) (config : ConfigItem)
    (hS : config.OriginalPath = rootStr absS ss) (hT : config.TargetPath = rootStr absT ts)
    (h1 : createDirIfNotExist w config.TargetPath = (w0, none))
    (ht : Tidy w0 absS ss absT ts)
    (hshS : Shallow w0 fuel (rootLoc w0.cwd absS ss))
    (hshT : Shallow w0 fuel (rootLoc w0.cwd absT ts)) :
    ∃ r : Run, processFile md5 fuel w config = some (r, none) ∧
      Outcome md5 w0 absS ss absT ts r := by
  have h2 : createDirIfNotExist w0 config.TargetPath = (w0, none) := by
    rw [hT]
    exact createDirIfNotExist_exists w0 ht.valid.1 absT ts ht.tgtNe ht.tgtNames _ ht.tgtDir
  rw [processFile_after_first_step md5 fuel w w0 config h1 h2]
  exact processFile_tidy md5 fuel w0 absS ss absT ts ht config hS hT hshS hshT

/-- After a run on a pair in good order the pair is in good order again. -/
theorem outcome_tidy (md5 : List Nat → Str) (w : World) (absS : Bool) (ss : List Str)
    (absT : Bool) (ts : List Str) (ht : Tidy w absS ss absT ts) (r : Run)
    (ho : Outcome md5 w absS ss absT ts r) : Tidy r.world absS ss absT ts := by
  obtain ⟨wrS, hsrc⟩ := ht.srcDir
  have hlS := ho.srcSame
  refine ⟨⟨ho.valid, ht.srcNe, ht.srcNames, ht.tgtNe, ht.tgtNames, ?_, ?_, ?_, ?_⟩, ?_⟩
  · rw [ho.cwd]; exact ht.apart
  · rw [ho.cwd]
    exact ⟨wrS, by rw [hlS _ (List.prefix_refl _), hsrc]⟩
  · rw [ho.cwd]
    simpa using ho.dirs [] wrS (by simpa using hsrc)
  · rw [ho.cwd]
    intro rs wr hd
    rw [hlS _ (List.prefix_append _ _)] at hd
    exact Or.inr (ho.dirs rs wr hd)
  · rw [ho.cwd]
    intro rs b hb
    rw [hlS _ (List.prefix_append _ _)] at hb
    right
    by_cases hx : ∃ b1, nodeAt w (rootLoc w.cwd absT ts ++ rs) = some (Node.file b1) ∧
        md5 b1 = md5 b
    · obtain ⟨b1, hb1, _⟩ := hx
      exact ⟨b1, by rw [ho.kept rs b hb ⟨b1, hb1, ‹_›⟩, hb1]⟩
    · exact ⟨b, ho.copied rs b hb hx⟩

/-- After a run on a pair in good order every source file has, at its
place in the target tree, a regular file of the same digest. -/
theorem outcome_in_sync (md5 : List Nat → Str) (w : World) (absS : Bool) (ss : List Str)
    (absT : Bool) (ts : List Str) (r : Run) (ho : Outcome md5 w absS ss absT ts r)
    (rs : List Str) (b : List Nat)
    (hb : nodeAt r.world (rootLoc w.cwd absS ss ++ rs) = some (Node.file b)) :
    ∃ b1, nodeAt r.world (rootLoc w.cwd absT ts ++ rs) = some (Node.file b1) ∧
      md5 b1 = md5 b := by
  rw [ho.srcSame _ (List.prefix_append _ _)] at hb
  by_cases hx : ∃ b1, nodeAt w (rootLoc w.cwd absT ts ++ rs) = some (Node.file b1) ∧
      md5 b1 = md5 b
  · obtain ⟨b1, hb1, hd⟩ := hx
    exact ⟨b1, by rw [ho.kept rs b hb ⟨b1, hb1, hd⟩, hb1], hd⟩
  · exact ⟨b, ho.copied rs b hb hx, rfl⟩

/-! ## The directory skeleton -/

theorem create_not_dir (w w1 : World) (p : Str) (d : Path) (h : create w p = .ok (w1, d)) :
    ∀ wr, nodeAt w d ≠ some (Node.dir wr) := by
  unfold create at h
  split at h
  · cases h
  · split at h
    · cases h
    · split at h
      · cases h
      · split at h
        · cases h
        · split at h
          · cases h
          · split at h
            · rename_i hf
              simp only [Except.ok.injEq, Prod.mk.injEq] at h
              intro wr hd
              rw [← h.2, hf] at hd
              cases hd
            · cases h
            · cases h
            · rename_i hn
              split at h
              · cases h
              · simp only [Except.ok.injEq, Prod.mk.injEq] at h
                intro wr hd
                rw [← h.2, hn] at hd
                cases hd
      · cases h

/-- `copyFile` leaves every directory a directory. -/
theorem copyFile_keeps_dirs (w : World) (src dst : Str) (q : Path) (wr : Bool)
    (hq : nodeAt w q = some (Node.dir wr)) :
    nodeAt (copyFile w src dst).1 q = some (Node.dir wr) := by
  unfold copyFile
  split
  · exact hq
  · split
    · exact hq
    · rename_i w1 d hc
      obtain ⟨_, hne, hw1⟩ := create_spec w w1 dst d hc
      have hqd : q ≠ d := by
        intro h
        rw [h] at hq
        exact create_not_dir w w1 dst d hc wr hq
      have h1 : nodeAt w1 q = some (Node.dir wr) := by
        rw [hw1, nodeAt_setNode w d q _ hne, if_neg hqd]
        exact hq
      split
      · exact h1
      · simp only
        rw [nodeAt_setNode w1 d q _ hne, if_neg hqd]
        exact h1

theorem copyLoop_keeps_dirs (config : ConfigItem) (targetMd5 : GoMap) (q : Path) (wr : Bool)
    (originalMd5 : GoMap) :
    ∀ r : Run, nodeAt r.world q = some (Node.dir wr) →
      nodeAt (copyLoop config targetMd5 r originalMd5).world q = some (Node.dir wr) := by
  induction originalMd5 with
  | nil => intro r h; exact h
  | cons e rest ih =>
    intro r h
    obtain ⟨k, v⟩ := e
    by_cases hn : needsCopy targetMd5 (k, v) = true
    · have h1 := hn
      unfold needsCopy at h1
      simp only [copyLoop, h1, ↓reduceIte]
      exact ih _ (copyFile_keeps_dirs r.world _ _ q wr h)
    · have h1 := hn
      unfold needsCopy at h1
      simp only [copyLoop, h1]
      exact ih r h

/-- C4 as stated fails: where the target root should be there is a regular
file; `processFile` returns `nil` having changed nothing, and neither the
target root nor the mirrored `sub` is a directory afterwards. -/
theorem processFile_leaves_file_as_target_root :
    nodeAt fileAsTarget (loc "src/sub") = some (Node.dir true) ∧
    (∀ md5 : List Nat → Str, processFile md5 3 fileAsTarget (pair "src" "dst")
      = some (⟨fileAsTarget, ["dst".toList, "dst/sub".toList], []⟩, none)) ∧
    nodeAt fileAsTarget (loc "dst") = some (Node.file [7]) ∧
    nodeAt fileAsTarget (loc "dst/sub") = none :=
  ⟨by decide, fun _ => rfl, by decide, by decide⟩

/-! ## Copying what differs -/

theorem calls_for_key_once (l : List CopyCall) (k : Str)
    (hnd : (l.map CopyCall.fileName).Nodup) (hk : k ∈ l.map CopyCall.fileName) :
    (l.filter (fun c => decide (c.fileName = k))).length = 1 := by
  induction l with
  | nil => simp at hk
  | cons c l ih =>
    simp only [List.map_cons, List.nodup_cons] at hnd
    simp only [List.map_cons, List.mem_cons] at hk
    by_cases hc : c.fileName = k
    · have hnone : l.filter (fun c => decide (c.fileName = k)) = [] := by
        rw [List.filter_eq_nil_iff]
        intro x hx
        simp only [decide_eq_true_eq]
        intro hxk
        apply hnd.1
        rw [hc, ← hxk]
        exact List.mem_map_of_mem _ hx
      rw [List.filter_cons_of_pos (by simpa using hc), hnone]
      rfl
    · rw [List.filter_cons_of_neg (by simpa using hc)]
      exact ih hnd.2 (hk.resolve_left (fun h => hc h.symm))

/-- C2, as amended: when the first step of `processFile` succeeds and
leaves the pair in good order (plainly written roots, the source root a
directory, the target root a writable directory apart from it, and in the
target tree nothing, a writable directory or a regular file where the
source tree has a directory or a regular file), then for every regular file
of the source tree whose place in the target tree holds no regular file of
the same digest, the run calls `copyFile` exactly once, and that place holds
a regular file with the bytes of the source file afterwards. -/
theorem processFile_copies_differing_files (md5 : List Nat → Str) (fuel : Nat) (w w0 : World)
    (absS : Bool) (ss : List Str) (absT : Bool) (ts : List Str) (config : ConfigItem)
    (hS : config.OriginalPath = rootStr absS ss) (hT : config.TargetPath = rootStr absT ts)
    (h1 : createDirIfNotExist w config.TargetPath = (w0, none))
    (ht : Tidy w0 absS ss absT ts)
    (hshS : Shallow w0 fuel (rootLoc w0.cwd absS ss))
    (hshT : Shallow w0 fuel (rootLoc w0.cwd absT ts)) :
    ∃ r : Run, processFile md5 fuel w config = some (r, none) ∧
      ∀ rs b, nodeAt w (rootLoc w.cwd absS ss ++ rs) = some (Node.file b) →
        (¬ ∃ b1, nodeAt w (rootLoc w.cwd absT ts ++ rs) = some (Node.file b1) ∧
          md5 b1 = md5 b) →
        (r.copies.filter (fun c => decide (c.fileName = '/' :: joinSlash rs))).length = 1 ∧
        nodeAt r.world (rootLoc w.cwd absT ts ++ rs) = some (Node.file b) := by
  obtain ⟨r, hr, ho⟩ := processFile_ready md5 fuel w w0 absS ss absT ts config hS hT h1 ht
    hshS hshT
  have hext := createDirIfNotExist_extends w config.TargetPath
  have hadd := createDirIfNotExist_adds_dir w config.TargetPath
  rw [h1] at hext hadd
  refine ⟨r, hr, fun rs b hb hno => ?_⟩
  have hb0 : nodeAt w0 (rootLoc w0.cwd absS ss ++ rs) = some (Node.file b) := by
    rw [hext.1]; exact hext.2 _ _ hb
  have hno0 : ¬ ∃ b1, nodeAt w0 (rootLoc w0.cwd absT ts ++ rs) = some (Node.file b1) ∧
      md5 b1 = md5 b := by
    rintro ⟨b1, hb1, hd⟩
    rw [hext.1] at hb1
    rcases hadd _ _ hb1 with h | h
    · exact hno ⟨b1, h, hd⟩
    · cases h
  constructor
  · exact calls_for_key_once r.copies _ ho.callsOnce ((ho.calls _).2 ⟨rs, b, rfl, hb0, hno0⟩)
  · have := ho.copied rs b hb0 hno0
    rwa [hext.1] at this

/-- C2, as amended, at the source file `a.txt` = "X2" over the target file
`a.txt` = "X1". -/
theorem processFile_copies_differing_files_witness :
    createDirIfNotExist staleTarget (pair "src" "dst").TargetPath = (staleTarget, none) ∧
    tidyCheck staleTarget false ["src".toList] false ["dst".toList] = true ∧
    ∃ r : Run, processFile plainDigest 3 staleTarget (pair "src" "dst") = some (r, none) ∧
      ∀ rs b, nodeAt staleTarget (rootLoc staleTarget.cwd false ["src".toList] ++ rs)
          = some (Node.file b) →
        (¬ ∃ b1, nodeAt staleTarget (rootLoc staleTarget.cwd false ["dst".toList] ++ rs)
            = some (Node.file b1) ∧ plainDigest b1 = plainDigest b) →
        (r.copies.filter (fun c => decide (c.fileName = '/' :: joinSlash rs))).length = 1 ∧
        nodeAt r.world (rootLoc staleTarget.cwd false ["dst".toList] ++ rs)
          = some (Node.file b) :=
  ⟨by decide, by decide,
    processFile_copies_differing_files plainDigest 3 staleTarget staleTarget false
      ["src".toList] false ["dst".toList] (pair "src" "dst") rfl rfl (by decide)
      (tidy_of_check _ _ _ _ _ (by decide)) (shallow_of_check _ _ 0 _ (by decide))
      (shallow_of_check _ _ 0 _ (by decide))⟩

/-- C2 as stated fails: the source file `a.txt` is absent from the target
tree, where a directory has its name; `copyFile` is called for it and fails,
and after the run there is still no regular file `a.txt` under the target
root. -/
theorem processFile_copy_fails_on_directory :
    nodeAt dirInTheWay (loc "src/a.txt") = some (Node.file [88]) ∧
    (∀ md5 : List Nat → Str, processFile md5 3 dirInTheWay (pair "src" "dst")
      = some (⟨dirInTheWay, ["dst".toList],
          [⟨"/a.txt".toList, "src/a.txt".toList, "dst/a.txt".toList⟩]⟩, none)) ∧
    copyFile dirInTheWay "src/a.txt".toList "dst/a.txt".toList
      = (dirInTheWay, some Errno.EISDIR) ∧
    nodeAt dirInTheWay (loc "dst/a.txt") = some (Node.dir true) :=
  ⟨by decide, fun _ => rfl, by decide, by decide⟩

/-! ## Running twice -/

theorem roomy_of_check (w : World) (fuel n : Nat) (h : roomyCheck w fuel n = true) :
    ∀ q m, (q, m) ∈ w.tab → q.length + n < fuel := by
  simp only [roomyCheck, List.all_eq_true, decide_eq_true_eq] at h
  intro q m hq
  exact h _ hq

/-- C3, as amended: when the first step of `processFile` succeeds and
leaves the pair in good order (plainly written roots, the source root a
directory, the target root a writable directory apart from it, and in the
target tree nothing, a writable directory or a regular file where the
source tree has a directory or a regular file), a first run returns `nil`,
and a second run on the world it leaves returns `nil` without calling
`copyFile`. -/
theorem processFile_second_run_copies_nothing (md5 : List Nat → Str) (fuel : Nat)
    (w w0 : World) (absS : Bool) (ss : List Str) (absT : Bool) (ts : List Str)
    (config : ConfigItem)
    (hS : config.OriginalPath = rootStr absS ss) (hT : config.TargetPath = rootStr absT ts)
    (h1 : createDirIfNotExist w config.TargetPath = (w0, none))
    (ht : Tidy w0 absS ss absT ts)
    (hroom : ∀ q n, (q, n) ∈ w0.tab → q.length + (rootLoc w0.cwd absT ts).length < fuel) :
    ∃ r1 r2 : Run, processFile md5 fuel w config = some (r1, none) ∧
      processFile md5 fuel r1.world config = some (r2, none) ∧ r2.copies = [] := by
  have hsh0 : ∀ l, Shallow w0 fuel l := by
    intro l q n hq
    have := hroom q n hq
    omega
  obtain ⟨r1, hr1, ho1⟩ := processFile_ready md5 fuel w w0 absS ss absT ts config hS hT h1 ht
    (hsh0 _) (hsh0 _)
  have ht1 := outcome_tidy md5 w0 absS ss absT ts ht r1 ho1
  have hsh1 : ∀ l, Shallow r1.world fuel l := by
    intro l q n hq
    have hlen : q.length < fuel := by
      rcases ho1.keys q (List.mem_map_of_mem Prod.fst hq) with h | ⟨rs, m, hq1, hm⟩
      · obtain ⟨⟨q1, n1⟩, hmem, hq1⟩ := List.mem_map.1 h
        simp only at hq1
        subst hq1
        have := hroom _ _ hmem
        omega
      · obtain ⟨m1, hm1⟩ := mem_tab_of_nodeAt w0 _ m (by
          intro h0
          exact rootLoc_ne_nil w0.cwd absS ss ht.srcNe (List.append_eq_nil.1 h0).1) hm
        have := hroom _ _ hm1
        rw [hq1]
        simp only [List.length_append] at this ⊢
        omega
    omega
  obtain ⟨r2, hr2, ho2⟩ := processFile_tidy md5 fuel r1.world absS ss absT ts ht1 config hS hT
    (hsh1 _) (hsh1 _)
  refine ⟨r1, r2, hr1, hr2, ?_⟩
  have hnil : r2.copies.map CopyCall.fileName = [] := by
    rw [List.eq_nil_iff_forall_not_mem]
    intro k hk
    obtain ⟨rs, b, _, hb, hno⟩ := (ho2.calls k).1 hk
    rw [ho1.cwd] at hb hno
    exact hno (outcome_in_sync md5 w0 absS ss absT ts r1 ho1 rs b hb)
  simpa using hnil

/-- C3, as amended, at a source tree with two files and no target tree
yet. -/
theorem processFile_second_run_copies_nothing_witness :
    createDirIfNotExist freshTarget (pair "src" "dst").TargetPath = (freshTargetMade, none) ∧
    tidyCheck freshTargetMade false ["src".toList] false ["dst".toList] = true ∧
    ∃ r1 r2 : Run, processFile plainDigest 5 freshTarget (pair "src" "dst") = some (r1, none) ∧
      processFile plainDigest 5 r1.world (pair "src" "dst") = some (r2, none) ∧
      r2.copies = [] :=
  ⟨by decide, by decide,
    processFile_second_run_copies_nothing plainDigest 5 freshTarget freshTargetMade false
      ["src".toList] false ["dst".toList] (pair "src" "dst") rfl rfl (by decide)
      (tidy_of_check _ _ _ _ _ (by decide)) (roomy_of_check _ _ _ (by decide))⟩

/-- C3 as stated fails: a directory is in the way of the copy of `a.txt`;
the first run leaves the world as it was, so the second run calls
`copyFile` for `a.txt` again. -/
theorem processFile_second_run_copies_again :
    (∀ md5 : List Nat → Str,
      (processFile md5 3 dirInTheWay (pair "src" "dst")).map (fun r => r.1.world)
        = some dirInTheWay) ∧
    (∀ md5 : List Nat → Str,
      (processFile md5 3 dirInTheWay (pair "src" "dst")).map
          (fun r => r.1.copies.map CopyCall.fileName)
        = some ["/a.txt".toList]) :=
  ⟨fun _ => rfl, fun _ => rfl⟩

/-! ## The source tree -/

/-- Every call of `copyFile` in a run is made for an entry of the source
map, with the destination joined from the target root and the entry's
key. -/
theorem processFile_copies_shape (md5 : List Nat → Str) (fuel : Nat) (w : World)
    (config : ConfigItem) (r : Run) (err : Option Errno)
    (h : processFile md5 fuel w config = some (r, err)) :
    r.copies = [] ∨
    ∃ originalMd5 : GoMap,
      calculateDirMd5 md5 fuel (createDirIfNotExist w config.TargetPath).1 config.OriginalPath
        = some (originalMd5, none) ∧
      ∀ c ∈ r.copies, ∃ e ∈ originalMd5, c.dst = join config.TargetPath e.1 := by
  unfold processFile at h
  split at h
  · simp only [Option.some.injEq, Prod.mk.injEq] at h
    left; rw [← h.1]
  · rename_i w0 heq
    split at h
    · cases h
    · simp only [Option.some.injEq, Prod.mk.injEq] at h
      left; rw [← h.1]
    · rename_i originalMd5 hmS
      split at h
      · cases h
      · simp only [Option.some.injEq, Prod.mk.injEq] at h
        left; rw [← h.1]
      · rename_i targetMd5 _
        have hinv : ∀ r1 e1, filepathWalk Run.world (mirrorWalkFn config) fuel ⟨w0, [], []⟩
            config.OriginalPath = some (r1, e1) → r1.copies = [] := by
          intro r1 e1 hwalk
          exact (filepathWalk_invariant Run.world (mirrorWalkFn config)
            (fun s => Extends w0 s.world ∧ s.copies = [])
            (fun s path info err hs => mirrorWalkFn_extends config w0 [] s path info err hs)
            fuel ⟨w0, [], []⟩ config.OriginalPath _ ⟨Extends.refl w0, rfl⟩ hwalk).2
        split at h
        · cases h
        · rename_i r1 e1 hwalk
          simp only [Option.some.injEq, Prod.mk.injEq] at h
          left; rw [← h.1]; exact hinv r1 _ hwalk
        · rename_i r1 hwalk
          simp only [Option.some.injEq, Prod.mk.injEq] at h
          right
          refine ⟨originalMd5, by rw [heq]; exact hmS, ?_⟩
          intro c hc
          rw [← h.1, copyLoop_copies, hinv r1 _ hwalk, List.nil_append] at hc
          obtain ⟨e, he, hce⟩ := List.mem_map.1 hc
          exact ⟨e, List.mem_of_mem_filter he, by rw [← hce]⟩

/-- C10, as amended: when the two roots are plainly written, neither lies
at or below the other, the source root is a directory and the world left
by the first step of `processFile` is well formed, a run leaves every
regular file under the source root with the bytes it had, however the run
ends. -/
theorem processFile_keeps_source_files (md5 : List Nat → Str) (fuel : Nat) (w w0 : World)
    (absS : Bool) (ss : List Str) (absT : Bool) (ts : List Str) (config : ConfigItem)
    (hS : config.OriginalPath = rootStr absS ss) (hT : config.TargetPath = rootStr absT ts)
    (hss : ss ≠ []) (hsv : ∀ e ∈ ss, validName e = true)
    (hts : ts ≠ []) (htv : ∀ e ∈ ts, validName e = true)
    (hap : Apart (rootLoc w.cwd absS ss) (rootLoc w.cwd absT ts))
    (hdir : ∃ wr, nodeAt w (rootLoc w.cwd absS ss) = some (Node.dir wr))
    (h1 : (createDirIfNotExist w config.TargetPath).1 = w0)
    (hv : ValidWorld w0) (hsh : Shallow w0 fuel (rootLoc w.cwd absS ss))
    (r : Run) (err : Option Errno) (h : processFile md5 fuel w config = some (r, err))
    (rs : List Str) (b : List Nat)
    (hb : nodeAt w (rootLoc w.cwd absS ss ++ rs) = some (Node.file b)) :
    nodeAt r.world (rootLoc w.cwd absS ss ++ rs) = some (Node.file b) := by
  have hext := createDirIfNotExist_extends w config.TargetPath
  rw [h1] at hext
  apply processFile_changes_only_destinations md5 fuel w config r err _ b h hb
  rcases processFile_copies_shape md5 fuel w config r err h with h0 | ⟨mS, hmS, hshape⟩
  · rw [h0]; intro c hc; cases hc
  · rw [h1, hS] at hmS
    obtain ⟨wr, hd⟩ := hdir
    have hd0 : nodeAt w0 (rootLoc w0.cwd absS ss) = some (Node.dir wr) := by
      rw [hext.1]; exact hext.2 _ _ hd
    obtain ⟨m, hm, hnd, _, hsound⟩ := calculateDirMd5_spec md5 fuel w0 hv absS ss hss hsv wr hd0
      (by rw [hext.1]; exact hsh)
    rw [hmS] at hm
    simp only [Option.some.injEq, Prod.mk.injEq, and_true] at hm
    subst hm
    intro c hc
    obtain ⟨e, he, hce⟩ := hshape c hc
    obtain ⟨rs1, b1, hr1, hrv1, hk1, _, _⟩ :=
      hsound e.1 e.2 ((mem_iff_lookup mS hnd e.1 e.2).1 he)
    have hvT : ∀ x ∈ ts ++ rs1, validName x = true := by
      intro x hx
      rcases List.mem_append.1 hx with hx | hx
      · exact htv x hx
      · exact hrv1 x hx
    rw [hce, hT, hk1, join_rootStr_key absT ts rs1 hts htv hr1 hrv1,
      locOf_rootStr w.cwd absT _ (by simp [hr1]) hvT, rootLoc_append]
    exact fun heq => apart_not_below hap _ (List.prefix_append _ rs) rs1 heq.symm

/-- C10, as amended, at the source file `src/a.txt` of a run that copies two
files into a fresh target tree. -/
theorem processFile_keeps_source_files_witness :
    Apart (rootLoc freshTarget.cwd false ["src".toList])
      (rootLoc freshTarget.cwd false ["dst".toList]) ∧
    (createDirIfNotExist freshTarget (pair "src" "dst").TargetPath).1 = freshTargetMade ∧
    tidyCheck freshTargetMade false ["src".toList] false ["dst".toList] = true ∧
    processFile plainDigest 4 freshTarget (pair "src" "dst") = some (freshTargetRun, none) ∧
    nodeAt freshTargetRun.world
        (rootLoc freshTarget.cwd false ["src".toList] ++ ["a.txt".toList])
      = some (Node.file [88]) :=
  ⟨⟨by decide, by decide⟩, by decide, by decide, by decide,
    processFile_keeps_source_files plainDigest 4 freshTarget freshTargetMade false
      ["src".toList] false ["dst".toList] (pair "src" "dst") rfl rfl (by decide) (by decide)
      (by decide) (by decide) ⟨by decide, by decide⟩ ⟨true, by decide⟩ (by decide)
      (tidy_of_check freshTargetMade false ["src".toList] false ["dst".toList]
        (by decide)).valid
      (shallow_of_check _ _ 0 _ (by decide))
      freshTargetRun none (by decide) ["a.txt".toList] [88] (by decide)⟩

/-! ## Resolution of path strings written in any way -/

theorem stat_of_resolves (w : World) (p : Str) (l : Path) (h : Resolves w p l) :
    stat w p = match nodeAt w l with
      | none => .error Errno.ENOENT
      | some n => .ok n := by
  unfold stat
  rw [if_neg h.1, h.2]

theorem resolves_of_stat (w : World) (p : Str) (n : Node) (h : stat w p = .ok n) :
    Resolves w p (locOf w.cwd p) ∧ nodeAt w (locOf w.cwd p) = some n := by
  unfold stat at h
  split at h
  · cases h
  · rename_i hp
    split at h
    · cases h
    · rename_i q hq
      have hloc : q = locOf w.cwd p := walkTo_loc w _ _ _ hq
      subst hloc
      refine ⟨⟨hp, hq⟩, ?_⟩
      split at h
      · cases h
      · rename_i m hm
        simp only [Except.ok.injEq] at h
        rw [hm, h]

theorem walkTo_mono (w w1 : World) (h : Extends w w1) :
    ∀ (es : List Str) (cur l : Path), walkTo w cur es = .ok l → walkTo w1 cur es = .ok l := by
  intro es
  induction es with
  | nil => intro cur l h1; simpa [walkTo] using h1
  | cons e es ih =>
    intro cur l h1
    simp only [walkTo] at h1 ⊢
    cases hc : nodeAt w cur with
    | none => rw [hc] at h1; cases h1
    | some n =>
      rw [hc] at h1
      cases n with
      | dir wr => rw [h.2 _ _ hc]; exact ih _ _ h1
      | file b => cases h1
      | other => cases h1

theorem resolves_mono (w w1 : World) (h : Extends w w1) (p : Str) (l : Path)
    (hr : Resolves w p l) : Resolves w1 p l := by
  refine ⟨hr.1, ?_⟩
  have : startOf w1 p = startOf w p := by
    unfold startOf
    rw [h.1]
  rw [this]
  exact walkTo_mono w w1 h _ _ _ hr.2

theorem walkTo_cons_ok (w : World) (cur l : Path) (e : Str) (es : List Str)
    (h : walkTo w cur (e :: es) = .ok l) :
    (∃ wr, nodeAt w cur = some (Node.dir wr)) ∧ walkTo w (stepElem cur e) es = .ok l := by
  simp only [walkTo] at h
  cases hc : nodeAt w cur with
  | none => rw [hc] at h; cases h
  | some n =>
    rw [hc] at h
    cases n with
    | dir wr => exact ⟨⟨wr, rfl⟩, h⟩
    | file b => cases h
    | other => cases h

theorem walkTo_split (w : World) (a b : List Str) :
    ∀ cur l, walkTo w cur (a ++ b) = .ok l →
      ∃ q, walkTo w cur a = .ok q ∧ walkTo w q b = .ok l := by
  induction a with
  | nil => intro cur l h; exact ⟨cur, rfl, h⟩
  | cons e a ih =>
    intro cur l h
    obtain ⟨⟨wr, hd⟩, h2⟩ := walkTo_cons_ok w cur l e (a ++ b) h
    obtain ⟨q, hq, hb⟩ := ih _ _ h2
    exact ⟨q, by simp only [walkTo, hd]; exact hq, hb⟩

theorem walkTo_one (w : World) (cur : Path) (e : Str) (wr : Bool)
    (hd : nodeAt w cur = some (Node.dir wr)) : walkTo w cur [e] = .ok (stepElem cur e) := by
  simp only [walkTo, hd]

/-- One step of `filepath.Clean` keeps up with one step of resolution: the
elements kept so far resolve to where resolution of the raw elements has
got to. -/
theorem cleanStep_walk (w : World) (rooted : Bool) (start cur : Path) (out : List Str)
    (e : Str) (wr : Bool) (hroot : rooted = true → start = [])
    (hkept : ∀ t ∈ out, ¬(t = [] ∨ t = ['.']))
    (hout : walkTo w start out.reverse = .ok cur)
    (hdir : nodeAt w cur = some (Node.dir wr)) :
    walkTo w start (cleanStep rooted out e).reverse = .ok (stepElem cur e) ∧
    ∀ t ∈ cleanStep rooted out e, ¬(t = [] ∨ t = ['.']) := by
  unfold cleanStep
  by_cases h1 : e = [] ∨ e = ['.']
  · rw [if_pos h1]
    refine ⟨?_, hkept⟩
    rw [show stepElem cur e = cur by simp [stepElem, h1]]
    exact hout
  · rw [if_neg h1]
    have hpush : walkTo w start (e :: out).reverse = .ok (stepElem cur e) := by
      rw [List.reverse_cons, walkTo_append w _ _ _ _ hout]
      exact walkTo_one w cur e wr hdir
    have hkept1 : ∀ t ∈ e :: out, ¬(t = [] ∨ t = ['.']) := by
      intro t ht
      rcases List.mem_cons.1 ht with h | h
      · rw [h]; exact h1
      · exact hkept t h
    by_cases h2 : e = ['.', '.']
    · rw [if_pos h2]
      cases out with
      | nil =>
        have hcur : cur = start := by
          simp only [List.reverse_nil, walkTo, Except.ok.injEq] at hout
          exact hout.symm
        cases rooted with
        | true =>
          simp only [↓reduceIte]
          refine ⟨?_, by simp⟩
          rw [hcur, hroot rfl, h2]
          rfl
        | false =>
          simp only [Bool.false_eq_true, ↓reduceIte]
          exact ⟨hpush, hkept1⟩
      | cons t rest =>
        simp only
        by_cases h3 : t = ['.', '.']
        · rw [if_pos h3]
          exact ⟨hpush, hkept1⟩
        · rw [if_neg h3]
          refine ⟨?_, fun x hx => hkept x (List.mem_cons_of_mem _ hx)⟩
          rw [List.reverse_cons] at hout
          obtain ⟨q, hq, hlast⟩ := walkTo_split w _ _ _ _ hout
          have ht := hkept t (List.mem_cons_self _ _)
          have hstep : stepElem q t = q ++ [t] :=
            stepElem_name q t (by
              simp only [not_or] at ht ⊢
              exact ⟨ht.1, ht.2, h3⟩)
          obtain ⟨_, h4⟩ := walkTo_cons_ok w q cur t [] hlast
          simp only [walkTo, Except.ok.injEq] at h4
          rw [hstep] at h4
          rw [hq, ← h4, h2]
          simp [stepElem]
    · rw [if_neg h2]
      exact ⟨hpush, hkept1⟩

theorem cleanFold_walk (w : World) (rooted : Bool) (start : Path)
    (hroot : rooted = true → start = []) :
    ∀ (L out : List Str) (cur l : Path), (∀ t ∈ out, ¬(t = [] ∨ t = ['.'])) →
      walkTo w start out.reverse = .ok cur → walkTo w cur L = .ok l →
      walkTo w start (L.foldl (cleanStep rooted) out).reverse = .ok l := by
  intro L
  induction L with
  | nil =>
    intro out cur l _ hout hL
    simp only [walkTo, Except.ok.injEq] at hL
    rw [← hL]
    exact hout
  | cons e L ih =>
    intro out cur l hkept hout hL
    obtain ⟨⟨wr, hd⟩, h2⟩ := walkTo_cons_ok w cur l e L hL
    obtain ⟨h3, h4⟩ := cleanStep_walk w rooted start cur out e wr hroot hkept hout hd
    exact ih _ _ _ h4 h3 h2

/-- The elements that `filepath.Clean` keeps resolve to the location the
path resolves to. -/
theorem cleanElems_walk (w : World) (X : Str) (l : Path) (h : Resolves w X l) :
    walkTo w (startOf w X) (cleanElems X) = .ok l := by
  unfold cleanElems
  refine cleanFold_walk w (isRooted X) (startOf w X) ?_ _ [] _ l (by simp) rfl h.2
  intro hr
  unfold startOf
  rw [if_pos hr]

theorem splitSlash_mem_noSlash (s : Str) : ∀ e ∈ splitSlash s, '/' ∉ e := by
  induction s with
  | nil =>
    intro e he
    simp only [splitSlash, List.mem_singleton] at he
    rw [he]
    simp
  | cons c cs ih =>
    intro e he
    obtain ⟨w, ws, hw⟩ := List.exists_cons_of_ne_nil (splitSlash_ne_nil cs)
    rw [splitSlash_cons_of c cs w ws hw] at he
    rw [hw] at ih
    split at he
    · rcases List.mem_cons.1 he with h | h
      · rw [h]; simp
      · exact ih e h
    · rename_i hc
      rcases List.mem_cons.1 he with h | h
      · rw [h]
        intro hm
        rcases List.mem_cons.1 hm with h1 | h1
        · exact hc h1.symm
        · exact ih w (List.mem_cons_self _ _) h1
      · exact ih e (List.mem_cons_of_mem _ h)

theorem cleanStep_mem (r : Bool) (out : List Str) (e t : Str) (h : t ∈ cleanStep r out e) :
    t ∈ out ∨ (t = e ∧ ¬(e = [] ∨ e = ['.'])) := by
  unfold cleanStep at h
  split at h
  · exact Or.inl h
  · rename_i h1
    split at h
    · split at h
      · split at h
        · cases h
        · simp only [List.mem_singleton] at h
          exact Or.inr ⟨h, h1⟩
      · split at h
        · rcases List.mem_cons.1 h with h2 | h2
          · exact Or.inr ⟨h2, h1⟩
          · exact Or.inl h2
        · exact Or.inl (List.mem_cons_of_mem _ h)
    · rcases List.mem_cons.1 h with h2 | h2
      · exact Or.inr ⟨h2, h1⟩
      · exact Or.inl h2

theorem foldl_cleanStep_plain (r : Bool) (L : List Str) (hL : ∀ e ∈ L, '/' ∉ e) :
    ∀ out : List Str, (∀ t ∈ out, t ≠ [] ∧ '/' ∉ t) →
      ∀ t ∈ L.foldl (cleanStep r) out, t ≠ [] ∧ '/' ∉ t := by
  induction L with
  | nil => intro out h; exact h
  | cons e L ih =>
    intro out h
    apply ih (fun x hx => hL x (List.mem_cons_of_mem _ hx))
    intro t ht
    rcases cleanStep_mem r out e t ht with h1 | ⟨h1, h2⟩
    · exact h t h1
    · rw [h1]
      simp only [not_or] at h2
      exact ⟨h2.1, hL e (List.mem_cons_self _ _)⟩

/-- The elements that `filepath.Clean` keeps are not empty and hold no
separator. -/
theorem cleanElems_plain (X : Str) : ∀ e ∈ cleanElems X, e ≠ [] ∧ '/' ∉ e := by
  intro e he
  unfold cleanElems at he
  rw [List.mem_reverse] at he
  exact foldl_cleanStep_plain _ _ (splitSlash_mem_noSlash X) [] (by simp) e he

theorem splitSlash_joinSlash_plain (es : List Str) (he : es ≠ [])
    (hv : ∀ e ∈ es, '/' ∉ e) : splitSlash (joinSlash es) = es := by
  induction es with
  | nil => exact absurd rfl he
  | cons e es ih =>
    have hne := hv e (List.mem_cons_self _ _)
    cases es with
    | nil => simpa [joinSlash] using splitSlash_noSlash e hne
    | cons v vs =>
      rw [joinSlash_cons e _ (by simp), splitSlash_append_slash, splitSlash_noSlash e hne,
        ih (by simp) (fun x hx => hv x (List.mem_cons_of_mem _ hx))]
      rfl

theorem splitSlash_rootStr_plain (abs : Bool) (es : List Str) (he : es ≠ [])
    (hv : ∀ e ∈ es, '/' ∉ e) :
    splitSlash (rootStr abs es) = if abs then [] :: es else es := by
  cases abs with
  | false => simpa [rootStr] using splitSlash_joinSlash_plain es he hv
  | true =>
    have := splitSlash_append_slash [] (joinSlash es)
    simp only [List.nil_append] at this
    simp only [rootStr, ↓reduceIte, this, splitSlash_joinSlash_plain es he hv]
    rfl

theorem isRooted_joinSlash_plain (es : List Str) (hv : ∀ e ∈ es, e ≠ [] ∧ '/' ∉ e) :
    isRooted (joinSlash es) = false := by
  cases es with
  | nil => rfl
  | cons e es =>
    obtain ⟨h1, h2⟩ := hv e (List.mem_cons_self _ _)
    cases e with
    | nil => exact absurd rfl h1
    | cons c cs =>
      have hc : c ≠ '/' := fun hc => h2 (by simp [hc])
      cases es with
      | nil =>
        simp only [joinSlash]
        unfold isRooted
        split
        · rename_i heq; simp only [List.cons.injEq] at heq; exact absurd heq.1 hc
        · rfl
      | cons v vs =>
        simp only [joinSlash, List.cons_append]
        unfold isRooted
        split
        · rename_i heq; simp only [List.cons.injEq] at heq; exact absurd heq.1 hc
        · rfl

theorem isRooted_rootStr_plain (abs : Bool) (es : List Str)
    (hv : ∀ e ∈ es, e ≠ [] ∧ '/' ∉ e) : isRooted (rootStr abs es) = abs := by
  cases abs with
  | false => simpa [rootStr] using isRooted_joinSlash_plain es hv
  | true => rfl

theorem rootStr_ne_nil_plain (abs : Bool) (es : List Str) (he : es ≠ [])
    (hv : ∀ e ∈ es, e ≠ [] ∧ '/' ∉ e) : rootStr abs es ≠ [] := by
  intro h
  have := splitSlash_rootStr_plain abs es he (fun e h => (hv e h).2)
  rw [h] at this
  cases abs with
  | false =>
    simp only [Bool.false_eq_true, ↓reduceIte] at this
    cases es with
    | nil => exact he rfl
    | cons e es =>
      simp only [splitSlash, List.cons.injEq] at this
      exact (hv e (List.mem_cons_self _ _)).1 this.1.symm
  | true => simp [splitSlash] at this; exact he this

theorem clean_eq_rootStr (X : Str) (h : cleanElems X ≠ []) :
    clean X = rootStr (isRooted X) (cleanElems X) := by
  unfold clean rootStr
  cases isRooted X <;> simp [h]

/-- A path string made of elements that resolve resolves to the same
location. -/
theorem resolves_rootStr (w : World) (abs : Bool) (ce : List Str) (l : Path) (he : ce ≠ [])
    (hv : ∀ e ∈ ce, e ≠ [] ∧ '/' ∉ e)
    (hw : walkTo w (if abs then [] else w.cwd) ce = .ok l) :
    Resolves w (rootStr abs ce) l := by
  refine ⟨rootStr_ne_nil_plain abs ce he hv, ?_⟩
  unfold startOf
  rw [isRooted_rootStr_plain abs ce hv, splitSlash_rootStr_plain abs ce he (fun e h => (hv e h).2)]
  cases abs with
  | false => simpa using hw
  | true =>
    simp only [↓reduceIte, walkTo, nodeAt]
    rw [show stepElem [] [] = [] by simp [stepElem]]
    simpa using hw

/-- `filepath.Clean` does not change what a path resolves to. -/
theorem clean_resolves (w : World) (X : Str) (l : Path) (h : Resolves w X l) :
    Resolves w (clean X) l := by
  have hw := cleanElems_walk w X l h
  by_cases hce : cleanElems X = []
  · rw [hce] at hw
    simp only [walkTo, Except.ok.injEq] at hw
    cases hr : isRooted X with
    | true =>
      have hc : clean X = ['/'] := by
        unfold clean
        rw [hr, hce]
        rfl
      have hl : l = [] := by
        rw [← hw]
        unfold startOf
        rw [hr]
        rfl
      rw [hc, hl]
      exact ⟨by simp, by simp [startOf, isRooted, splitSlash, walkTo, nodeAt, stepElem]⟩
    | false =>
      have hc : clean X = ['.'] := by
        unfold clean
        rw [hr, hce]
        rfl
      have hl : l = w.cwd := by
        rw [← hw]
        unfold startOf
        rw [hr]
        rfl
      obtain ⟨e, es, hsp⟩ := List.exists_cons_of_ne_nil (splitSlash_ne_nil X)
      have h2 := h.2
      rw [hsp] at h2
      obtain ⟨⟨wr, hd⟩, _⟩ := walkTo_cons_ok w _ _ _ _ h2
      have hs : startOf w X = w.cwd := by
        unfold startOf
        rw [hr]
        rfl
      rw [hs] at hd
      rw [hc, hl]
      refine ⟨by simp, ?_⟩
      have : splitSlash ['.'] = [['.']] := by decide
      rw [this]
      simp [startOf, isRooted, walkTo, hd, stepElem]
  · rw [clean_eq_rootStr X hce]
    exact resolves_rootStr w _ _ l hce (cleanElems_plain X) hw

/-- `filepath.Join` of a path that resolves with a string whose elements
resolve from there. -/
theorem join_resolves (w : World) (p b : Str) (l l2 : Path) (h : Resolves w p l)
    (hb : walkTo w l (splitSlash b) = .ok l2) : Resolves w (join p b) l2 := by
  unfold join
  rw [if_pos h.1]
  apply clean_resolves
  refine ⟨by simp, ?_⟩
  have hs : startOf w (p ++ '/' :: b) = startOf w p := by
    unfold startOf
    rw [isRooted_append _ _ h.1]
  rw [hs, splitSlash_append_slash, walkTo_append w _ _ _ _ h.2]
  exact hb

theorem join_resolves_name (w : World) (p name : Str) (l : Path) (wr : Bool)
    (h : Resolves w p l) (hd : nodeAt w l = some (Node.dir wr))
    (hn : validName name = true) : Resolves w (join p name) (l ++ [name]) := by
  apply join_resolves w p name l _ h
  rw [splitSlash_noSlash name (validName_noSlash hn), walkTo_one w l name wr hd,
    stepElem_name l name (validName_step hn)]

theorem walked_concat (S : Str) (rs : List Str) (name : Str) :
    walked S (rs ++ [name]) = join (walked S rs) name := by
  unfold walked
  rw [List.foldl_append]
  rfl

/-- The path a walk hands over for the node under the names `rs` resolves to
that node's location. -/
theorem resolves_walked (w : World) :
    ∀ (rs : List Str) (S : Str) (l0 : Path), Resolves w S l0 →
      (∀ e ∈ rs, validName e = true) →
      (∀ i, i < rs.length → ∃ wr, nodeAt w (l0 ++ rs.take i) = some (Node.dir wr)) →
      Resolves w (walked S rs) (l0 ++ rs) := by
  intro rs
  induction rs with
  | nil => intro S l0 h _ _; simpa [walked] using h
  | cons e rs ih =>
    intro S l0 h hv hd
    obtain ⟨wr, h0⟩ := hd 0 (by simp)
    simp only [List.take_zero, List.append_nil] at h0
    have h1 := join_resolves_name w S e l0 wr h h0 (hv e (List.mem_cons_self _ _))
    have h2 := ih (join S e) (l0 ++ [e]) h1 (fun x hx => hv x (List.mem_cons_of_mem _ hx)) (by
      intro i hi
      have := hd (i + 1) (by simp only [List.length_cons]; omega)
      simpa using this)
    simpa [walked] using h2

theorem prefixes_dir (w : World) (hpc : ParentClosed w) (l0 : Path) (rs : List Str) (n : Node)
    (hn : nodeAt w (l0 ++ rs) = some n) :
    ∀ i, i < rs.length → ∃ wr, nodeAt w (l0 ++ rs.take i) = some (Node.dir wr) := by
  intro i hi
  have hloc : l0 ++ rs = (l0 ++ rs.take i) ++ rs.drop i := by
    rw [List.append_assoc, List.take_append_drop]
  rw [hloc] at hn
  exact ancestors_dir w hpc _ _ _ (by simp; omega) hn

theorem resolves_node (w : World) (hpc : ParentClosed w) (S : Str) (l0 : Path)
    (rs : List Str) (n : Node) (h : Resolves w S l0) (hv : ∀ e ∈ rs, validName e = true)
    (hn : nodeAt w (l0 ++ rs) = some n) : Resolves w (walked S rs) (l0 ++ rs) :=
  resolves_walked w rs S l0 h hv (prefixes_dir w hpc l0 rs n hn)

/-! ## A walk from a root written in any way -/

theorem readDirNames_of_resolves (w : World) (p : Str) (l : Path) (wr : Bool)
    (h : Resolves w p l) (hd : nodeAt w l = some (Node.dir wr)) :
    readDirNames w p = .ok (namesAt w l) := by
  unfold readDirNames
  rw [if_neg h.1, h.2]
  simp only [hd]

/-- A walk from a root that resolves to location `l0`, over a tree that its
function leaves as it is and on which the function returns no error: given
a budget that reaches every node, the walk returns `nil`, having called the
function for every node of the tree.  `I` is an invariant of the state,
`J s rs` what a visit of the node under the names `rs` needs (a visit of a
directory provides it for the entries), and `Q s rs n` what the visit of
that node leaves behind for good. -/
theorem walk_total {σ : Type} (getW : σ → World) (fn : WalkFn σ) (w0 : World)
    (hvn : ValidNames w0) (S : Str) (l0 : Path) (I : σ → Prop)
    (J : σ → List Str → Prop) (Q : σ → List Str → Node → Prop)
    (hI : ∀ s, I s → Agrees w0 (getW s) l0 ∧ Resolves (getW s) S l0)
    (hJpres : ∀ s p i e rs, J s rs → J (fn s p i e).1 rs)
    (hQpres : ∀ s p i e rs n, Q s rs n → Q (fn s p i e).1 rs n)
    (hfn : ∀ s rs n, I s → J s rs → (∀ e ∈ rs, validName e = true) →
      nodeAt w0 (l0 ++ rs) = some n →
      (fn s (walked S rs) (some n) none).2 = none ∧
        I (fn s (walked S rs) (some n) none).1 ∧
        Q (fn s (walked S rs) (some n) none).1 rs n ∧
        ∀ wr, n = Node.dir wr → ∀ name,
          J (fn s (walked S rs) (some n) none).1 (rs ++ [name])) :
    ∀ (fuel : Nat) (rs : List Str) (n : Node) (s : σ), 0 < fuel → I s → J s rs →
      (∀ e ∈ rs, validName e = true) → nodeAt w0 (l0 ++ rs) = some n →
      Shallow w0 fuel (l0 ++ rs) →
      ∃ s1, walk getW fn fuel s (walked S rs) n = some (s1, none) ∧ I s1 ∧
        (∀ P : σ → Prop, (∀ s p i e, P s → P (fn s p i e).1) → P s → P s1) ∧
        ∀ rs1 n1, nodeAt w0 (l0 ++ rs ++ rs1) = some n1 → Q s1 (rs ++ rs1) n1 := by
  intro fuel
  induction fuel with
  | zero => intro rs n s h; omega
  | succ k ih =>
    intro rs n s _ hs hj hv hn hsh
    have hfnr := hfn s rs n hs hj hv hn
    obtain ⟨s1, hs1⟩ : ∃ s1, s1 = (fn s (walked S rs) (some n) none).1 := ⟨_, rfl⟩
    have hvis : fn s (walked S rs) (some n) none = (s1, none) := by
      rw [hs1]; exact Prod.ext rfl hfnr.1
    rw [← hs1] at hfnr
    have hI1 : I s1 := hfnr.2.1
    have hQ1 : Q s1 rs n := hfnr.2.2.1
    have hP1 : ∀ P : σ → Prop, (∀ s p i e, P s → P (fn s p i e).1) → P s → P s1 := by
      intro P hP h; rw [hs1]; exact hP _ _ _ _ h
    obtain ⟨⟨hpc, hcwd, hsame⟩, hres⟩ := hI s hs
    have hbelow : ∀ rs1 n1, rs1 ≠ [] → nodeAt w0 (l0 ++ rs ++ rs1) = some n1 →
        ∃ wr, n = Node.dir wr := by
      intro rs1 n1 hne h1
      have h2 := (hsame (l0 ++ rs ++ rs1)
        (by rw [List.append_assoc]; exact List.prefix_append _ _)).1
      rw [h1] at h2
      obtain ⟨wr, h3⟩ := ancestors_dir (getW s) hpc (l0 ++ rs) rs1 n1 hne h2
      rw [(hsame (l0 ++ rs) (List.prefix_append _ _)).1, hn] at h3
      exact ⟨wr, by simpa using h3⟩
    cases n with
    | dir wr =>
      have hJ1 : ∀ name, J s1 (rs ++ [name]) := hfnr.2.2.2 wr rfl
      have hloc := hsame (l0 ++ rs) (List.prefix_append _ _)
      have hresn := resolves_node (getW s) hpc S l0 rs (Node.dir wr) hres hv
        (by rw [hloc.1]; exact hn)
      have hrd : readDirNames (getW s) (walked S rs) = .ok (namesAt w0 (l0 ++ rs)) := by
        rw [readDirNames_of_resolves (getW s) _ _ wr hresn (by rw [hloc.1]; exact hn), hloc.2]
      have hinner : ∀ (names : List Str) (s2 : σ), I s2 → (∀ name, J s2 (rs ++ [name])) →
          (∀ name ∈ names, name ∈ namesAt w0 (l0 ++ rs)) →
          ∃ s3, walkNames getW fn (walk getW fn k) (walked S rs) s2 names = some (s3, none) ∧
            I s3 ∧
            (∀ P : σ → Prop, (∀ s p i e, P s → P (fn s p i e).1) → P s2 → P s3) ∧
            ∀ name ∈ names, ∀ rs1 n1, nodeAt w0 (l0 ++ rs ++ name :: rs1) = some n1 →
              Q s3 (rs ++ name :: rs1) n1 := by
        intro names
        induction names with
        | nil => intro s2 h2 _ _; exact ⟨s2, rfl, h2, fun _ _ h => h, by simp⟩
        | cons name rest ihn =>
          intro s2 h2 hj2 hmem
          have hname := hmem name (List.mem_cons_self _ _)
          have hnv := validName_of_mem_namesAt w0 hvn _ name hname
          obtain ⟨c, hc⟩ := (mem_namesAt_iff_nodeAt w0 _ name).1 hname
          obtain ⟨⟨hpc2, hcwd2, hsame2⟩, hres2⟩ := hI s2 h2
          have hv' : ∀ e ∈ rs ++ [name], validName e = true := by
            intro e h
            rcases List.mem_append.1 h with h | h
            · exact hv e h
            · simp only [List.mem_singleton] at h; rw [h]; exact hnv
          have hc' : nodeAt w0 (l0 ++ (rs ++ [name])) = some c := by
            rw [← List.append_assoc]; exact hc
          have hlocc := hsame2 (l0 ++ (rs ++ [name])) (List.prefix_append _ _)
          have hresc := resolves_node (getW s2) hpc2 S l0 (rs ++ [name]) c hres2 hv'
            (by rw [hlocc.1]; exact hc')
          have hst : stat (getW s2) (join (walked S rs) name) = .ok c := by
            rw [← walked_concat, stat_of_resolves _ _ _ hresc, hlocc.1, hc']
          have hk : 0 < k := by
            obtain ⟨m, hm⟩ := mem_tab_of_nodeAt w0 _ c (by simp) hc'
            have := hsh _ m hm
            simp only [List.length_append, List.length_singleton] at this
            omega
          obtain ⟨s3, hw3, hI3, hP3, hQ3⟩ := ih (rs ++ [name]) c s2 hk h2 (hj2 name) hv' hc' (by
              intro q m hq
              have := hsh q m hq
              simp only [List.length_append, List.length_singleton] at this ⊢
              omega)
          have hjs : ∀ name1, J s3 (rs ++ [name1]) := fun name1 =>
            hP3 (fun s => J s (rs ++ [name1])) (fun s p i e h => hJpres s p i e _ h) (hj2 name1)
          obtain ⟨s4, hw4, hI4, hP4, hQ4⟩ :=
            ihn s3 hI3 hjs (fun x hx => hmem x (List.mem_cons_of_mem _ hx))
          refine ⟨s4, ?_, hI4, fun P hP h => hP4 P hP (hP3 P hP h), ?_⟩
          · rw [walked_concat] at hw3
            simp only [walkNames, hst, hw3]
            exact hw4
          · intro x hx rs1 n1 h1
            rcases List.mem_cons.1 hx with h | h
            · subst h
              have h5 := hQ3 rs1 n1 (by simpa [List.append_assoc] using h1)
              have h6 := hP4 (fun s => Q s (rs ++ [x] ++ rs1) n1)
                (fun s p i e h => hQpres s p i e _ _ h) h5
              simpa [List.append_assoc] using h6
            · exact hQ4 x h rs1 n1 h1
      obtain ⟨s3, hw3, hI3, hP3, hQ3⟩ :=
        hinner (namesAt w0 (l0 ++ rs)) s1 hI1 hJ1 (fun _ h => h)
      refine ⟨s3, ?_, hI3, fun P hP h => hP3 P hP (hP1 P hP h), ?_⟩
      · simp only [walk, hrd, hvis]
        exact hw3
      · intro rs1 n1 h1
        cases rs1 with
        | nil =>
          simp only [List.append_nil] at h1 ⊢
          rw [hn] at h1
          simp only [Option.some.injEq] at h1
          rw [← h1]
          exact hP3 (fun s => Q s rs (Node.dir wr)) (fun s p i e h => hQpres s p i e _ _ h) hQ1
        | cons name rs2 =>
          have hname : name ∈ namesAt w0 (l0 ++ rs) := by
            rw [mem_namesAt_iff_nodeAt]
            by_cases hr2 : rs2 = []
            · subst hr2; exact ⟨n1, h1⟩
            · have hpre : l0 <+: l0 ++ rs ++ name :: rs2 := by
                rw [List.append_assoc]; exact List.prefix_append _ _
              have h2 := (hsame _ hpre).1
              rw [h1] at h2
              have h3 : l0 ++ rs ++ name :: rs2 = (l0 ++ rs ++ [name]) ++ rs2 := by simp
              rw [h3] at h2
              obtain ⟨wr2, h4⟩ := ancestors_dir (getW s) hpc _ rs2 n1 hr2 h2
              rw [(hsame (l0 ++ rs ++ [name])
                (by rw [List.append_assoc]; exact List.prefix_append _ _)).1] at h4
              exact ⟨_, h4⟩
          exact hQ3 name hname rs2 n1 h1
    | file b =>
      refine ⟨s1, by simp only [walk, hvis], hI1, hP1, ?_⟩
      intro rs1 n1 h1
      by_cases hr : rs1 = []
      · subst hr
        simp only [List.append_nil] at h1 ⊢
        rw [hn] at h1
        simp only [Option.some.injEq] at h1
        rw [← h1]
        exact hQ1
      · obtain ⟨wr, h⟩ := hbelow rs1 n1 hr h1
        cases h
    | other =>
      refine ⟨s1, by simp only [walk, hvis], hI1, hP1, ?_⟩
      intro rs1 n1 h1
      by_cases hr : rs1 = []
      · subst hr
        simp only [List.append_nil] at h1 ⊢
        rw [hn] at h1
        simp only [Option.some.injEq] at h1
        rw [← h1]
        exact hQ1
      · obtain ⟨wr, h⟩ := hbelow rs1 n1 hr h1
        cases h

/-! ## Fingerprinting from a root written in any way -/

theorem getFileMd5_of_resolves (md5 : List Nat → Str) (w : World) (p : Str) (l : Path)
    (b : List Nat) (h : Resolves w p l) (hn : nodeAt w l = some (Node.file b)) :
    getFileMd5 md5 w p = .ok (md5 b) := by
  unfold getFileMd5 openRead
  rw [if_neg h.1, h.2]
  simp only [hn, readAll]

/-- In a well-formed world `calculateDirMd5` returns a map and no error for
every root that `os.Stat` finds, however the root is written, given a
budget that reaches every node. -/
theorem calculateDirMd5_returns (md5 : List Nat → Str) (fuel : Nat) (w : World)
    (hw : ValidWorld w) (S : Str) (n : Node) (hst : stat w S = .ok n) (hfuel : 0 < fuel)
    (hsh : Shallow w fuel (locOf w.cwd S)) :
    ∃ m, calculateDirMd5 md5 fuel w S = some (m, none) := by
  obtain ⟨hres, hnode⟩ := resolves_of_stat w S n hst
  have hmain := walk_total (fun _ : GoMap => w) (md5WalkFn md5 w S) w hw.2.1 S
    (locOf w.cwd S) (fun _ => True) (fun _ _ => True) (fun _ _ _ => True)
    (fun _ _ => ⟨agrees_self w hw.1 _, hres⟩)
    (fun _ _ _ _ _ _ => trivial)
    (fun _ _ _ _ _ _ _ => trivial)
    (fun s rs n1 _ _ hv hn1 => by
      refine ⟨?_, trivial, trivial, fun _ _ _ => trivial⟩
      cases n1 with
      | file b =>
        have hr := resolves_node w hw.1 S _ rs _ hres hv hn1
        simp only [md5WalkFn, getFileMd5_of_resolves md5 w _ _ b hr hn1]
      | dir wr => rfl
      | other => rfl)
    fuel [] n [] hfuel trivial trivial (by simp) (by simpa using hnode) (by simpa using hsh)
  obtain ⟨m, hm, _⟩ := hmain
  refine ⟨m, ?_⟩
  unfold calculateDirMd5 filepathWalk
  simp only [hst]
  exact hm

/-! ## Cleaning twice -/

theorem canonical_tail (r : Bool) (t : Str) (rest : List Str) (h : Canonical r (t :: rest)) :
    Canonical r rest :=
  ⟨fun x hx => h.1 x (List.mem_cons_of_mem _ hx),
    fun a b hab => h.2 (t :: a) b (by rw [hab]; rfl)⟩

theorem canonical_push (r : Bool) (e : Str) (out : List Str) (h : Canonical r out)
    (h1 : ¬(e = [] ∨ e = ['.'])) (h2 : e ≠ ['.', '.']) : Canonical r (e :: out) := by
  refine ⟨fun x hx => ?_, fun a b hab => ?_⟩
  · rcases List.mem_cons.1 hx with hx | hx
    · rw [hx]; exact h1
    · exact h.1 x hx
  · cases a with
    | nil =>
      simp only [List.nil_append, List.cons.injEq] at hab
      exact absurd hab.1 h2
    | cons x a =>
      simp only [List.cons_append, List.cons.injEq] at hab
      exact h.2 a b hab.2

theorem cleanStep_canonical (r : Bool) (out : List Str) (e : Str) (h : Canonical r out) :
    Canonical r (cleanStep r out e) := by
  unfold cleanStep
  by_cases h1 : e = [] ∨ e = ['.']
  · rw [if_pos h1]; exact h
  · rw [if_neg h1]
    by_cases h2 : e = ['.', '.']
    · rw [if_pos h2]
      cases out with
      | nil =>
        cases r with
        | true => exact h
        | false =>
          simp only [Bool.false_eq_true, ↓reduceIte]
          refine ⟨fun x hx => ?_, fun a b hab => ?_⟩
          · simp only [List.mem_singleton] at hx
            rw [hx]; exact h1
          · cases a with
            | nil =>
              simp only [List.nil_append, List.cons.injEq] at hab
              refine ⟨rfl, ?_⟩
              rw [← hab.2]
              simp
            | cons x a =>
              simp only [List.cons_append, List.cons.injEq] at hab
              have := hab.2
              cases a <;> simp at this
      | cons t rest =>
        simp only
        by_cases h3 : t = ['.', '.']
        · rw [if_pos h3]
          have h4 := h.2 [] rest (by rw [h3]; rfl)
          refine ⟨fun x hx => ?_, fun a b hab => ?_⟩
          · rcases List.mem_cons.1 hx with hx | hx
            · rw [hx]; exact h1
            · exact h.1 x hx
          · cases a with
            | nil =>
              simp only [List.nil_append, List.cons.injEq] at hab
              refine ⟨h4.1, fun x hx => ?_⟩
              rw [← hab.2] at hx
              rcases List.mem_cons.1 hx with hx | hx
              · rw [hx, h3]
              · exact h4.2 x hx
            | cons x a =>
              simp only [List.cons_append, List.cons.injEq] at hab
              exact h.2 a b hab.2
        · rw [if_neg h3]
          exact canonical_tail r t rest h
    · rw [if_neg h2]
      exact canonical_push r e out h h1 h2

theorem foldl_cleanStep_canonical (r : Bool) (L : List Str) :
    ∀ out, Canonical r out → Canonical r (L.foldl (cleanStep r) out) := by
  induction L with
  | nil => intro out h; exact h
  | cons e L ih => intro out h; exact ih _ (cleanStep_canonical r out e h)

/-- Cleaning a buffer that is in cleaned form gives it back. -/
theorem foldl_cleanStep_refold (r : Bool) :
    ∀ out, Canonical r out → out.reverse.foldl (cleanStep r) [] = out := by
  intro out
  induction out with
  | nil => intro _; rfl
  | cons t rest ih =>
    intro h
    rw [List.reverse_cons, List.foldl_append, ih (canonical_tail r t rest h)]
    simp only [List.foldl_cons, List.foldl_nil]
    have h1 := h.1 t (List.mem_cons_self _ _)
    unfold cleanStep
    rw [if_neg h1]
    by_cases h2 : t = ['.', '.']
    · rw [if_pos h2]
      have h4 := h.2 [] rest (by rw [h2]; rfl)
      cases rest with
      | nil => simp [h4.1]
      | cons t1 rest1 =>
        simp only
        rw [if_pos (h4.2 t1 (List.mem_cons_self _ _))]
    · rw [if_neg h2]

theorem canonical_cleanElems (X : Str) : Canonical (isRooted X) (cleanElems X).reverse := by
  unfold cleanElems
  rw [List.reverse_reverse]
  exact foldl_cleanStep_canonical _ _ [] ⟨by simp, fun a b h => by cases a <;> simp at h⟩

theorem isRooted_clean (X : Str) : isRooted (clean X) = isRooted X := by
  by_cases hce : cleanElems X = []
  · unfold clean
    rw [hce]
    cases isRooted X <;> rfl
  · rw [clean_eq_rootStr X hce, isRooted_rootStr_plain _ _ (cleanElems_plain X)]

/-- `filepath.Clean` is idempotent on the elements it keeps. -/
theorem cleanElems_clean (X : Str) : cleanElems (clean X) = cleanElems X := by
  by_cases hce : cleanElems X = []
  · rw [hce]
    unfold clean
    rw [hce]
    cases isRooted X <;> decide
  · have hr := isRooted_clean X
    have hsp := splitSlash_rootStr_plain (isRooted X) (cleanElems X) hce
      (fun e h => (cleanElems_plain X e h).2)
    have hre := foldl_cleanStep_refold (isRooted X) _ (canonical_cleanElems X)
    rw [List.reverse_reverse] at hre
    rw [clean_eq_rootStr X hce] at hr ⊢
    have hY : ∀ Y : Str, cleanElems Y
        = ((splitSlash Y).foldl (cleanStep (isRooted Y)) []).reverse := fun _ => rfl
    rw [hY (rootStr (isRooted X) (cleanElems X)), hr, hsp]
    cases hrt : isRooted X with
    | false =>
      rw [hrt] at hre
      simp only [Bool.false_eq_true, ↓reduceIte, hre, List.reverse_reverse]
    | true =>
      rw [hrt] at hre
      simp only [↓reduceIte, List.foldl_cons]
      rw [show cleanStep true [] [] = [] by simp [cleanStep], hre, List.reverse_reverse]

theorem clean_ne_nil (X : Str) : clean X ≠ [] := by
  by_cases hce : cleanElems X = []
  · unfold clean
    rw [hce]
    cases isRooted X <;> simp
  · rw [clean_eq_rootStr X hce]
    exact rootStr_ne_nil_plain _ _ hce (cleanElems_plain X)

/-- The elements kept of a path with names appended are those of the path
followed by the names. -/
theorem cleanElems_append_names (X : Str) (rs : List Str) (hX : X ≠ []) (hr : rs ≠ [])
    (hv : ∀ e ∈ rs, validName e = true) :
    cleanElems (X ++ '/' :: joinSlash rs) = cleanElems X ++ rs := by
  unfold cleanElems
  rw [isRooted_append _ _ hX, splitSlash_append_slash,
    splitSlash_joinSlash rs hr hv, List.foldl_append,
    foldl_cleanStep _ rs _ (fun e he => Or.inr (Or.inr (hv e he))),
    filter_validName_of_all rs hv]
  simp

theorem join_names (T : Str) (rs : List Str) (hT : T ≠ []) (hr : rs ≠ [])
    (hv : ∀ e ∈ rs, validName e = true) :
    join T (joinSlash rs) = rootStr (isRooted T) (cleanElems T ++ rs) ∧
    cleanElems (join T (joinSlash rs)) = cleanElems T ++ rs ∧
    isRooted (join T (joinSlash rs)) = isRooted T := by
  have h1 := cleanElems_append_names T rs hT hr hv
  have h2 : isRooted (T ++ '/' :: joinSlash rs) = isRooted T := isRooted_append _ _ hT
  unfold join
  rw [if_pos hT]
  refine ⟨?_, ?_, ?_⟩
  · rw [clean_eq_rootStr _ (by rw [h1]; simp [hr]), h1, h2]
  · rw [cleanElems_clean, h1]
  · rw [isRooted_clean, h2]

/-- The paths a walk hands over: their kept elements are those of the root
followed by the names below it. -/
theorem walked_elems (S : Str) (hS : S ≠ []) :
    ∀ rs : List Str, (∀ e ∈ rs, validName e = true) →
      walked S rs ≠ [] ∧ cleanElems (walked S rs) = cleanElems S ++ rs ∧
        isRooted (walked S rs) = isRooted S := by
  intro rs
  induction rs using List.reverseRecOn with
  | nil => intro _; exact ⟨hS, by simp [walked], rfl⟩
  | append_singleton rs e ih =>
    intro hv
    obtain ⟨h1, h2, h3⟩ := ih (fun x hx => hv x (List.mem_append_left _ hx))
    have he : validName e = true := hv e (by simp)
    have hj := join_names (walked S rs) [e] h1 (by simp) (by simpa using he)
    simp only [joinSlash] at hj
    rw [walked_concat]
    refine ⟨?_, ?_, ?_⟩
    · unfold join
      rw [if_pos h1]
      exact clean_ne_nil _
    · rw [hj.2.1, h2, List.append_assoc]
    · rw [hj.2.2, h3]

/-- `filepath.Rel` from the root of a walk to a path the walk hands over
gives the names below the root, or `.` for the root itself. -/
theorem rel_walked (S : Str) (hS : S ≠ []) (rs : List Str)
    (hv : ∀ e ∈ rs, validName e = true) :
    rel S (walked S rs) = some (if rs = [] then ['.'] else joinSlash rs) := by
  by_cases hr : rs = []
  · subst hr
    simp [rel, walked]
  · obtain ⟨_, h2, h3⟩ := walked_elems S hS rs hv
    have hne : clean (walked S rs) ≠ clean S := by
      intro h
      have := congrArg cleanElems h
      rw [cleanElems_clean, cleanElems_clean, h2] at this
      exact hr (by simpa using this)
    have hdot : clean (walked S rs) ≠ ['.'] := by
      intro h
      have := congrArg cleanElems h
      rw [cleanElems_clean, h2] at this
      have hd : cleanElems ['.'] = [] := by decide
      rw [hd] at this
      simp only [List.nil_eq, List.append_eq_nil] at this
      exact hr this.2
    unfold rel
    simp only [hne, hdot, ↓reduceIte, isRooted_clean, h3, ne_eq, not_true_eq_false, h2,
      dropCommon_append, List.head?_nil, not_false_eq_true, hr]
    simp

/-! ## Making a directory at a cleaned path -/

theorem createDirIfNotExist_of_node (w : World) (p : Str) (l : Path) (n : Node)
    (h : Resolves w p l) (hn : nodeAt w l = some n) :
    createDirIfNotExist w p = (w, none) := by
  unfold createDirIfNotExist
  rw [stat_of_resolves w p l h, hn]

theorem splitSlash_rootStr_concat (abs : Bool) (ce : List Str) (e : Str)
    (hv : ∀ t ∈ ce ++ [e], '/' ∉ t) :
    splitSlash (rootStr abs (ce ++ [e])) = (if abs then [] :: ce else ce) ++ [e] := by
  rw [splitSlash_rootStr_plain abs (ce ++ [e]) (by simp) hv]
  cases abs <;> simp

theorem trimmedElems_rootStr_concat (abs : Bool) (ce : List Str) (e : Str)
    (hv : ∀ t ∈ ce ++ [e], '/' ∉ t) (he : e ≠ []) :
    trimmedElems (rootStr abs (ce ++ [e])) = (if abs then [] :: ce else ce) ++ [e] := by
  unfold trimmedElems
  rw [splitSlash_rootStr_concat abs ce e hv, List.reverse_append]
  simp only [List.reverse_cons, List.reverse_nil, List.nil_append, List.singleton_append]
  rw [List.dropWhile_cons_of_neg (by simpa using he)]
  simp

theorem walkTo_rootSplit (w : World) (abs : Bool) (ce : List Str) (l : Path)
    (hwalk : walkTo w (if abs then [] else w.cwd) ce = .ok l) :
    walkTo w (if abs then [] else w.cwd) (if abs then [] :: ce else ce) = .ok l := by
  cases abs with
  | false => simpa using hwalk
  | true =>
    simp only [↓reduceIte, walkTo, nodeAt]
    rw [show stepElem [] [] = [] by simp [stepElem]]
    simpa using hwalk

/-- The parent that `os.MkdirAll` extracts from a cleaned path that ends in
a name is a directory when the path lies in one. -/
theorem stat_parentOf_concat (w : World) (abs : Bool) (ce : List Str) (e : Str) (l : Path)
    (hplain : ∀ t ∈ ce, t ≠ [] ∧ '/' ∉ t) (he : validName e = true)
    (hwalk : walkTo w (if abs then [] else w.cwd) ce = .ok l) (wr : Bool)
    (hdir : nodeAt w l = some (Node.dir wr)) :
    parentOf (rootStr abs (ce ++ [e])) = [] ∨
      ∃ wr1, stat w (parentOf (rootStr abs (ce ++ [e]))) = .ok (Node.dir wr1) := by
  by_cases hd : ce = []
  · subst hd
    cases abs with
    | false =>
      left
      exact parentOf_name e (validName_noSlash he)
    | true =>
      right
      have : rootStr true ([] ++ [e]) = [] ++ '/' :: e := rfl
      rw [this, parentOf_child [] e (validName_ne_nil he) (validName_noSlash he)]
      exact ⟨true, by simp [stat, startOf, isRooted, splitSlash, walkTo, nodeAt, stepElem]⟩
  · right
    have hP : rootStr abs (ce ++ [e]) = rootStr abs ce ++ '/' :: e := by
      rw [rootStr_append abs ce [e] hd (by simp)]
      rfl
    rw [hP, parentOf_child _ e (validName_ne_nil he) (validName_noSlash he)]
    refine ⟨wr, ?_⟩
    have hres := resolves_rootStr w abs ce l hd hplain hwalk
    have hres2 : Resolves w (rootStr abs ce ++ ['/']) l := by
      refine ⟨by simp, ?_⟩
      have hs : startOf w (rootStr abs ce ++ ['/']) = startOf w (rootStr abs ce) := by
        unfold startOf
        rw [isRooted_append _ _ hres.1]
      rw [hs, splitSlash_append_slash, walkTo_append w _ _ _ _ hres.2]
      have : splitSlash [] = [[]] := rfl
      rw [this, walkTo_one w l [] wr hdir]
      simp [stepElem]
    rw [stat_of_resolves w _ l hres2, hdir]

theorem mkdir_concat (w : World) (abs : Bool) (ce : List Str) (e : Str) (l : Path)
    (hplain : ∀ t ∈ ce, t ≠ [] ∧ '/' ∉ t) (he : validName e = true)
    (hwalk : walkTo w (if abs then [] else w.cwd) ce = .ok l)
    (hdir : nodeAt w l = some (Node.dir true)) (hnone : nodeAt w (l ++ [e]) = none) :
    mkdir w (rootStr abs (ce ++ [e]))
      = .ok { w with tab := setNode w.tab (l ++ [e]) (Node.dir true) } := by
  have hpl : ∀ t ∈ ce ++ [e], t ≠ [] ∧ '/' ∉ t := by
    intro t ht
    rcases List.mem_append.1 ht with h | h
    · exact hplain t h
    · simp only [List.mem_singleton] at h
      rw [h]
      exact ⟨validName_ne_nil he, validName_noSlash he⟩
  have hstart : startOf w (rootStr abs (ce ++ [e])) = if abs then [] else w.cwd := by
    unfold startOf
    rw [isRooted_rootStr_plain abs _ hpl]
  have hstep := validName_step he
  simp only [not_or] at hstep
  unfold mkdir
  rw [if_neg (rootStr_ne_nil_plain abs _ (by simp) hpl),
    trimmedElems_rootStr_concat abs ce e (fun t ht => (hpl t ht).2) (validName_ne_nil he),
    hstart, List.dropLast_concat, walkTo_rootSplit w abs ce l hwalk]
  have hlast : ((if abs then [] :: ce else ce) ++ [e]).getLast? = some e := by simp
  simp only [hdir, hlast, hnone,
    hstep.1, hstep.2.1, hstep.2.2, or_self, ↓reduceIte,
    Option.isSome_none, Bool.false_eq_true, Bool.true_eq_false]

/-- `createDirIfNotExist` on a cleaned path that ends in a name, lies in a
writable directory and names nothing yet: the directory is made. -/
theorem createDirIfNotExist_made (w : World) (abs : Bool) (ce : List Str) (e : Str)
    (l : Path) (hplain : ∀ t ∈ ce, t ≠ [] ∧ '/' ∉ t) (he : validName e = true)
    (hwalk : walkTo w (if abs then [] else w.cwd) ce = .ok l)
    (hdir : nodeAt w l = some (Node.dir true)) (hnone : nodeAt w (l ++ [e]) = none) :
    createDirIfNotExist w (rootStr abs (ce ++ [e]))
      = ({ w with tab := setNode w.tab (l ++ [e]) (Node.dir true) }, none) := by
  have hpl : ∀ t ∈ ce ++ [e], t ≠ [] ∧ '/' ∉ t := by
    intro t ht
    rcases List.mem_append.1 ht with h | h
    · exact hplain t h
    · simp only [List.mem_singleton] at h
      rw [h]
      exact ⟨validName_ne_nil he, validName_noSlash he⟩
  have hres : Resolves w (rootStr abs (ce ++ [e])) (l ++ [e]) := by
    apply resolves_rootStr w abs _ _ (by simp) hpl
    rw [walkTo_append w _ _ _ _ hwalk, walkTo_one w l e true hdir,
      stepElem_name l e (validName_step he)]
  have hst := stat_of_resolves w _ _ hres
  rw [hnone] at hst
  unfold createDirIfNotExist
  simp only [hst, isNotExist, ↓reduceIte]
  unfold mkdirAll
  obtain ⟨n, hlen⟩ : ∃ n, (rootStr abs (ce ++ [e])).length = n + 1 := by
    cases h : rootStr abs (ce ++ [e]) with
    | nil => exact absurd h hres.1
    | cons c cs => exact ⟨cs.length, rfl⟩
  rw [hlen]
  have hchain : parentChain (n + 1) (rootStr abs (ce ++ [e])) = [] ∨
      ∃ par rest wr, parentChain (n + 1) (rootStr abs (ce ++ [e])) = par :: rest ∧
        stat w par = .ok (Node.dir wr) := by
    simp only [parentChain]
    rcases stat_parentOf_concat w abs ce e l hplain he hwalk true hdir with h | ⟨wr1, h⟩
    · left; simp [h]
    · by_cases h0 : parentOf (rootStr abs (ce ++ [e])) = []
      · left; simp [h0]
      · right
        exact ⟨_, parentChain n (parentOf (rootStr abs (ce ++ [e]))), wr1,
          by simp only [h0, ↓reduceIte], h⟩
  rw [mkdirAllAux_of_missing w _ _ _ hst hchain]
  simp only [mkdirLast, mkdir_concat w abs ce e l hplain he hwalk hdir hnone]

/-! ## The mirroring walk from roots written in any way -/

theorem dirs_to (w : World) (hpc : ParentClosed w) (l : Path) (rs : List Str) (e : Str)
    (wr : Bool) (hJ : nodeAt w (l ++ rs) = some (Node.dir wr)) :
    ∀ i, i < (rs ++ [e]).length →
      ∃ wr1, nodeAt w (l ++ (rs ++ [e]).take i) = some (Node.dir wr1) := by
  intro i hi
  simp only [List.length_append, List.length_singleton] at hi
  rw [List.take_append_of_le_length (by omega)]
  by_cases h : i = rs.length
  · rw [h, List.take_length]
    exact ⟨wr, hJ⟩
  · exact prefixes_dir w hpc l rs _ hJ i (by omega)

/-- One visit of the mirroring walk, at the node of the source tree under
the names `rs`, when the parent of its place in the target tree is a
writable directory: no error, the invariant is kept, and for a directory
its place in the target tree is a writable directory afterwards. -/
theorem mirroring_visit (w : World) (config : ConfigItem) (locS locT : Path)
    (hS : Resolves w config.OriginalPath locS) (hT : Resolves w config.TargetPath locT)
    (hpl : Apart locS locT ∨ locS = locT) (htd : nodeAt w locT = some (Node.dir true))
    (hfit : ∀ rs wr, nodeAt w (locS ++ rs) = some (Node.dir wr) →
      nodeAt w (locT ++ rs) = none ∨ nodeAt w (locT ++ rs) = some (Node.dir true))
    (r : Run) (hI : Mirroring w locS r) (rs : List Str)
    (hrv : ∀ e ∈ rs, validName e = true) (n : Node)
    (hn : nodeAt w (locS ++ rs) = some n)
    (hJ : nodeAt r.world (locT ++ rs.dropLast) = some (Node.dir true)) :
    (mirrorWalkFn config r (walked config.OriginalPath rs) (some n) none).2 = none ∧
    Mirroring w locS (mirrorWalkFn config r (walked config.OriginalPath rs) (some n) none).1 ∧
    ∀ wr, n = Node.dir wr →
      nodeAt (mirrorWalkFn config r (walked config.OriginalPath rs) (some n) none).1.world
        (locT ++ rs) = some (Node.dir true) := by
  cases n with
  | file b => exact ⟨rfl, hI, fun wr h => by cases h⟩
  | other => exact ⟨rfl, hI, fun wr h => by cases h⟩
  | dir wr =>
    have hrel := rel_walked config.OriginalPath hS.1 rs hrv
    have hTr : Resolves r.world config.TargetPath locT := resolves_mono w r.world hI.ext _ _ hT
    have hpc : ParentClosed r.world := hI.same.1
    have hexists : ∀ (P : Str) (n1 : Node), Resolves r.world P (locT ++ rs) →
        join config.TargetPath ((rel config.OriginalPath (walked config.OriginalPath rs)).getD [])
          = P →
        nodeAt r.world (locT ++ rs) = some n1 →
        (mirrorWalkFn config r (walked config.OriginalPath rs) (some (Node.dir wr)) none).2
          = none ∧
        Mirroring w locS
          (mirrorWalkFn config r (walked config.OriginalPath rs) (some (Node.dir wr)) none).1 ∧
        ∀ wr1, Node.dir wr = Node.dir wr1 →
          nodeAt (mirrorWalkFn config r (walked config.OriginalPath rs)
            (some (Node.dir wr)) none).1.world (locT ++ rs) = some (Node.dir true) := by
      intro P n1 hP htd1 hc
      have hcr := createDirIfNotExist_of_node r.world P _ n1 hP hc
      have hn1 : n1 = Node.dir true := by
        rcases hI.fresh _ _ hc with h | h
        · rcases hfit rs wr hn with h2 | h2
          · rw [h2] at h; cases h
          · rw [h2] at h; simpa using h.symm
        · exact h
      simp only [mirrorWalkFn, htd1, hcr]
      refine ⟨trivial, ⟨hI.ext, hI.same, hI.fresh⟩, fun _ _ => ?_⟩
      rw [hc, hn1]
    by_cases hr : rs = []
    · subst hr
      have hdirT := hI.ext.2 _ _ htd
      have hP : Resolves r.world (join config.TargetPath ['.']) (locT ++ []) := by
        apply join_resolves r.world _ _ locT _ hTr
        have : splitSlash ['.'] = [['.']] := by decide
        rw [this, walkTo_one r.world locT _ true hdirT]
        simp [stepElem]
      exact hexists _ (Node.dir true) hP (by rw [hrel]; rfl) (by simpa using hdirT)
    · obtain ⟨rs1, e, hrs⟩ : ∃ rs1 e, rs = rs1 ++ [e] := by
        rcases List.eq_nil_or_concat rs with h | ⟨rs1, e, h⟩
        · exact absurd h hr
        · exact ⟨rs1, e, by rw [h, List.concat_eq_append]⟩
      subst hrs
      rw [List.dropLast_concat] at hJ
      have hev : validName e = true := hrv e (by simp)
      have hrv1 : ∀ x ∈ rs1, validName x = true := fun x hx => hrv x (List.mem_append_left _ hx)
      have hjn := join_names config.TargetPath (rs1 ++ [e]) hT.1 hr hrv
      have htd1 : join config.TargetPath
          ((rel config.OriginalPath (walked config.OriginalPath (rs1 ++ [e]))).getD [])
            = join config.TargetPath (joinSlash (rs1 ++ [e])) := by
        rw [hrel]
        simp
      have hP : Resolves r.world (join config.TargetPath (joinSlash (rs1 ++ [e])))
          (locT ++ (rs1 ++ [e])) := by
        apply join_resolves r.world _ _ locT _ hTr
        rw [splitSlash_joinSlash _ hr hrv]
        exact walkTo_valid r.world _ locT hrv (dirs_to r.world hpc locT rs1 e true hJ)
      cases hc : nodeAt r.world (locT ++ (rs1 ++ [e])) with
      | some n1 => exact hexists _ n1 hP htd1 hc
      | none =>
        have hap : Apart locS locT := by
          rcases hpl with h | h
          · exact h
          · exfalso
            have h2 := (hI.same.2.2 (locS ++ (rs1 ++ [e])) (List.prefix_append _ _)).1
            rw [hn, h, hc] at h2
            cases h2
        have hplain : ∀ t ∈ cleanElems config.TargetPath ++ rs1, t ≠ [] ∧ '/' ∉ t := by
          intro t ht
          rcases List.mem_append.1 ht with h | h
          · exact cleanElems_plain _ t h
          · exact ⟨validName_ne_nil (hrv1 t h), validName_noSlash (hrv1 t h)⟩
        have hwalk : walkTo r.world (if isRooted config.TargetPath then [] else r.world.cwd)
            (cleanElems config.TargetPath ++ rs1) = .ok (locT ++ rs1) := by
          have h1 := cleanElems_walk r.world _ _ hTr
          unfold startOf at h1
          rw [walkTo_append r.world _ _ _ _ h1]
          exact walkTo_valid r.world _ locT hrv1 (prefixes_dir r.world hpc locT rs1 _ hJ)
        have hc1 : nodeAt r.world (locT ++ rs1 ++ [e]) = none := by
          rw [List.append_assoc]; exact hc
        have hcr := createDirIfNotExist_made r.world (isRooted config.TargetPath)
          (cleanElems config.TargetPath ++ rs1) e (locT ++ rs1) hplain hev hwalk hJ hc1
        rw [List.append_assoc, ← hjn.1, List.append_assoc] at hcr
        have hp0 : locT ++ (rs1 ++ [e]) ≠ [] := by simp
        have hpd : (locT ++ (rs1 ++ [e])).dropLast = locT ++ rs1 := by
          rw [← List.append_assoc, List.dropLast_concat]
        have hnode := nodeAt_setNode r.world (locT ++ (rs1 ++ [e]))
        have hpc2 := parentClosed_setNode_new r.world hpc (locT ++ (rs1 ++ [e])) (Node.dir true)
          hp0 hc (by rw [hpd]; exact ⟨true, hJ⟩)
        simp only [mirrorWalkFn, htd1, hcr]
        refine ⟨trivial, ⟨?_, ?_, ?_⟩, fun _ _ => ?_⟩
        · exact hI.ext.trans (extends_setNode_new r.world _ _ hp0 hc)
        · refine ⟨hpc2, hI.same.2.1, fun l hl => ⟨?_, ?_⟩⟩
          · rw [hnode l _ hp0, if_neg (apart_not_below hap l hl _)]
            exact (hI.same.2.2 l hl).1
          · rw [namesAt_setNode r.world _ _ l (Or.inr ?_)]
            · exact (hI.same.2.2 l hl).2
            · cases hcn : childName l (locT ++ (rs1 ++ [e])) with
              | none => rfl
              | some name =>
                exfalso
                have := (childName_eq_some l _ name).1 hcn
                have hl2 : locS <+: locT ++ (rs1 ++ [e]) := by
                  rw [this]
                  exact hl.trans (List.prefix_append _ _)
                exact apart_not_below hap _ hl2 _ rfl
        · intro q n2 hq
          rw [hnode q _ hp0] at hq
          by_cases hqp : q = locT ++ (rs1 ++ [e])
          · simp only [hqp, ↓reduceIte, Option.some.injEq] at hq
            exact Or.inr hq.symm
          · simp only [hqp, ↓reduceIte] at hq
            exact hI.fresh q n2 hq
        · rw [hnode _ _ hp0]
          simp

/-- The mirroring walk of a pair whose directories are in good order
returns `nil` and leaves a writable directory in the target tree for every
directory of the source tree, however the two roots are written. -/
theorem mirroring_walk (w : World) (config : ConfigItem)
    (hd : DirsInOrder w config.OriginalPath config.TargetPath) (fuel : Nat) (hfuel : 0 < fuel)
    (hsh : Shallow w fuel (locOf w.cwd config.OriginalPath)) :
    ∃ r1 : Run, filepathWalk Run.world (mirrorWalkFn config) fuel ⟨w, [], []⟩
        config.OriginalPath = some (r1, none) ∧
      ∀ rs wr, nodeAt w (locOf w.cwd config.OriginalPath ++ rs) = some (Node.dir wr) →
        nodeAt r1.world (locOf w.cwd config.TargetPath ++ rs) = some (Node.dir true) := by
  obtain ⟨wrS, hst⟩ := hd.srcDir
  obtain ⟨hS, hSn⟩ := resolves_of_stat w _ _ hst
  obtain ⟨hT, hTn⟩ := resolves_of_stat w _ _ hd.tgtDir
  have hext : ∀ (s : Run) p i e, Extends s.world (mirrorWalkFn config s p i e).1.world :=
    fun s p i e => (mirrorWalkFn_extends config s.world s.copies s p i e
      ⟨Extends.refl _, rfl⟩).1
  have hmain := walk_total Run.world (mirrorWalkFn config) w hd.valid.2.1 config.OriginalPath
    (locOf w.cwd config.OriginalPath) (Mirroring w (locOf w.cwd config.OriginalPath))
    (fun s rs => nodeAt s.world (locOf w.cwd config.TargetPath ++ rs.dropLast)
      = some (Node.dir true))
    (fun s rs n => ∀ wr, n = Node.dir wr →
      nodeAt s.world (locOf w.cwd config.TargetPath ++ rs) = some (Node.dir true))
    (fun s hs => ⟨hs.same, resolves_mono w s.world hs.ext _ _ hS⟩)
    (fun s p i e rs hj => (hext s p i e).2 _ _ hj)
    (fun s p i e rs n hq wr hn => (hext s p i e).2 _ _ (hq wr hn))
    (fun s rs n hs hj hv hn => by
      have hvis := mirroring_visit w config _ _ hS hT hd.placed hTn hd.dirsFit s hs rs hv n hn hj
      refine ⟨hvis.1, hvis.2.1, hvis.2.2, ?_⟩
      intro wr1 hn1 name
      simp only [List.dropLast_concat]
      exact hvis.2.2 wr1 hn1)
    fuel [] (Node.dir wrS) ⟨w, [], []⟩ hfuel
    ⟨Extends.refl w, agrees_self w hd.valid.1 _, fun _ _ h => Or.inl h⟩
    (by simpa using hTn) (by simp) (by simpa using hSn) (by simpa using hsh)
  obtain ⟨r1, hw, _, _, hQ⟩ := hmain
  refine ⟨r1, ?_, fun rs wr hdn => ?_⟩
  · unfold filepathWalk
    simp only [hst]
    exact hw
  · have := hQ rs _ (by simpa using hdn) wr rfl
    simpa using this

/-! ## The directory skeleton, whatever way the roots are written -/

theorem dirsInOrder_of_check (w : World) (src tgt : Str) (h : dirsCheck w src tgt = true) :
    DirsInOrder w src tgt := by
  simp only [dirsCheck, Bool.and_eq_true, List.all_eq_true, Bool.or_eq_true, beq_iff_eq,
    Bool.not_eq_true', decide_eq_true_eq] at h
  obtain ⟨⟨⟨⟨⟨htab, hcwd⟩, hsd⟩, htd⟩, hap⟩, hfit⟩ := h
  have hpc : ParentClosed w := by
    intro q n hq hq0
    obtain ⟨m, hm⟩ := mem_tab_of_nodeAt w q n hq0 hq
    rcases (htab _ hm).2 with h1 | h1
    · exact absurd h1 hq0
    · exact (isDirAt_iff w _).1 h1
  have hsd1 : ∃ wr, stat w src = .ok (Node.dir wr) := by
    unfold statsDir at hsd
    split at hsd
    · rename_i wr hs; exact ⟨wr, hs⟩
    · cases hsd
  have htd1 : stat w tgt = .ok (Node.dir true) := by
    unfold statsWritableDir at htd
    split at htd
    · rename_i hs; exact hs
    · cases htd
  refine ⟨⟨hpc, fun q n hq e he => (htab _ hq).1 e he, (isDirAt_iff w _).1 hcwd⟩, hsd1, htd1,
    ?_, ?_⟩
  · rcases hap with ⟨hap1, hap2⟩ | hap
    · refine Or.inl ⟨fun hp => ?_, fun hp => ?_⟩
      · rw [List.isPrefixOf_iff_prefix.2 hp] at hap1; cases hap1
      · rw [List.isPrefixOf_iff_prefix.2 hp] at hap2; cases hap2
    · exact Or.inr hap
  · intro rs wr hdn
    by_cases h0 : locOf w.cwd src ++ rs = []
    · right
      have hrs : rs = [] := (List.append_eq_nil.1 h0).2
      rw [hrs, List.append_nil]
      exact (resolves_of_stat w tgt _ htd1).2
    · obtain ⟨m, hm⟩ := mem_tab_of_nodeAt w _ _ h0 hdn
      have := hfit _ hm
      have hpre : (locOf w.cwd src).isPrefixOf (locOf w.cwd src ++ rs) = true :=
        List.isPrefixOf_iff_prefix.2 (List.prefix_append _ _)
      simp only [dirFitsAt, hpre, ↓reduceIte, hdn, List.drop_left, Bool.or_eq_true,
        decide_eq_true_eq] at this
      exact this

/-- Why the two trees are taken to lie apart: with the target root `s/x/y`
inside the source tree `s`, the mirroring walk makes `s/x/y/x` while it
visits `s/x`, finds it when it lists `s/x/y`, makes `s/x/y/x/y` there, and
so on downwards; a budget of twelve levels does not bring it to an end. -/
theorem mirror_walk_into_own_target :
    filepathWalk Run.world (mirrorWalkFn (pair "s" "s/x/y")) 12 ⟨deepTree, [], []⟩
      (pair "s" "s/x/y").OriginalPath = none := by
  decide

/-- C4, as amended: when the first step of `processFile` succeeds and
leaves the directories of the pair in good order (`os.Stat` finds a
directory at the source root and a writable directory at the target root,
the two trees lie apart or are one and the same, and the target tree holds
nothing but writable directories, or nothing, where the source tree has
directories), the run
returns `nil` and every directory under the source root, the root included,
is a directory at the same relative path under the target root afterwards.
The two roots may be written in any way (`.`, `./src/`, `../src`, `dst//`,
an absolute path, ...). -/
theorem processFile_mirrors_directories (md5 : List Nat → Str) (fuel : Nat) (w w0 : World)
    (config : ConfigItem)
    (h1 : createDirIfNotExist w config.TargetPath = (w0, none))
    (ha : DirsInOrder w0 config.OriginalPath config.TargetPath)
    (hfuel : 0 < fuel)
    (hshS : Shallow w0 fuel (locOf w0.cwd config.OriginalPath))
    (hshT : Shallow w0 fuel (locOf w0.cwd config.TargetPath)) :
    ∃ r : Run, processFile md5 fuel w config = some (r, none) ∧
      ∀ rs wr, nodeAt w (locOf w.cwd config.OriginalPath ++ rs) = some (Node.dir wr) →
        nodeAt r.world (locOf w.cwd config.TargetPath ++ rs) = some (Node.dir true) := by
  obtain ⟨wrS, hsrc⟩ := ha.srcDir
  obtain ⟨mS, hmS⟩ := calculateDirMd5_returns md5 fuel w0 ha.valid _ _ hsrc hfuel hshS
  obtain ⟨mT, hmT⟩ := calculateDirMd5_returns md5 fuel w0 ha.valid _ _ ha.tgtDir hfuel hshT
  obtain ⟨r1, hwalk, hmir⟩ := mirroring_walk w0 config ha fuel hfuel hshS
  have hext := createDirIfNotExist_extends w config.TargetPath
  rw [h1] at hext
  refine ⟨copyLoop config mT r1 mS, by simp only [processFile, h1, hmS, hmT, hwalk],
    fun rs wr hd => ?_⟩
  apply copyLoop_keeps_dirs
  have := hmir rs wr (by rw [hext.1]; exact hext.2 _ _ hd)
  rwa [hext.1] at this

/-- C4, as amended, at two pairs whose roots are not plainly written: the
source root `./src/` with the target root `dst//`, which the first step
makes; and, from the working directory `/home/u`, the source root `.` with
the target root `../../back//`, where the run leaves `/back/docs` and
`/back/docs/old` as directories. -/
theorem processFile_mirrors_directories_witness :
    (createDirIfNotExist freshTarget (pair "./src/" "dst//").TargetPath
        = (freshTargetMade, none) ∧
      dirsCheck freshTargetMade (pair "./src/" "dst//").OriginalPath
        (pair "./src/" "dst//").TargetPath = true ∧
      ∃ r : Run, processFile plainDigest 4 freshTarget (pair "./src/" "dst//")
          = some (r, none) ∧
        ∀ rs wr, nodeAt freshTarget
            (locOf freshTarget.cwd (pair "./src/" "dst//").OriginalPath ++ rs)
              = some (Node.dir wr) →
          nodeAt r.world (locOf freshTarget.cwd (pair "./src/" "dst//").TargetPath ++ rs)
            = some (Node.dir true)) ∧
    (createDirIfNotExist homeTree (pair "." "../../back//").TargetPath = (homeTree, none) ∧
      dirsCheck homeTree (pair "." "../../back//").OriginalPath
        (pair "." "../../back//").TargetPath = true ∧
      (nodeAt homeTree (loc "back/docs"), nodeAt homeTree (loc "back/docs/old")) = (none, none) ∧
      (processFile plainDigest 5 homeTree (pair "." "../../back//")).map
          (fun r => (nodeAt r.1.world (loc "back/docs"), nodeAt r.1.world (loc "back/docs/old")))
        = some (some (Node.dir true), some (Node.dir true)) ∧
      ∃ r : Run, processFile plainDigest 5 homeTree (pair "." "../../back//")
          = some (r, none) ∧
        ∀ rs wr, nodeAt homeTree
            (locOf homeTree.cwd (pair "." "../../back//").OriginalPath ++ rs)
              = some (Node.dir wr) →
          nodeAt r.world (locOf homeTree.cwd (pair "." "../../back//").TargetPath ++ rs)
            = some (Node.dir true)) :=
  ⟨⟨by decide, by decide,
      processFile_mirrors_directories plainDigest 4 freshTarget freshTargetMade
        (pair "./src/" "dst//") (by decide) (dirsInOrder_of_check _ _ _ (by decide))
        (by decide) (shallow_of_check _ _ 0 _ (by decide))
        (shallow_of_check _ _ 0 _ (by decide))⟩,
    ⟨by decide, by decide, by decide, by decide,
      processFile_mirrors_directories plainDigest 5 homeTree homeTree
        (pair "." "../../back//") (by decide) (dirsInOrder_of_check _ _ _ (by decide))
        (by decide) (shallow_of_check _ _ 0 _ (by decide))
        (shallow_of_check _ _ 0 _ (by decide))⟩⟩

end SimpleFileBackUp
